import Mathlib

/-!
# Cryptobot: a verification development

Shallow embedding of the Bitvavo trading bot (`API_Handling.cpp`, `Cryptobot.cpp`)
and theorems about its retry loop, its candle merge and its indicator engine.

Conventions of the embedding

* A C++ exception or an out-of-bounds vector access is the value `none` of an
  `Option`-returning definition; a normal return is `some`.
* `double` arithmetic is read over an arbitrary linearly ordered field `K`
  (the real numbers in the theorems that need a square root).
* The network is a function from the attempt number to what that attempt
  observes; `std::this_thread::sleep_for` is recorded in a list of delays.
-/

namespace Cryptobot

/-! ## JSON values (`nlohmann::json`) -/

/-- A JSON value as `nlohmann::json` holds it; `Num` is the type of numbers. -/
inductive Json (Num : Type) where
  | null : Json Num
  | boolean (b : Bool) : Json Num
  | number (x : Num) : Json Num
  | string (s : String) : Json Num
  | array (elems : List (Json Num)) : Json Num
  | object (members : List (String × Json Num)) : Json Num

namespace Json

variable {Num : Type}

/-- The method `json::is_array`. -/
def is_array : Json Num → Bool
  | array _ => true
  | _ => false

/-- The method `json::is_string`. -/
def is_string : Json Num → Bool
  | string _ => true
  | _ => false

/-- The method `json::size`: 0 for null, the element count of an array or
object, 1 for every other value. -/
def size : Json Num → Nat
  | null => 0
  | array xs => xs.length
  | object ms => ms.length
  | _ => 1

/-- The method `json::empty`. -/
def empty (j : Json Num) : Bool := j.size == 0

/-- The elements a range-based `for` visits (array elements, object values,
the value itself for a primitive, nothing for null). -/
def items : Json Num → List (Json Num)
  | null => []
  | array xs => xs
  | object ms => ms.map Prod.snd
  | j => [j]

end Json

/-! ## `apiRequest` (API_Handling.cpp, lines 83-163) -/

/-- What one pass through the body of the retry loop observes. -/
inductive Attempt (Num : Type) where
  /-- The call `curl_easy_init()` returned a null handle. -/
  | initFailed : Attempt Num
  /-- The call `curl_easy_perform` returned something other than `CURLE_OK`. -/
  | transportError : Attempt Num
  /-- The exchange completed with status `http_code`; `body` is the result of
  `json::parse(response)`, `none` when it throws `parse_error`. -/
  | response (http_code : Int) (body : Option (Json Num)) : Attempt Num

/-- The observable outcome of `apiRequest`: the returned value, the final value
of `attempt`, and the arguments of the `sleep_for` calls in order. -/
structure ApiResult (Num : Type) where
  result : Json Num
  attempts : Nat
  sleeps : List Nat

/-- The constant `maxRetries`. -/
def maxRetries : Nat := 5

/-- The `while (attempt < maxRetries)` loop. `fuel` is `maxRetries - attempt`:
every iteration starts with `attempt++`, so the loop condition holds exactly
while `fuel` is positive. `net k` is what attempt number `k` observes. -/
def apiRequestLoop {Num : Type} (net : Nat → Attempt Num) :
    (fuel attempt delaySeconds : Nat) → (sleeps : List Nat) → ApiResult Num
  | 0, attempt, _, sleeps =>
      -- loop condition false: "Max retries reached. Returning empty JSON."
      ⟨Json.null, attempt, sleeps⟩
  | fuel + 1, attempt, delaySeconds, sleeps =>
      let attempt := attempt + 1
      match net attempt with
      | Attempt.initFailed => ⟨Json.null, attempt, sleeps⟩            -- break
      | Attempt.transportError =>
          apiRequestLoop net fuel attempt (delaySeconds * 2) (sleeps ++ [delaySeconds])
      | Attempt.response http_code body =>
          if http_code = 429 then
            apiRequestLoop net fuel attempt (delaySeconds * 2) (sleeps ++ [delaySeconds])
          else if http_code = 401 ∨ http_code = 403 then
            ⟨Json.null, attempt, sleeps⟩                              -- break
          else if http_code ≠ 200 ∧ http_code ≠ 201 then
            apiRequestLoop net fuel attempt (delaySeconds * 2) (sleeps ++ [delaySeconds])
          else
            match body with
            | some parsedResponse => ⟨parsedResponse, attempt, sleeps⟩ -- return
            | none =>
                apiRequestLoop net fuel attempt (delaySeconds * 2) (sleeps ++ [delaySeconds])

/-- The function `apiRequest`: `attempt = 0`, `delaySeconds = 1`. -/
def apiRequest {Num : Type} (net : Nat → Attempt Num) : ApiResult Num :=
  apiRequestLoop net maxRetries 0 1 []

/-- The retryable outcomes as the specification lists them: a transport
failure, HTTP 429, a non-2xx status other than 401/403, or an unparseable body
on a 2xx status. -/
def Retryable {Num : Type} : Attempt Num → Prop
  | Attempt.initFailed => False
  | Attempt.transportError => True
  | Attempt.response http_code body =>
      http_code = 429 ∨
      (¬ (200 ≤ http_code ∧ http_code ≤ 299) ∧ http_code ≠ 401 ∧ http_code ≠ 403) ∨
      ((200 ≤ http_code ∧ http_code ≤ 299) ∧ body = none)

/-- An attempt that received HTTP 401 or 403. -/
def AuthFailure {Num : Type} : Attempt Num → Prop
  | Attempt.response http_code _ => http_code = 401 ∨ http_code = 403
  | _ => False

/-- The doubling delays `1, 2, 4, ...` taken after the first `n` attempts. -/
def backoffDelays (n : Nat) : List Nat := (List.range n).map (fun i => 2 ^ i)

/-- A network on which every attempt is answered with HTTP 429. -/
def alwaysRateLimited : Nat → Attempt Nat := fun _ => Attempt.response 429 none

/-- A network that answers attempts 1 and 2 with HTTP 500 and every later
attempt with HTTP 403. -/
def forbiddenOnThird : Nat → Attempt Nat := fun k =>
  if k ≤ 2 then Attempt.response 500 none else Attempt.response 403 none

/-- A network on which every attempt is answered with HTTP 401. -/
def alwaysUnauthorized : Nat → Attempt Nat := fun _ => Attempt.response 401 none

/-! ## The candle store (Cryptobot.cpp, `fetchCandles`, lines 234-274) -/

/-- A stored candle, `vector<string>`:
`[timestamp, open, high, low, close, volume, ...]`. -/
abbrev Candle := List String

/-- The C function `isspace` in the "C" locale: space and `\t \n \v \f \r`. -/
def isspace (c : Char) : Bool := c.toNat == 32 || (9 ≤ c.toNat && c.toNat ≤ 13)

/-- The value of a run of decimal digits read left to right, `acc` being the
value read so far. -/
def digitsValue : List Char → Nat → Nat
  | [], acc => acc
  | c :: cs, acc => digitsValue cs (acc * 10 + (c.toNat - 48))

/-- The function `std::stoll(str)` (base 10): skips leading white space, reads an
optional sign and the longest run of digits. `none` stands for the exceptions
`invalid_argument` (no digit) and `out_of_range` (outside `long long`). -/
def stoll (str : String) : Option Int :=
  let cs := str.data.dropWhile isspace
  let signed : Bool × List Char :=
    match cs with
    | '-' :: rest => (true, rest)
    | '+' :: rest => (false, rest)
    | _ => (false, cs)
  let digits := signed.2.takeWhile Char.isDigit
  if digits.isEmpty then none
  else
    let v : Int := if signed.1 then - (digitsValue digits 0 : Int) else (digitsValue digits 0 : Int)
    if v < -(2 : Int) ^ 63 ∨ (2 : Int) ^ 63 - 1 < v then none else some v

/-- The expression `stoll(candle[0])`; `none` when the candle has no field 0
or `stoll` throws. -/
def openTime (candle : Candle) : Option Int :=
  match candle with
  | [] => none
  | ts :: _ => stoll ts

/-- The per-interval part of the bot state that `fetchCandles` touches:
`candlesByInterval[interval]` and `lastTimestamps[interval]` (`none` while the
map has no entry for the interval). -/
structure IntervalState where
  existingCandles : List Candle
  lastTimestamp : Option Int
  deriving DecidableEq

/-- The call `find_if(newCandles.begin(), newCandles.end(), pred)` with
`pred candle = stoll(candle[0]) > lastKnownTimestamp`: the range
`[it, newCandles.end())` it determines, empty when `it` is `end()`; `none` when
the predicate throws on a candle it examines. -/
def findNewer (lastKnownTimestamp : Int) : List Candle → Option (List Candle)
  | [] => some []
  | candle :: rest =>
      match openTime candle with
      | none => none
      | some ts =>
          if ts > lastKnownTimestamp then some (candle :: rest)
          else findNewer lastKnownTimestamp rest

/-- Lines 248-264 of `fetchCandles`: the merge of `newCandles` into the stored
series of one interval. -/
def mergeCandles (st : IntervalState) (newCandles : List Candle) : Option IntervalState :=
  if newCandles.isEmpty then some st
  else
    match st.existingCandles.getLast? with
    | some back =>
        -- `!existingCandles.empty()`
        match openTime back with
        | none => none
        | some lastKnownTimestamp =>
            match findNewer lastKnownTimestamp newCandles with
            | none => none
            | some [] => some st                       -- `it == newCandles.end()`
            | some (c :: cs) =>
                let existingCandles := st.existingCandles ++ (c :: cs)
                match existingCandles.getLast? with
                | none => none
                | some back2 =>
                    match openTime back2 with
                    | none => none
                    | some ts => some ⟨existingCandles, some ts⟩
    | none =>
        -- `existingCandles = newCandles`
        match newCandles.getLast? with
        | none => none
        | some back =>
            match openTime back with
            | none => none
            | some ts => some ⟨newCandles, some ts⟩

/-- The body of the loop over `response` in `fetchCandles` (lines 239-247): the
elements that are arrays of at least 6 values, each value turned into a string.
`numberText value` is `to_string(value.get<double>())`, `none` when
`get<double>` throws `type_error`. -/
def collectCandles {Num : Type} (numberText : Json Num → Option String) :
    List (Json Num) → Option (List Candle)
  | [] => some []
  | candle :: rest =>
      if candle.is_array && decide (6 ≤ candle.size) then
        match candle.items.mapM
            (fun value => match value with
              | Json.string s => some s
              | other => numberText other) with
        | none => none
        | some candleData =>
            match collectCandles numberText rest with
            | none => none
            | some newCandles => some (candleData :: newCandles)
      else collectCandles numberText rest

/-- The function `fetchCandles` on the response `apiRequest` returned: the new
state of the interval and the returned `bool`. -/
def fetchCandles {Num : Type} (numberText : Json Num → Option String)
    (st : IntervalState) (response : Json Num) : Option (IntervalState × Bool) :=
  if response.is_array && !response.empty then
    match collectCandles numberText response.items with
    | none => none
    | some newCandles =>
        if !newCandles.isEmpty then
          match mergeCandles st newCandles with
          | none => none
          | some st2 => some (st2, true)
        else some (st, false)
  else some (st, false)

/-- Whether the candle's open time parses and is strictly greater than `t`. -/
def newerThan (t : Int) (candle : Candle) : Bool :=
  match openTime candle with
  | some ts => decide (t < ts)
  | none => false

/-- Candle `a` opens no later than candle `b` (both open times parse). -/
def openTimeLE (a b : Candle) : Bool :=
  match openTime a, openTime b with
  | some ta, some tb => decide (ta ≤ tb)
  | _, _ => false

/-- Candle `a` opens strictly before candle `b` (both open times parse). -/
def openTimeLT (a b : Candle) : Bool :=
  match openTime a, openTime b with
  | some ta, some tb => decide (ta < tb)
  | _, _ => false

/-- A batch sorted ascending by open time: every open time parses and no candle
opens later than a candle after it. -/
def SortedAscending (batch : List Candle) : Prop :=
  (∀ c ∈ batch, (openTime c).isSome = true) ∧ batch.Pairwise (fun a b => openTimeLE a b = true)

/-- A series strictly increasing in open time: every open time parses and every
candle opens strictly before every candle after it. -/
def StrictlyIncreasing (series : List Candle) : Prop :=
  (∀ c ∈ series, (openTime c).isSome = true) ∧ series.Pairwise (fun a b => openTimeLT a b = true)

/-- A candle with the given timestamp text and fixed prices. -/
def candleAt (ts : String) : Candle := [ts, "10", "12", "9", "11", "100"]

/-- The stored series is usable by the merge: it is empty or the open time of
its last candle parses (true of every series an earlier merge produced). -/
def LastParses (st : IntervalState) : Prop :=
  ∀ back, st.existingCandles.getLast? = some back → (openTime back).isSome = true

/-- A store holding one candle opened at 1000. -/
def storeOne : IntervalState := ⟨[candleAt "1000"], some 1000⟩

/-- A batch overlapping `storeOne`: candles opened at 900, 1000, 1060, 1120. -/
def overlapBatch : List Candle :=
  [candleAt "900", candleAt "1000", candleAt "1060", candleAt "1120"]

/-- A batch sorted ascending in which two candles share the open time 1060. -/
def duplicateBatch : List Candle := [candleAt "1060", candleAt "1060"]

/-- A response whose only candle is the one `storeOne` already holds. -/
def sameCandleResponse : Json Nat :=
  Json.array [Json.array [Json.string "1000", Json.string "10", Json.string "12",
    Json.string "9", Json.string "11", Json.string "100"]]

/-- A rendering of JSON numbers for the examples: the decimal digits of a
natural number followed by six zero decimals, and `type_error` for a value
that is not a number. -/
def natText : Json Nat → Option String
  | Json.number x => some (toString x ++ ".000000")
  | _ => none

/-! ## The indicator engine (Cryptobot.cpp, `calculateIndicators`, lines 91-198) -/

/-- The struct `IndicatorData`, over the number type `K`. -/
structure IndicatorData (K : Type) where
  rsi : K
  macd : K
  macd_signal : K
  macd_hist : K
  ema : K
  bb_middle : K
  bb_upper : K
  bb_lower : K
  atr : K

/-- A default-constructed `IndicatorData`: every member is `0.0`. -/
def IndicatorData.default (K : Type) [Zero K] : IndicatorData K :=
  ⟨0, 0, 0, 0, 0, 0, 0, 0, 0⟩

/-- The statement `v[i] = f(v[i])` on a vector: `none` when `i` is out of
bounds. -/
def updateAt {α : Type} : List α → Nat → (α → α) → Option (List α)
  | [], _, _ => none
  | x :: xs, 0, f => some (f x :: xs)
  | x :: xs, i + 1, f =>
      match updateAt xs i f with
      | none => none
      | some ys => some (x :: ys)

/-- The statement `v[i] = x` on a vector. -/
def writeAt {α : Type} (v : List α) (i : Nat) (x : α) : Option (List α) :=
  updateAt v i (fun _ => x)

/-- The call `v.resize(n)`: the first `n` elements are kept, missing ones are
value-initialised. -/
def resize {α : Type} (v : List α) (n : Nat) (d : α) : List α :=
  v.take n ++ List.replicate (n - v.length) d

/-- A counting loop `for (i = start; i < start + count; i++) s = body(i, s)`
whose body may fail. -/
def forLoop {σ : Type} (body : Nat → σ → Option σ) : (count start : Nat) → σ → Option σ
  | 0, _, s => some s
  | count + 1, i, s =>
      match body i s with
      | none => none
      | some s2 => forLoop body count (i + 1) s2

section Indicators

variable {K : Type} [LinearOrderedField K]

/-- The function `calculateEMA(prices, period, index, prevEMA)`. -/
def calculateEMA (prices : List K) (period : K) (index : Nat) (prevEMA : K) : Option K :=
  let multiplier : K := 2 / (period + 1)
  if index = 0 then prices[0]?
  else
    match prices[index]? with
    | none => none
    | some p => some (p * multiplier + prevEMA * (1 - multiplier))

/-- Lines 104-109: the closes, highs and lows of the candles, read with `stod`
from fields 4, 2 and 3; `stod s = none` when `stod` throws. -/
def parseCandles (stod : String → Option K) : List Candle → Option (List K × List K × List K)
  | [] => some ([], [], [])
  | candle :: rest => do
      let close ← candle[4]? >>= stod
      let high ← candle[2]? >>= stod
      let low ← candle[3]? >>= stod
      let (closes, highs, lows) ← parseCandles stod rest
      some (close :: closes, high :: highs, low :: lows)

/-- Body of the loop of lines 118-122 on the vectors `(delta, gain, loss)`. -/
def gainLossStep (closes : List K) (i : Nat) (s : List K × List K × List K) :
    Option (List K × List K × List K) := do
  let ci ← closes[i]?
  let cp ← closes[i - 1]?
  let delta ← writeAt s.1 i (ci - cp)
  let di ← delta[i]?
  if di > 0 then do
    let gain ← writeAt s.2.1 i di
    some (delta, gain, s.2.2)
  else do
    let loss ← writeAt s.2.2 i (-di)
    some (delta, s.2.1, loss)

/-- Body of the loop of lines 124-127 on `(avgGain, avgLoss)`. -/
def rsiSeedStep (gain loss : List K) (i : Nat) (s : K × K) : Option (K × K) := do
  let g ← gain[i]?
  let l ← loss[i]?
  some (s.1 + g, s.2 + l)

/-- Body of the loop of lines 130-135 on `(avgGain, avgLoss, indicators)`. -/
def rsiStep (gain loss : List K) (i : Nat) (s : K × K × List (IndicatorData K)) :
    Option (K × K × List (IndicatorData K)) := do
  let g ← gain[i]?
  let l ← loss[i]?
  let avgGain := (s.1 * 13 + g) / 14
  let avgLoss := (s.2.1 * 13 + l) / 14
  let rs : K := if avgLoss = 0 then 100 else avgGain / avgLoss
  let indicators ← updateAt s.2.2 i (fun d => { d with rsi := 100 - 100 / (1 + rs) })
  some (avgGain, avgLoss, indicators)

/-- Lines 113-136: the RSI block. -/
def rsiBlock (closes : List K) (indicators : List (IndicatorData K)) :
    Option (List (IndicatorData K)) :=
  let n := closes.length
  if 14 ≤ n then do
    let zeros : List K := List.replicate n 0
    let (_, gain, loss) ← forLoop (gainLossStep closes) (n - 1) 1 (zeros, zeros, zeros)
    let (sumGain, sumLoss) ← forLoop (rsiSeedStep gain loss) (14 - 13) 13 (0, 0)
    let avgGain := sumGain / 14
    let avgLoss := sumLoss / 14
    let (_, _, out) ← forLoop (rsiStep gain loss) (n - 14) 14 (avgGain, avgLoss, indicators)
    some out
  else some indicators

/-- Body of the loop of lines 140-144 on `(ema12, ema26, indicators)`. -/
def macdStep (closes : List K) (i : Nat) (s : List K × List K × List (IndicatorData K)) :
    Option (List K × List K × List (IndicatorData K)) := do
  let prev12 ← (if i > 0 then s.1[i - 1]? else closes[0]?)
  let e12 ← calculateEMA closes 12 i prev12
  let ema12 ← writeAt s.1 i e12
  let prev26 ← (if i > 0 then s.2.1[i - 1]? else closes[0]?)
  let e26 ← calculateEMA closes 26 i prev26
  let ema26 ← writeAt s.2.1 i e26
  let a ← ema12[i]?
  let b ← ema26[i]?
  let indicators ← updateAt s.2.2 i (fun d => { d with macd := a - b })
  some (ema12, ema26, indicators)

/-- Body of the loop of lines 147-149 on `macdValues`. -/
def macdCopyStep (indicators : List (IndicatorData K)) (i : Nat) (macdValues : List K) :
    Option (List K) := do
  let d ← indicators[i]?
  writeAt macdValues i d.macd

/-- Body of the loop of lines 151-156 on `(macdSignal, indicators)`. -/
def macdSignalStep (macdValues : List K) (i : Nat) (s : List K × List (IndicatorData K)) :
    Option (List K × List (IndicatorData K)) := do
  let macdSlice := macdValues.take (i + 1)
  let prev ← (if i > 0 then s.1[i - 1]? else macdValues[0]?)
  let e ← calculateEMA macdSlice 9 i prev
  let macdSignal ← writeAt s.1 i e
  let sig ← macdSignal[i]?
  let indicators ← updateAt s.2 i (fun d => { d with macd_signal := sig })
  let indicators ← updateAt indicators i (fun d => { d with macd_hist := d.macd - d.macd_signal })
  some (macdSignal, indicators)

/-- Lines 138-157: the MACD block. -/
def macdBlock (closes : List K) (indicators : List (IndicatorData K)) :
    Option (List (IndicatorData K)) := do
  let n := closes.length
  let zeros : List K := List.replicate n 0
  let (_, _, indicators) ← forLoop (macdStep closes) n 0 (zeros, zeros, indicators)
  if 9 ≤ n then do
    let macdValues ← forLoop (macdCopyStep indicators) n 0 zeros
    let (_, out) ← forLoop (macdSignalStep macdValues) n 0 (zeros, indicators)
    some out
  else some indicators

/-- Body of the loop of lines 160-162. -/
def emaStep (closes : List K) (i : Nat) (indicators : List (IndicatorData K)) :
    Option (List (IndicatorData K)) := do
  let prev ← (if i > 0 then (indicators[i - 1]?).map (fun d => d.ema) else closes[0]?)
  let e ← calculateEMA closes 20 i prev
  updateAt indicators i (fun d => { d with ema := e })

/-- Lines 159-162: the EMA(20) block. -/
def emaBlock (closes : List K) (indicators : List (IndicatorData K)) :
    Option (List (IndicatorData K)) :=
  forLoop (emaStep closes) closes.length 0 indicators

/-- Body of the loop of line 168 on `sum`. -/
def sumStep (closes : List K) (j : Nat) (sum : K) : Option K := do
  let c ← closes[j]?
  some (sum + c)

/-- Body of the loop of lines 170-173 on `sumSq`. -/
def sumSqStep (closes : List K) (indicators : List (IndicatorData K)) (i j : Nat) (sumSq : K) :
    Option K := do
  let c ← closes[j]?
  let d ← indicators[i]?
  let diff := c - d.bb_middle
  some (sumSq + diff * diff)

/-- Body of the loop of lines 166-177; `sqrt` is the library square root. -/
def bollingerStep (sqrt : K → K) (closes : List K) (i : Nat)
    (indicators : List (IndicatorData K)) : Option (List (IndicatorData K)) := do
  let sum ← forLoop (sumStep closes) 20 (i - 19) 0
  let indicators ← updateAt indicators i (fun d => { d with bb_middle := sum / 20 })
  let sumSq ← forLoop (sumSqStep closes indicators i) 20 (i - 19) 0
  let stdDev := sqrt (sumSq / 20)
  let indicators ← updateAt indicators i (fun d => { d with bb_upper := d.bb_middle + 2 * stdDev })
  updateAt indicators i (fun d => { d with bb_lower := d.bb_middle - 2 * stdDev })

/-- Lines 164-178: the Bollinger block. -/
def bollingerBlock (sqrt : K → K) (closes : List K) (indicators : List (IndicatorData K)) :
    Option (List (IndicatorData K)) :=
  let n := closes.length
  if 20 ≤ n then forLoop (bollingerStep sqrt closes) (n - 19) 19 indicators
  else some indicators

/-- Body of the loop of lines 183-190 on `tr`. -/
def trueRangeStep (closes highs lows : List K) (i : Nat) (tr : List K) : Option (List K) := do
  let h ← highs[i]?
  let l ← lows[i]?
  let cp ← closes[i - 1]?
  let hl := h - l
  let hpc := |h - cp|
  let lpc := |l - cp|
  let tr ← writeAt tr i hl
  let t ← tr[i]?
  let tr ← (if hpc > t then writeAt tr i hpc else some tr)
  let t ← tr[i]?
  if lpc > t then writeAt tr i lpc else some tr

/-- Body of the loop of line 192 on `sumTR`. -/
def sumTRStep (tr : List K) (i : Nat) (sumTR : K) : Option K := do
  let t ← tr[i]?
  some (sumTR + t)

/-- Body of the loop of lines 194-196. -/
def atrStep (tr : List K) (i : Nat) (indicators : List (IndicatorData K)) :
    Option (List (IndicatorData K)) := do
  let p ← indicators[i - 1]?
  let t ← tr[i]?
  updateAt indicators i (fun d => { d with atr := (p.atr * 13 + t) / 14 })

/-- Lines 180-197: the ATR block. -/
def atrBlock (closes highs lows : List K) (indicators : List (IndicatorData K)) :
    Option (List (IndicatorData K)) :=
  let n := closes.length
  if 14 ≤ n then do
    let zeros : List K := List.replicate n 0
    let tr ← forLoop (trueRangeStep closes highs lows) (n - 1) 1 zeros
    let sumTR ← forLoop (sumTRStep tr) 14 1 0
    let indicators ← updateAt indicators 14 (fun d => { d with atr := sumTR / 14 })
    forLoop (atrStep tr) (n - 15) 15 indicators
  else some indicators

/-- The function `calculateIndicators` for one interval: `candles` is
`candlesByInterval[interval]`, `indicators` is `indicatorsByInterval[interval]`
before the call (empty when the map has no entry yet), the result is that
vector after the call. `none` stands for an exception of `stod` or an
out-of-bounds access. -/
def calculateIndicators (sqrt : K → K) (stod : String → Option K) (candles : List Candle)
    (indicators : List (IndicatorData K)) : Option (List (IndicatorData K)) :=
  if candles.isEmpty then some indicators
  else do
    let (closes, highs, lows) ← parseCandles stod candles
    let indicators := resize indicators closes.length (IndicatorData.default K)
    let indicators ← rsiBlock closes indicators
    let indicators ← macdBlock closes indicators
    let indicators ← emaBlock closes indicators
    let indicators ← bollingerBlock sqrt closes indicators
    atrBlock closes highs lows indicators

/-- The closes `closes[i-19..i]` of the Bollinger window that ends at `i`. -/
def bbWindow (closes : List K) (i : Nat) : List K := (closes.drop (i - 19)).take 20

/-- The simple mean of the closes of the window that ends at `i`. -/
def windowMean (closes : List K) (i : Nat) : K := (bbWindow closes i).sum / 20

/-- The population variance of the closes of the window that ends at `i`; the
population standard deviation is its square root. -/
def windowVariance (closes : List K) (i : Nat) : K :=
  ((bbWindow closes i).map
    (fun c => (c - windowMean closes i) * (c - windowMean closes i))).sum / 20

end Indicators

/-- A reader of decimal integers, used as `stod` in the examples. -/
def intStod (K : Type) [IntCast K] (s : String) : Option K :=
  (stoll s).map (fun z => (z : K))

/-- A series of `n` equal candles: close 11, high 12, low 9. -/
def flatCandles (n : Nat) : List Candle := List.replicate n (candleAt "1000")

/-- A series of `n` equal candles whose high (9) lies below the low (12). -/
def invertedCandles (n : Nat) : List Candle :=
  List.replicate n ["1000", "10", "9", "12", "11", "100"]

/-! ## Signals and the trade coordinator (Cryptobot.cpp, lines 386-531) -/

section Trading

variable {K : Type} [LinearOrderedField K]

/-- Lines 484-486: the buy condition on one timeframe. -/
def buySignalOn (tickerPrice : K) (last : IndicatorData K) : Bool :=
  decide (tickerPrice < last.bb_lower) && decide (last.rsi < 30) && decide (last.macd_hist > 0)

/-- Lines 492-494: the sell condition on one timeframe. -/
def sellSignalOn (tickerPrice : K) (last : IndicatorData K) : Bool :=
  decide (tickerPrice > last.bb_upper) && decide (last.rsi > 70) && decide (last.macd_hist < 0)

/-- Line 489: `buySignal = buySignal1h && buySignal15m && buySignal5m`. -/
def buySignal (tickerPrice : K) (last1h last15m last5m : IndicatorData K) : Bool :=
  buySignalOn tickerPrice last1h && buySignalOn tickerPrice last15m &&
    buySignalOn tickerPrice last5m

/-- Line 497: `sellSignal = sellSignal1h && sellSignal15m && sellSignal5m`. -/
def sellSignal (tickerPrice : K) (last1h last15m last5m : IndicatorData K) : Bool :=
  sellSignalOn tickerPrice last1h && sellSignalOn tickerPrice last15m &&
    sellSignalOn tickerPrice last5m

/-- The member variables of `CryptoTradingBot` that order placement reads or
writes. The files written by `logTrade` and `saveTotalProfitLoss` are not part
of it: neither function touches a member variable. -/
structure BotState (K : Type) where
  entryPrice : K
  totalProfitLoss : K
  boughtCryptoAmount : K
  maxPositionSize : K
  isSimulation : Bool
  simFiatBalance : K
  simCryptoBalance : K
  deriving DecidableEq

/-- The function `placeMarketOrder(side, amount)`: the state after the call and
the returned `bool`. `tickerPrice` is what the call of `getTickerPrice()` in the
simulation branch returns, `responseEmpty` is `response.empty()` for the
response of `apiRequest("order", "POST", body)` in the real branch. -/
def placeMarketOrder (st : BotState K) (side : String) (amount : K)
    (tickerPrice : K) (responseEmpty : Bool) : BotState K × Bool :=
  if st.isSimulation then
    if tickerPrice = 0 then (st, false)
    else if side = "buy" then
      if st.simFiatBalance ≥ amount then
        let cryptoBought := amount / tickerPrice
        ({ st with
            simFiatBalance := st.simFiatBalance - amount
            simCryptoBalance := st.simCryptoBalance + cryptoBought
            entryPrice := tickerPrice
            boughtCryptoAmount := cryptoBought }, true)
      else (st, false)
    else if side = "sell" then
      if st.simCryptoBalance ≥ amount then
        let fiatReceived := amount * tickerPrice
        let profitLoss := (tickerPrice - st.entryPrice) * amount
        ({ st with
            simCryptoBalance := st.simCryptoBalance - amount
            simFiatBalance := st.simFiatBalance + fiatReceived
            totalProfitLoss := st.totalProfitLoss + profitLoss
            entryPrice := 0
            boughtCryptoAmount := 0 }, true)
      else (st, false)
    else (st, false)
  else
    if !responseEmpty then (st, true) else (st, false)

/-- What one pass of the loop of `enhancedTradeLogic` reads from outside the
bot state: the ticker price of line 455, the balances the exchange reports (used
in real mode), the last snapshot of each of the three indicator vectors (`none`
for an empty vector), and what the order placement observes. -/
structure CycleEnv (K : Type) where
  tickerPrice : K
  apiFiatBalance : K
  apiCryptoBalance : K
  last1h : Option (IndicatorData K)
  last15m : Option (IndicatorData K)
  last5m : Option (IndicatorData K)
  orderTickerPrice : K
  orderResponseEmpty : Bool

/-- The state after one pass, and the call of `placeMarketOrder` the pass made,
if any: side, amount and returned value. -/
structure CycleResult (K : Type) where
  state : BotState K
  order : Option (String × K × Bool)

/-- The function `getFiatBalance()`. -/
def getFiatBalance (st : BotState K) (env : CycleEnv K) : K :=
  if st.isSimulation then st.simFiatBalance else env.apiFiatBalance

/-- The function `getCryptoBalance()`. -/
def getCryptoBalance (st : BotState K) (env : CycleEnv K) : K :=
  if st.isSimulation then st.simCryptoBalance else env.apiCryptoBalance

/-- One pass of the `while (true)` loop of `enhancedTradeLogic`, lines 455-532,
as far as the bot state is concerned. -/
def pollCycle (st : BotState K) (env : CycleEnv K) : CycleResult K :=
  let tickerPrice := env.tickerPrice
  if tickerPrice = 0 then ⟨st, none⟩                      -- `continue`
  else
    let fiatBalance := getFiatBalance st env
    let cryptoBalance := getCryptoBalance st env
    match env.last1h, env.last15m, env.last5m with
    | some last1h, some last15m, some last5m =>
        let buy := buySignal tickerPrice last1h last15m last5m
        let sell := sellSignal tickerPrice last1h last15m last5m
        if cryptoBalance < 1 / 100000000 ∧ fiatBalance > 50 ∧ buy = true then
          let positionSize := st.maxPositionSize * fiatBalance
          let r := placeMarketOrder st "buy" positionSize env.orderTickerPrice
            env.orderResponseEmpty
          if r.2 = true then
            if !st.isSimulation then
              ⟨{ r.1 with
                  entryPrice := tickerPrice
                  boughtCryptoAmount := positionSize / tickerPrice },
                some ("buy", positionSize, true)⟩
            else ⟨r.1, some ("buy", positionSize, true)⟩
          else ⟨r.1, some ("buy", positionSize, false)⟩
        else if cryptoBalance > 1 / 100000 ∧ st.entryPrice > 0 ∧ sell = true then
          let r := placeMarketOrder st "sell" cryptoBalance env.orderTickerPrice
            env.orderResponseEmpty
          if r.2 = true then
            if !st.isSimulation then
              let profitLoss := (tickerPrice - r.1.entryPrice) * r.1.boughtCryptoAmount
              ⟨{ r.1 with
                  totalProfitLoss := r.1.totalProfitLoss + profitLoss
                  entryPrice := 0
                  boughtCryptoAmount := 0 },
                some ("sell", cryptoBalance, true)⟩
            else ⟨r.1, some ("sell", cryptoBalance, true)⟩
          else ⟨r.1, some ("sell", cryptoBalance, false)⟩
        else ⟨st, none⟩
    | _, _, _ => ⟨st, none⟩

end Trading

/-- A snapshot on which the sell condition holds at price 100: upper band 90,
rsi 80, histogram -1. -/
def sellSnapshot : IndicatorData ℚ := ⟨80, 0, 0, -1, 0, 85, 90, 80, 0⟩

/-- A real-mode bot that holds no recorded position: entry price 0. -/
def realNoEntry : BotState ℚ := ⟨0, 0, 0, 1 / 4, false, 0, 0⟩

/-- A cycle at price 100 in which the exchange reports 1 unit of crypto and all
three timeframes show the sell condition. -/
def sellCycle : CycleEnv ℚ :=
  ⟨100, 0, 1, some sellSnapshot, some sellSnapshot, some sellSnapshot, 100, false⟩

/-- A simulated bot holding 2 units bought at 90, with 500 of fiat. -/
def simHolding : BotState ℚ := ⟨90, 5, 2, 1 / 4, true, 500, 2⟩

/-! ## `HeaderCallback` (API_Handling.cpp, lines 47-80) -/

/-- The search of `std::string::find`: the index of the first occurrence of
`key` in `s`, `s` being the part of the string that starts at index `off`. -/
def findFrom (key : List Char) : List Char → Nat → Option Nat
  | [], off => if key.isEmpty then some off else none
  | c :: cs, off =>
      if key.isPrefixOf (c :: cs) then some off else findFrom key cs (off + 1)

/-- The call `s.find(key, pos)`; `none` is `string::npos`. -/
def find (s key : String) (pos : Nat) : Option Nat :=
  if pos > s.data.length then none else findFrom key.data (s.data.drop pos) pos

/-- The call `s.substr(pos)` for `pos` within the string. -/
def substr (s : String) (pos : Nat) : String := String.mk (s.data.drop pos)

/-- The lambda `extractValue(headerLine, key)`: the integer after the first colon
that follows `key`, and -1 when the key or colon is missing or `stoll` throws. -/
def extractValue (headerLine key : String) : Int :=
  match find headerLine key 0 with
  | some pos =>
      match find headerLine ":" pos with
      | some start =>
          match stoll (substr headerLine (start + 1)) with
          | some v => v
          | none => -1
      | none => -1
  | none => -1

/-- The four locations `HeaderCallback` writes: the pair `rateLimitData` passed
as `userdata` and the two globals of `config.cpp`. -/
structure RateLimit where
  localRemaining : Int
  localResetAt : Int
  g_rateLimitRemaining : Int
  g_rateLimitResetAt : Int
  deriving DecidableEq

/-- The function `HeaderCallback` on one header line. -/
def HeaderCallback (header : String) (st : RateLimit) : RateLimit :=
  let st1 :=
    if (find header "bitvavo-ratelimit-remaining:" 0).isSome then
      let val := extractValue header "bitvavo-ratelimit-remaining"
      { st with localRemaining := val, g_rateLimitRemaining := val }
    else st
  if (find header "bitvavo-ratelimit-resetat:" 0).isSome then
    let val := extractValue header "bitvavo-ratelimit-resetat"
    { st1 with localResetAt := val, g_rateLimitResetAt := val }
  else st1

/-- The rate-limit state before any header was seen: all four values are -1. -/
def noRateLimit : RateLimit := ⟨-1, -1, -1, -1⟩

/-! ## Closed forms of the indicator loops -/

section ClosedForms

variable {K : Type} [LinearOrderedField K]

/-- Lines 115-129: the values of `avgGain` and `avgLoss` when the smoothing loop
of the RSI block starts (the block runs for at least 14 closes). -/
def rsiSeed (closes : List K) : Option (K × K) := do
  let n := closes.length
  let zeros : List K := List.replicate n 0
  let (_, gain, loss) ← forLoop (gainLossStep closes) (n - 1) 1 (zeros, zeros, zeros)
  let (sumGain, sumLoss) ← forLoop (rsiSeedStep gain loss) (14 - 13) 13 (0, 0)
  some (sumGain / 14, sumLoss / 14)

/-- The per-step gain at index `i`: `max(closes[i] - closes[i-1], 0)`. -/
def gainAt (closes : List K) (i : Nat) : K :=
  max (closes.getD i 0 - closes.getD (i - 1) 0) 0

/-- The per-step loss at index `i`: `max(closes[i-1] - closes[i], 0)`. -/
def lossAt (closes : List K) (i : Nat) : K :=
  max (closes.getD (i - 1) 0 - closes.getD i 0) 0

/-- The arithmetic mean of `f 1, ..., f 14`. -/
def meanOfFirst14 (f : Nat → K) : K := ((List.range' 1 14).map f).sum / 14

/-- The EMA recurrence of the specification: `EMA[0] = C[0]` and
`EMA[i] = C[i]*k + EMA[i-1]*(1-k)` with `k = 2/(period+1)`. -/
def emaAt (period : K) (prices : List K) : Nat → K
  | 0 => prices.getD 0 0
  | i + 1 =>
      prices.getD (i + 1) 0 * (2 / (period + 1)) +
        emaAt period prices i * (1 - 2 / (period + 1))

/-- The MACD line: `EMA12[i] - EMA26[i]`. -/
def macdAt (closes : List K) (i : Nat) : K := emaAt 12 closes i - emaAt 26 closes i

/-- The MACD series of a candle series, one value per candle. -/
def macdSeries (closes : List K) : List K := (List.range closes.length).map (macdAt closes)

/-- The signal line: the period-9 EMA recurrence on the MACD series, seeded at
`MACD[0]`. -/
def signalAt (closes : List K) (i : Nat) : K := emaAt 9 (macdSeries closes) i

/-- The pair `(avgGain, avgLoss)` after `k` passes of the smoothing loop that
starts at index 14 from `seed`. -/
def wilderAvg (gain loss : List K) (seed : K × K) : Nat → K × K
  | 0 => seed
  | k + 1 =>
      (((wilderAvg gain loss seed k).1 * 13 + gain.getD (14 + k) 0) / 14,
        ((wilderAvg gain loss seed k).2 * 13 + loss.getD (14 + k) 0) / 14)

/-- Lines 133-134: the rsi computed from `(avgGain, avgLoss)`. -/
def rsiOf (avg : K × K) : K :=
  100 - 100 / (1 + (if avg.2 = 0 then (100 : K) else avg.1 / avg.2))

/-- The atr stored at index `14 + k`: the seed at `k = 0`, then Wilder
smoothing with `tr[15 + k]`. -/
def atrAt (tr : List K) (seed : K) : Nat → K
  | 0 => seed
  | k + 1 => (atrAt tr seed k * 13 + tr.getD (15 + k) 0) / 14

/-- What a run of `calculateIndicators` on a series with closes `closes` makes of
the snapshot `d` stored at index `j`: the members a block writes at `j` get the
block's value (`R j` for rsi, `A j` for atr), the others keep what `d` holds. -/
def snapshotUpdate (sqrt : K → K) (closes : List K) (R A : Nat → K) (j : Nat)
    (d : IndicatorData K) : IndicatorData K :=
  { rsi := if 14 ≤ closes.length ∧ 14 ≤ j then R j else d.rsi
    macd := macdAt closes j
    macd_signal := if 9 ≤ closes.length then signalAt closes j else d.macd_signal
    macd_hist :=
      if 9 ≤ closes.length then macdAt closes j - signalAt closes j else d.macd_hist
    ema := emaAt 20 closes j
    bb_middle :=
      if 20 ≤ closes.length ∧ 19 ≤ j then windowMean closes j else d.bb_middle
    bb_upper :=
      if 20 ≤ closes.length ∧ 19 ≤ j then
        windowMean closes j + 2 * sqrt (windowVariance closes j)
      else d.bb_upper
    bb_lower :=
      if 20 ≤ closes.length ∧ 19 ≤ j then
        windowMean closes j - 2 * sqrt (windowVariance closes j)
      else d.bb_lower
    atr := if 14 ≤ closes.length ∧ 14 ≤ j then A j else d.atr }

end ClosedForms

/-- Fifteen candles whose close rises by 1 at every step, from 1 to 15 (high 20,
low 0). -/
def risingCandles : List Candle :=
  [["1000", "1", "20", "0", "1", "100"],
   ["1000", "1", "20", "0", "2", "100"],
   ["1000", "1", "20", "0", "3", "100"],
   ["1000", "1", "20", "0", "4", "100"],
   ["1000", "1", "20", "0", "5", "100"],
   ["1000", "1", "20", "0", "6", "100"],
   ["1000", "1", "20", "0", "7", "100"],
   ["1000", "1", "20", "0", "8", "100"],
   ["1000", "1", "20", "0", "9", "100"],
   ["1000", "1", "20", "0", "10", "100"],
   ["1000", "1", "20", "0", "11", "100"],
   ["1000", "1", "20", "0", "12", "100"],
   ["1000", "1", "20", "0", "13", "100"],
   ["1000", "1", "20", "0", "14", "100"],
   ["1000", "1", "20", "0", "15", "100"]]

/-- The closes of `risingCandles`. -/
def risingCloses : List ℚ := [1, 2, 3, 4, 5, 6, 7, 8, 9, 10, 11, 12, 13, 14, 15]

/-- Two candles with closes 10 and 12. -/
def twoCandles : List Candle :=
  [["1000", "10", "12", "9", "10", "100"], ["1060", "10", "12", "9", "12", "100"]]

/-! # Theorems -/

/-! ### Lemmas on the retry loop -/

/-- One retryable attempt sleeps `delaySeconds`, doubles it, and continues. -/
theorem apiRequestLoop_retry {Num : Type} (net : Nat → Attempt Num)
    (fuel attempt delaySeconds : Nat) (sleeps : List Nat)
    (h : Retryable (net (attempt + 1))) :
    apiRequestLoop net (fuel + 1) attempt delaySeconds sleeps =
      apiRequestLoop net fuel (attempt + 1) (delaySeconds * 2) (sleeps ++ [delaySeconds]) := by
  rw [apiRequestLoop]
  cases hnet : net (attempt + 1) with
  | initFailed => rw [hnet] at h; exact absurd h (by simp [Retryable])
  | transportError => rfl
  | response code body =>
    rw [hnet] at h
    simp only [Retryable] at h
    simp only
    by_cases h429 : code = 429
    · simp [h429]
    · rw [if_neg h429]
      rcases h with h | ⟨_, h1, h3⟩ | ⟨h2xx, hb⟩
      · exact absurd h h429
      · rw [if_neg (by omega), if_pos (by omega)]
      · rw [if_neg (by omega)]
        by_cases hok : code ≠ 200 ∧ code ≠ 201
        · rw [if_pos hok]
        · rw [if_neg hok, hb]

/-- An attempt that receives 401 or 403 leaves the loop at once. -/
theorem apiRequestLoop_auth {Num : Type} (net : Nat → Attempt Num)
    (fuel attempt delaySeconds : Nat) (sleeps : List Nat)
    (h : AuthFailure (net (attempt + 1))) :
    apiRequestLoop net (fuel + 1) attempt delaySeconds sleeps =
      ⟨Json.null, attempt + 1, sleeps⟩ := by
  rw [apiRequestLoop]
  cases hnet : net (attempt + 1) with
  | initFailed => rfl
  | transportError => rw [hnet] at h; exact absurd h (by simp [AuthFailure])
  | response code body =>
    rw [hnet] at h
    simp only [AuthFailure] at h
    simp only
    rw [if_neg (by omega), if_pos h]

theorem backoffDelays_succ (n : Nat) : backoffDelays (n + 1) = backoffDelays n ++ [2 ^ n] := by
  simp [backoffDelays, List.range_succ]

/-- After `j` retryable attempts the loop has `attempt = j`, `delaySeconds = 2^j`
and has slept `1, 2, ..., 2^(j-1)`. -/
theorem apiRequestLoop_retries {Num : Type} (net : Nat → Attempt Num) (j fuel : Nat)
    (h : ∀ i, 1 ≤ i → i ≤ j → Retryable (net i)) :
    apiRequestLoop net (fuel + j) 0 1 [] =
      apiRequestLoop net fuel j (2 ^ j) (backoffDelays j) := by
  induction j generalizing fuel with
  | zero => rfl
  | succ j ih =>
    have h1 := ih (fuel + 1) (fun i h1 h2 => h i h1 (by omega))
    have e : fuel + (j + 1) = fuel + 1 + j := by omega
    rw [e, h1, apiRequestLoop_retry net fuel j (2 ^ j) (backoffDelays j) (h (j + 1) (by omega) le_rfl),
      backoffDelays_succ, pow_succ]

/-- C1: for every sequence of five retryable outcomes (transport failure, HTTP
429, a non-2xx status other than 401/403, an unparseable 2xx body), apiRequest
makes exactly 5 attempts, sleeps 1, 2, 4, 8 and 16 seconds after attempts 1 to 5,
and returns the empty JSON value. -/
theorem apiRequest_exhausts_five_attempts {Num : Type} (net : Nat → Attempt Num)
    (h : ∀ i, 1 ≤ i → i ≤ 5 → Retryable (net i)) :
    (apiRequest net).attempts = 5 ∧ (apiRequest net).sleeps = [1, 2, 4, 8, 16] ∧
      (apiRequest net).result = Json.null := by
  have e := apiRequestLoop_retries net 5 0 h
  have e2 : apiRequest net = ⟨Json.null, 5, backoffDelays 5⟩ := by
    unfold apiRequest maxRetries
    rw [show (5 : Nat) = 0 + 5 from rfl, e]
    rfl
  rw [e2]
  exact ⟨rfl, rfl, rfl⟩

/-- Witness for C1: a network that always answers 429. -/
theorem apiRequest_exhausts_five_attempts_witness :
    (apiRequest alwaysRateLimited).attempts = 5 ∧
      (apiRequest alwaysRateLimited).sleeps = [1, 2, 4, 8, 16] ∧
      (apiRequest alwaysRateLimited).result = Json.null :=
  apiRequest_exhausts_five_attempts alwaysRateLimited
    (fun _ _ _ => by simp [alwaysRateLimited, Retryable])

/-- C2: for every k from 1 to 5, if the first k-1 attempts end in retryable
outcomes and attempt k receives HTTP 401 or 403, then exactly k attempts are
made, the delays taken are those after attempts 1 to k-1 only (none after
attempt k), and the loop is left; a 401 on the first attempt gives exactly one
attempt and no delay. -/
theorem apiRequest_auth_failure_stops {Num : Type} (net : Nat → Attempt Num) (k : Nat)
    (hk1 : 1 ≤ k) (hk5 : k ≤ 5)
    (hretry : ∀ i, 1 ≤ i → i < k → Retryable (net i))
    (hauth : AuthFailure (net k)) :
    (apiRequest net).attempts = k ∧ (apiRequest net).sleeps = backoffDelays (k - 1) ∧
      (apiRequest net).sleeps.length = k - 1 ∧
      (k = 1 → (apiRequest net).attempts = 1 ∧ (apiRequest net).sleeps = []) := by
  obtain ⟨j, rfl⟩ : ∃ j, k = j + 1 := ⟨k - 1, by omega⟩
  have e := apiRequestLoop_retries net j (5 - j) (fun i h1 h2 => hretry i h1 (by omega))
  have e2 : apiRequest net = ⟨Json.null, j + 1, backoffDelays j⟩ := by
    unfold apiRequest maxRetries
    rw [show (5 : Nat) = (5 - j) + j by omega, e]
    obtain ⟨f, hf⟩ : ∃ f, 5 - j = f + 1 := ⟨5 - j - 1, by omega⟩
    rw [hf, apiRequestLoop_auth net f j _ _ hauth]
  rw [e2]
  refine ⟨rfl, rfl, by simp [backoffDelays], ?_⟩
  intro h1
  have : j = 0 := by omega
  subst this
  exact ⟨rfl, rfl⟩

/-- Witness for C2: two HTTP 500 answers, then HTTP 403 on the third attempt. -/
theorem apiRequest_auth_failure_stops_witness :
    (apiRequest forbiddenOnThird).attempts = 3 ∧
      (apiRequest forbiddenOnThird).sleeps = backoffDelays (3 - 1) ∧
      (apiRequest forbiddenOnThird).sleeps.length = 3 - 1 ∧
      (3 = 1 → (apiRequest forbiddenOnThird).attempts = 1 ∧
        (apiRequest forbiddenOnThird).sleeps = []) :=
  apiRequest_auth_failure_stops forbiddenOnThird 3 (by decide) (by decide)
    (fun i h1 h2 => by
      have hi : i ≤ 2 := by omega
      simp [forbiddenOnThird, hi, Retryable])
    (by simp [forbiddenOnThird, AuthFailure])

/-- C3 (counterexample): the claim says the value returned for an
authentication failure differs from the empty result returned after the retries
are exhausted; on a network that always answers 401 and one that always answers
429 the two returned values are the same empty JSON value. -/
theorem apiRequest_auth_not_distinguished :
    ¬ ((apiRequest alwaysUnauthorized).result ≠ (apiRequest alwaysRateLimited).result) := by
  intro h
  exact h rfl

/-- C3 (amended): when attempt k (1 to 5) receives HTTP 401 or 403 after k-1
retryable attempts, apiRequest stops retrying and returns the empty JSON value,
which is the value it also returns after exhausting its five attempts on any
network of retryable outcomes. -/
theorem apiRequest_auth_returns_empty {Num : Type} (net exhausted : Nat → Attempt Num) (k : Nat)
    (hk1 : 1 ≤ k) (hk5 : k ≤ 5)
    (hretry : ∀ i, 1 ≤ i → i < k → Retryable (net i))
    (hauth : AuthFailure (net k))
    (hexh : ∀ i, 1 ≤ i → i ≤ 5 → Retryable (exhausted i)) :
    (apiRequest net).result = Json.null ∧
      (apiRequest net).result = (apiRequest exhausted).result := by
  obtain ⟨j, rfl⟩ : ∃ j, k = j + 1 := ⟨k - 1, by omega⟩
  have e := apiRequestLoop_retries net j (5 - j) (fun i h1 h2 => hretry i h1 (by omega))
  have e2 : apiRequest net = ⟨Json.null, j + 1, backoffDelays j⟩ := by
    unfold apiRequest maxRetries
    rw [show (5 : Nat) = (5 - j) + j by omega, e]
    obtain ⟨f, hf⟩ : ∃ f, 5 - j = f + 1 := ⟨5 - j - 1, by omega⟩
    rw [hf, apiRequestLoop_auth net f j _ _ hauth]
  have e3 : apiRequest exhausted = ⟨Json.null, 5, backoffDelays 5⟩ := by
    unfold apiRequest maxRetries
    rw [show (5 : Nat) = 0 + 5 from rfl, apiRequestLoop_retries exhausted 5 0 hexh]
    rfl
  rw [e2, e3]
  exact ⟨rfl, rfl⟩

/-- Witness for C3 (amended): 401 on the first attempt against a network that
always answers 429. -/
theorem apiRequest_auth_returns_empty_witness :
    (apiRequest alwaysUnauthorized).result = Json.null ∧
      (apiRequest alwaysUnauthorized).result = (apiRequest alwaysRateLimited).result :=
  apiRequest_auth_returns_empty alwaysUnauthorized alwaysRateLimited 1 (by decide) (by decide)
    (fun i h1 h2 => by omega)
    (by simp [alwaysUnauthorized, AuthFailure])
    (fun _ _ _ => by simp [alwaysRateLimited, Retryable])

/-! ### Lemmas on the candle merge -/

theorem newerThan_of_le {t : Int} {a b : Candle} (ha : newerThan t a = true)
    (hab : openTimeLE a b = true) : newerThan t b = true := by
  unfold newerThan at ha ⊢
  unfold openTimeLE at hab
  cases hA : openTime a with
  | none => simp [hA] at ha
  | some ta =>
    cases hB : openTime b with
    | none => simp [hA, hB] at hab
    | some tb =>
      simp only [hA, hB, decide_eq_true_eq] at ha hab ⊢
      omega

theorem openTimeLE_of_LT {a b : Candle} (h : openTimeLT a b = true) : openTimeLE a b = true := by
  unfold openTimeLT at h
  unfold openTimeLE
  cases hA : openTime a with
  | none => simp [hA] at h
  | some ta =>
    cases hB : openTime b with
    | none => simp [hA, hB] at h
    | some tb =>
      simp only [hA, hB, decide_eq_true_eq] at h ⊢
      omega

theorem SortedAscending.of_strict {batch : List Candle} (h : StrictlyIncreasing batch) :
    SortedAscending batch :=
  ⟨h.1, h.2.imp (fun hab => openTimeLE_of_LT hab)⟩

theorem SortedAscending.tail {c : Candle} {rest : List Candle}
    (h : SortedAscending (c :: rest)) : SortedAscending rest :=
  ⟨fun d hd => h.1 d (List.mem_cons_of_mem _ hd), (List.pairwise_cons.mp h.2).2⟩

/-- When every open time parses, `find_if` returns the batch without its
longest leading run of candles that are not newer than `t`. -/
theorem findNewer_eq_dropWhile (t : Int) (batch : List Candle)
    (h : ∀ c ∈ batch, (openTime c).isSome = true) :
    findNewer t batch = some (batch.dropWhile (fun c => !newerThan t c)) := by
  induction batch with
  | nil => rfl
  | cons c rest ih =>
    have hc := h c (List.mem_cons_self _ _)
    obtain ⟨ts, hts⟩ := Option.isSome_iff_exists.mp hc
    have ih2 := ih (fun d hd => h d (List.mem_cons_of_mem _ hd))
    by_cases hlt : t < ts
    · simp [findNewer, hts, List.dropWhile_cons, newerThan, hlt]
    · simp [findNewer, hts, List.dropWhile_cons, newerThan, hlt, ih2]

/-- On a batch sorted ascending, everything after the first newer candle is
newer: the range `find_if` yields is the batch filtered by "newer than `t`". -/
theorem dropWhile_eq_filter_of_sorted (t : Int) (batch : List Candle)
    (hs : SortedAscending batch) :
    batch.dropWhile (fun c => !newerThan t c) = batch.filter (newerThan t) := by
  induction batch with
  | nil => rfl
  | cons c rest ih =>
    have ih2 := ih hs.tail
    have hp := List.pairwise_cons.mp hs.2
    by_cases hc : newerThan t c = true
    · have hall : ∀ d ∈ rest, newerThan t d = true := fun d hd => newerThan_of_le hc (hp.1 d hd)
      simp [List.dropWhile_cons, List.filter_cons, hc, List.filter_eq_self.mpr hall]
    · simp [List.dropWhile_cons, List.filter_cons, hc, ih2]

theorem findNewer_eq_filter (t : Int) (batch : List Candle) (hs : SortedAscending batch) :
    findNewer t batch = some (batch.filter (newerThan t)) := by
  rw [findNewer_eq_dropWhile t batch hs.1, dropWhile_eq_filter_of_sorted t batch hs]

/-- A non-empty result of `dropWhile` ends where the list ends. -/
theorem getLast?_dropWhile {α : Type} (p : α → Bool) (l : List α)
    (h : l.dropWhile p ≠ []) : (l.dropWhile p).getLast? = l.getLast? := by
  induction l with
  | nil => rfl
  | cons a rest ih =>
    by_cases hp : p a = true
    · have e : (a :: rest).dropWhile p = rest.dropWhile p := by simp [List.dropWhile_cons, hp]
      rw [e] at h ⊢
      rw [ih h]
      cases rest with
      | nil => simp at h
      | cons b r => simp [List.getLast?_cons_cons]
    · simp [List.dropWhile_cons, hp]

/-- In a list whose elements are pairwise related, every element is the last
one or related to it. -/
theorem pairwise_getLast? {α : Type} {R : α → α → Prop} (l : List α) (back : α)
    (hp : l.Pairwise R) (hb : l.getLast? = some back) :
    ∀ a ∈ l, a = back ∨ R a back := by
  induction l with
  | nil => intro a ha; simp at ha
  | cons x rest ih =>
    intro a ha
    have hp2 := List.pairwise_cons.mp hp
    cases rest with
    | nil =>
      simp at hb ha
      left; rw [ha, hb]
    | cons y r =>
      rw [List.getLast?_cons_cons] at hb
      have hmem : back ∈ y :: r := List.mem_of_getLast?_eq_some hb
      rcases List.mem_cons.mp ha with rfl | ha2
      · right; exact hp2.1 back hmem
      · exact ih hp2.2 hb a ha2

/-- No candle of a sorted batch is newer than the batch's last candle. -/
theorem filter_newer_last_eq_nil (batch : List Candle) (back : Candle) (ts : Int)
    (hs : SortedAscending batch) (hb : batch.getLast? = some back)
    (hts : openTime back = some ts) : batch.filter (newerThan ts) = [] := by
  rw [List.filter_eq_nil_iff]
  intro c hc
  have hself : newerThan ts back = false := by simp [newerThan, hts]
  rcases pairwise_getLast? batch back hs.2 hb c hc with rfl | hle
  · simp [hself]
  · intro hn
    unfold newerThan at hn
    unfold openTimeLE at hle
    cases hC : openTime c with
    | none => simp [hC] at hn
    | some tc =>
      simp only [hC, hts, decide_eq_true_eq] at hn hle
      omega

theorem getLast?_append_cons {α : Type} (l : List α) (c : α) (cs : List α) :
    (l ++ c :: cs).getLast? = (c :: cs).getLast? := by
  rw [List.getLast?_append]
  cases h : (c :: cs).getLast? with
  | none => simp at h
  | some x => simp

/-- The merge into an empty series stores the whole batch. -/
theorem mergeCandles_empty (st : IntervalState) (batch : List Candle)
    (hne : batch ≠ []) (hs : SortedAscending batch) (he : st.existingCandles = []) :
    ∃ back ts, batch.getLast? = some back ∧ openTime back = some ts ∧
      mergeCandles st batch = some ⟨batch, some ts⟩ := by
  obtain ⟨back, hback⟩ : ∃ back, batch.getLast? = some back := by
    cases h : batch.getLast? with
    | none => exact absurd (List.getLast?_eq_none_iff.mp h) hne
    | some b => exact ⟨b, rfl⟩
  obtain ⟨ts, hts⟩ := Option.isSome_iff_exists.mp (hs.1 back (List.mem_of_getLast?_eq_some hback))
  refine ⟨back, ts, hback, hts, ?_⟩
  have hne2 : batch.isEmpty = false := by
    cases batch with
    | nil => exact absurd rfl hne
    | cons _ _ => rfl
  simp [mergeCandles, hne2, he, hback, hts]

/-- The merge into a non-empty series whose last candle opened at `t` appends
the candles of the batch newer than `t`. -/
theorem mergeCandles_nonempty (st : IntervalState) (batch : List Candle)
    (hs : SortedAscending batch) (back : Candle) (t : Int)
    (hb : st.existingCandles.getLast? = some back) (ht : openTime back = some t) :
    ∃ st2, mergeCandles st batch = some st2 ∧
      st2.existingCandles = st.existingCandles ++ batch.filter (newerThan t) ∧
      (batch.filter (newerThan t) = [] → st2 = st) ∧
      (batch.filter (newerThan t) ≠ [] → ∃ back2 ts,
        batch.getLast? = some back2 ∧ openTime back2 = some ts ∧
        st2.existingCandles.getLast? = some back2) := by
  by_cases hemp : batch.isEmpty = true
  · have : batch = [] := List.isEmpty_iff.mp hemp
    subst this
    exact ⟨st, by simp [mergeCandles], by simp, fun _ => rfl, fun h => absurd rfl h⟩
  · have hf := findNewer_eq_filter t batch hs
    cases hfl : batch.filter (newerThan t) with
    | nil =>
      refine ⟨st, ?_, by simp, fun _ => rfl, fun h => absurd rfl h⟩
      simp [mergeCandles, hemp, hb, ht, hf, hfl]
    | cons c cs =>
      have hdw : batch.dropWhile (fun c => !newerThan t c) = c :: cs := by
        rw [dropWhile_eq_filter_of_sorted t batch hs, hfl]
      have hlast : (c :: cs).getLast? = batch.getLast? := by
        rw [← hdw]
        exact getLast?_dropWhile _ batch (by rw [hdw]; simp)
      obtain ⟨back2, hback2⟩ : ∃ back2, (c :: cs).getLast? = some back2 := by
        cases h : (c :: cs).getLast? with
        | none => simp at h
        | some b => exact ⟨b, rfl⟩
      have hmem : back2 ∈ batch := List.mem_of_getLast?_eq_some (hlast ▸ hback2)
      obtain ⟨ts, hts⟩ := Option.isSome_iff_exists.mp (hs.1 back2 hmem)
      have happ : (st.existingCandles ++ c :: cs).getLast? = some back2 := by
        rw [getLast?_append_cons, hback2]
      refine ⟨⟨st.existingCandles ++ c :: cs, some ts⟩, ?_, rfl, fun h => by simp at h,
        fun _ => ⟨back2, ts, hlast ▸ hback2, hts, happ⟩⟩
      simp [mergeCandles, hemp, hb, ht, hf, hfl, happ, hts]

/-- The merge of a sorted batch into a series whose last open time parses
terminates normally. -/
theorem mergeCandles_some (st : IntervalState) (batch : List Candle)
    (hs : SortedAscending batch) (hst : LastParses st) :
    ∃ st1, mergeCandles st batch = some st1 := by
  by_cases hne : batch = []
  · subst hne
    exact ⟨st, by simp [mergeCandles]⟩
  · cases hlast : st.existingCandles.getLast? with
    | none =>
      obtain ⟨_, ts, _, _, h⟩ :=
        mergeCandles_empty st batch hne hs (List.getLast?_eq_none_iff.mp hlast)
      exact ⟨_, h⟩
    | some back =>
      obtain ⟨t, ht⟩ := Option.isSome_iff_exists.mp (hst back hlast)
      obtain ⟨st1, h1, _⟩ := mergeCandles_nonempty st batch hs back t hlast ht
      exact ⟨st1, h1⟩

/-- C4: for every stored series and every non-empty incoming batch sorted
ascending by openTime, the merge leaves the series equal to the batch when the
series was empty, and otherwise equal to the old series followed by exactly the
incoming candles whose openTime is strictly greater than the old last openTime,
in incoming order; the stored candles are an unchanged leading part. -/
theorem mergeCandles_appends_newer (st : IntervalState) (batch : List Candle)
    (hne : batch ≠ []) (hs : SortedAscending batch) :
    (st.existingCandles = [] →
      ∃ st2, mergeCandles st batch = some st2 ∧ st2.existingCandles = batch) ∧
    (∀ back t, st.existingCandles.getLast? = some back → openTime back = some t →
      ∃ st2, mergeCandles st batch = some st2 ∧
        st2.existingCandles = st.existingCandles ++ batch.filter (newerThan t) ∧
        st2.existingCandles.take st.existingCandles.length = st.existingCandles) := by
  constructor
  · intro he
    obtain ⟨_, ts, _, _, h⟩ := mergeCandles_empty st batch hne hs he
    exact ⟨_, h, rfl⟩
  · intro back t hb ht
    obtain ⟨st2, h1, h2, _⟩ := mergeCandles_nonempty st batch hs back t hb ht
    exact ⟨st2, h1, h2, by rw [h2]; simp⟩

/-- Witness for C4: a store holding the candle of 1000 merged with the batch
900, 1000, 1060, 1120 keeps its candle and appends those of 1060 and 1120. -/
theorem mergeCandles_appends_newer_witness :
    ∃ st2, mergeCandles storeOne overlapBatch = some st2 ∧
      st2.existingCandles = storeOne.existingCandles ++ overlapBatch.filter (newerThan 1000) ∧
      st2.existingCandles.take storeOne.existingCandles.length = storeOne.existingCandles :=
  (mergeCandles_appends_newer storeOne overlapBatch (by decide)
    (by unfold SortedAscending; decide)).2 (candleAt "1000") 1000 (by decide) (by decide)

/-- C5: for every stored series and every incoming batch sorted ascending by
openTime, merging the batch and then merging the same batch again appends
nothing the second time: the state after the second merge is the state after
the first. -/
theorem mergeCandles_idempotent (st : IntervalState) (batch : List Candle)
    (hs : SortedAscending batch) (hst : LastParses st) :
    ∃ st1, mergeCandles st batch = some st1 ∧ mergeCandles st1 batch = some st1 ∧
      ∀ st2, mergeCandles st1 batch = some st2 →
        st2.existingCandles.length - st1.existingCandles.length = 0 := by
  suffices h : ∃ st1, mergeCandles st batch = some st1 ∧ mergeCandles st1 batch = some st1 by
    obtain ⟨st1, h1, h2⟩ := h
    refine ⟨st1, h1, h2, ?_⟩
    intro st2 h3
    rw [h2] at h3
    simp only [Option.some.injEq] at h3
    rw [h3]; simp
  by_cases hne : batch = []
  · subst hne
    exact ⟨st, by simp [mergeCandles], by simp [mergeCandles]⟩
  · cases hlast : st.existingCandles.getLast? with
    | none =>
      have he : st.existingCandles = [] := List.getLast?_eq_none_iff.mp hlast
      obtain ⟨back, ts, hb, hts, h⟩ := mergeCandles_empty st batch hne hs he
      refine ⟨_, h, ?_⟩
      obtain ⟨st2, h1, _, h3, _⟩ :=
        mergeCandles_nonempty ⟨batch, some ts⟩ batch hs back ts hb hts
      rw [h1, h3 (filter_newer_last_eq_nil batch back ts hs hb hts)]
    | some back =>
      obtain ⟨t, ht⟩ := Option.isSome_iff_exists.mp (hst back hlast)
      obtain ⟨st1, h1, _, h3, h4⟩ := mergeCandles_nonempty st batch hs back t hlast ht
      refine ⟨st1, h1, ?_⟩
      by_cases hf : batch.filter (newerThan t) = []
      · rw [h3 hf, h1, h3 hf]
      · obtain ⟨back2, ts, hb2, hts, hl2⟩ := h4 hf
        obtain ⟨st2, k1, _, k3, _⟩ := mergeCandles_nonempty st1 batch hs back2 ts hl2 hts
        rw [k1, k3 (filter_newer_last_eq_nil batch back2 ts hs hb2 hts)]

/-- Witness for C5: the overlapping batch merged twice into `storeOne`. -/
theorem mergeCandles_idempotent_witness :
    ∃ st1, mergeCandles storeOne overlapBatch = some st1 ∧
      mergeCandles st1 overlapBatch = some st1 ∧
      ∀ st2, mergeCandles st1 overlapBatch = some st2 →
        st2.existingCandles.length - st1.existingCandles.length = 0 :=
  mergeCandles_idempotent storeOne overlapBatch (by unfold SortedAscending; decide)
    (by unfold LastParses; decide)

/-- C6 (counterexample): a batch sorted ascending may repeat an open time; merged
into the empty series (or after an older candle) both copies are stored, and the
series is not strictly increasing. -/
theorem mergeCandles_keeps_duplicates :
    SortedAscending duplicateBatch ∧
      mergeCandles ⟨[], none⟩ duplicateBatch = some ⟨duplicateBatch, some 1060⟩ ∧
      mergeCandles storeOne duplicateBatch =
        some ⟨candleAt "1000" :: duplicateBatch, some 1060⟩ ∧
      ¬ StrictlyIncreasing duplicateBatch ∧
      ¬ StrictlyIncreasing (candleAt "1000" :: duplicateBatch) := by
  refine ⟨by unfold SortedAscending; decide, by decide, by decide, ?_, ?_⟩ <;>
    (unfold StrictlyIncreasing; decide)

/-- C6 (amended): for every series that is empty or strictly increasing in
openTime and every incoming batch strictly increasing in openTime (sorted
ascending with no repeated open time), the series after the merge is strictly
increasing, so no two stored candles share an openTime. -/
theorem mergeCandles_strictly_increasing (st : IntervalState) (batch : List Candle)
    (hst : StrictlyIncreasing st.existingCandles) (hb : StrictlyIncreasing batch) :
    ∃ st2, mergeCandles st batch = some st2 ∧ StrictlyIncreasing st2.existingCandles := by
  have hs := SortedAscending.of_strict hb
  by_cases hne : batch = []
  · subst hne
    exact ⟨st, by simp [mergeCandles], hst⟩
  · cases hlast : st.existingCandles.getLast? with
    | none =>
      have he : st.existingCandles = [] := List.getLast?_eq_none_iff.mp hlast
      obtain ⟨back, ts, _, _, h⟩ := mergeCandles_empty st batch hne hs he
      exact ⟨_, h, hb⟩
    | some back =>
      have hmem := List.mem_of_getLast?_eq_some hlast
      obtain ⟨t, ht⟩ := Option.isSome_iff_exists.mp (hst.1 back hmem)
      obtain ⟨st2, h1, h2, _⟩ := mergeCandles_nonempty st batch hs back t hlast ht
      refine ⟨st2, h1, ?_⟩
      rw [h2]
      constructor
      · intro c hc
        rcases List.mem_append.mp hc with h | h
        · exact hst.1 c h
        · exact hb.1 c (List.mem_of_mem_filter h)
      · rw [List.pairwise_append]
        refine ⟨hst.2, hb.2.sublist (List.filter_sublist _), ?_⟩
        intro a ha b hbm
        have hnew : newerThan t b = true := (List.mem_filter.mp hbm).2
        have hab : a = back ∨ openTimeLT a back = true :=
          pairwise_getLast? st.existingCandles back hst.2 hlast a ha
        unfold newerThan at hnew
        unfold openTimeLT at hab ⊢
        cases hB : openTime b with
        | none => simp [hB] at hnew
        | some tb =>
          simp only [hB, decide_eq_true_eq] at hnew
          rcases hab with rfl | hab
          · simp only [ht, decide_eq_true_eq]; exact hnew
          · cases hA : openTime a with
            | none => simp [hA] at hab
            | some ta =>
              simp only [hA, ht, decide_eq_true_eq] at hab ⊢
              omega

/-- Witness for C6 (amended): the strictly increasing overlapping batch merged
into `storeOne`. -/
theorem mergeCandles_strictly_increasing_witness :
    ∃ st2, mergeCandles storeOne overlapBatch = some st2 ∧
      StrictlyIncreasing st2.existingCandles :=
  mergeCandles_strictly_increasing storeOne overlapBatch
    (by unfold StrictlyIncreasing; decide) (by unfold StrictlyIncreasing; decide)

/-- C7 (counterexample): `fetchCandles` returns a `bool`, not a count; on a
response that repeats the one stored candle it returns `true` (1 as a number)
although the series did not grow, so its result is neither the growth of the
series nor zero when nothing was appended. -/
theorem fetchCandles_true_without_growth :
    fetchCandles natText storeOne sameCandleResponse = some (storeOne, true) ∧
      ¬ (Bool.toNat true =
          storeOne.existingCandles.length - storeOne.existingCandles.length) := by
  constructor
  · decide
  · decide

/-- C7 (amended): `fetchCandles` returns a boolean that tells whether the
response held at least one valid candle: for every stored series whose last
open time parses and every array response whose valid candles form a batch
sorted ascending, it returns `true` exactly when that batch is non-empty,
whatever the number of candles appended, and the series it leaves is the merged
one; on a response that is not an array it returns `false` and leaves the series
unchanged. -/
theorem fetchCandles_returns_nonempty_flag {Num : Type} (numberText : Json Num → Option String)
    (st : IntervalState) (response : Json Num) (batch : List Candle)
    (hc : collectCandles numberText response.items = some batch)
    (hs : SortedAscending batch) (hst : LastParses st) :
    (response.is_array = true →
      ∃ st2, mergeCandles st batch = some st2 ∧
        fetchCandles numberText st response = some (st2, !batch.isEmpty)) ∧
    (response.is_array = false → fetchCandles numberText st response = some (st, false)) := by
  constructor
  · intro harr
    obtain ⟨st1, h1⟩ := mergeCandles_some st batch hs hst
    refine ⟨st1, h1, ?_⟩
    by_cases hemp : response.empty = true
    · have hitems : response.items = [] := by
        cases response with
        | array xs =>
          have : xs.length = 0 := by simpa [Json.empty, Json.size] using hemp
          simpa [Json.items] using List.length_eq_zero.mp this
        | _ => simp [Json.is_array] at harr
      rw [hitems] at hc
      simp only [collectCandles, Option.some.injEq] at hc
      subst hc
      simp only [mergeCandles, List.isEmpty_nil, if_true, Option.some.injEq] at h1
      simp [fetchCandles, harr, hemp, h1]
    · by_cases hb : batch.isEmpty = true
      · have : batch = [] := List.isEmpty_iff.mp hb
        subst this
        simp only [mergeCandles, List.isEmpty_nil, if_true, Option.some.injEq] at h1
        simp [fetchCandles, harr, hemp, hc, h1]
      · simp [fetchCandles, harr, hemp, hc, hb, h1]
  · intro harr
    simp [fetchCandles, harr]

/-- Witness for C7 (amended): the response repeating the stored candle. -/
theorem fetchCandles_returns_nonempty_flag_witness :
    ∃ st2, mergeCandles storeOne [candleAt "1000"] = some st2 ∧
      fetchCandles natText storeOne sameCandleResponse =
        some (st2, !([candleAt "1000"] : List Candle).isEmpty) :=
  (fetchCandles_returns_nonempty_flag natText storeOne sameCandleResponse [candleAt "1000"]
    (by decide) (by unfold SortedAscending; decide) (by unfold LastParses; decide)).1 (by decide)

/-! ### Lemmas on vectors and loops -/

/-- A loop whose body succeeds and keeps an invariant at every index of its
range terminates normally with the invariant established at the end. -/
theorem forLoop_inv {σ : Type} (body : Nat → σ → Option σ) (Inv : Nat → σ → Prop) :
    ∀ (count start : Nat) (s : σ), Inv start s →
      (∀ i t, start ≤ i → i < start + count → Inv i t →
        ∃ t2, body i t = some t2 ∧ Inv (i + 1) t2) →
      ∃ s2, forLoop body count start s = some s2 ∧ Inv (start + count) s2 := by
  intro count
  induction count with
  | zero => intro start s h0 _; exact ⟨s, rfl, h0⟩
  | succ count ih =>
    intro start s h0 hstep
    obtain ⟨t2, hb, hi⟩ := hstep start s le_rfl (by omega) h0
    obtain ⟨s2, hs2, hinv⟩ := ih (start + 1) t2 hi
      (fun i t h1 h2 h3 => hstep i t (by omega) (by omega) h3)
    refine ⟨s2, ?_, ?_⟩
    · simp only [forLoop, hb, hs2]
    · have e : start + (count + 1) = start + 1 + count := by omega
      rw [e]; exact hinv

theorem getElem?_of_lt {α : Type} (l : List α) (i : Nat) (h : i < l.length) :
    ∃ x, l[i]? = some x ∧ x ∈ l :=
  ⟨l[i], List.getElem?_eq_getElem h, List.getElem_mem h⟩

/-- An in-bounds update succeeds, keeps the length, changes position `i` by `f`
and nothing else. -/
theorem updateAt_spec {α : Type} (f : α → α) :
    ∀ (v : List α) (i : Nat), i < v.length →
      ∃ out, updateAt v i f = some out ∧ out.length = v.length ∧
        out[i]? = (v[i]?).map f ∧ (∀ j, j ≠ i → out[j]? = v[j]?) := by
  intro v
  induction v with
  | nil => intro i h; simp at h
  | cons x xs ih =>
    intro i h
    cases i with
    | zero =>
      refine ⟨f x :: xs, rfl, by simp, by simp, ?_⟩
      intro j hj
      cases j with
      | zero => exact absurd rfl hj
      | succ j => simp
    | succ i =>
      obtain ⟨ys, h1, h2, h3, h4⟩ := ih i (by simpa using h)
      refine ⟨x :: ys, by simp [updateAt, h1], by simp [h2], by simpa using h3, ?_⟩
      intro j hj
      cases j with
      | zero => simp
      | succ j => simpa using h4 j (by omega)

/-- Every element after an update is an old element or the image of one. -/
theorem updateAt_mem {α : Type} (f : α → α) :
    ∀ (v : List α) (i : Nat) (out : List α), updateAt v i f = some out →
      ∀ y ∈ out, y ∈ v ∨ ∃ x ∈ v, y = f x := by
  intro v
  induction v with
  | nil => intro i out h; simp [updateAt] at h
  | cons x xs ih =>
    intro i out h y hy
    cases i with
    | zero =>
      simp only [updateAt, Option.some.injEq] at h
      subst h
      rcases List.mem_cons.mp hy with rfl | hy
      · exact Or.inr ⟨x, List.mem_cons_self _ _, rfl⟩
      · exact Or.inl (List.mem_cons_of_mem _ hy)
    | succ i =>
      cases hu : updateAt xs i f with
      | none => simp [updateAt, hu] at h
      | some ys =>
        simp only [updateAt, hu, Option.some.injEq] at h
        subst h
        rcases List.mem_cons.mp hy with rfl | hy
        · exact Or.inl (List.mem_cons_self _ _)
        · rcases ih i ys hu y hy with h1 | ⟨z, hz, rfl⟩
          · exact Or.inl (List.mem_cons_of_mem _ h1)
          · exact Or.inr ⟨z, List.mem_cons_of_mem _ hz, rfl⟩

/-- A property of all elements that `f` keeps survives an update. -/
theorem updateAt_forall {α : Type} (f : α → α) (P : α → Prop) (v out : List α) (i : Nat)
    (h : updateAt v i f = some out) (hv : ∀ x ∈ v, P x) (hf : ∀ x ∈ v, P (f x)) :
    ∀ y ∈ out, P y := by
  intro y hy
  rcases updateAt_mem f v i out h y hy with h1 | ⟨x, hx, rfl⟩
  · exact hv y h1
  · exact hf x hx

/-- A projection that `f` does not change is the same before and after. -/
theorem updateAt_map {α β : Type} (f : α → α) (g : α → β) (hg : ∀ x, g (f x) = g x) :
    ∀ (v : List α) (i : Nat) (out : List α), updateAt v i f = some out →
      out.map g = v.map g := by
  intro v
  induction v with
  | nil => intro i out h; simp [updateAt] at h
  | cons x xs ih =>
    intro i out h
    cases i with
    | zero =>
      simp only [updateAt, Option.some.injEq] at h
      subst h
      simp [hg]
    | succ i =>
      cases hu : updateAt xs i f with
      | none => simp [updateAt, hu] at h
      | some ys =>
        simp only [updateAt, hu, Option.some.injEq] at h
        subst h
        simp [ih i ys hu]

theorem resize_length {α : Type} (v : List α) (n : Nat) (d : α) : (resize v n d).length = n := by
  simp [resize]
  omega

theorem resize_mem {α : Type} (v : List α) (n : Nat) (d : α) :
    ∀ y ∈ resize v n d, y ∈ v ∨ y = d := by
  intro y hy
  rcases List.mem_append.mp hy with h | h
  · exact Or.inl (List.mem_of_mem_take h)
  · exact Or.inr (List.eq_of_mem_replicate h)

theorem parseCandles_length {K : Type} (stod : String → Option K) :
    ∀ (candles : List Candle) (closes highs lows : List K),
      parseCandles stod candles = some (closes, highs, lows) →
      closes.length = candles.length ∧ highs.length = candles.length ∧
        lows.length = candles.length := by
  intro candles
  induction candles with
  | nil =>
    intro closes highs lows h
    simp only [parseCandles, Option.some.injEq, Prod.mk.injEq] at h
    obtain ⟨rfl, rfl, rfl⟩ := h
    exact ⟨rfl, rfl, rfl⟩
  | cons c rest ih =>
    intro closes highs lows h
    simp only [parseCandles, Option.bind_eq_bind, Option.bind_eq_some] at h
    obtain ⟨close, _, high, _, low, _, ⟨cs, hs, ls⟩, hrest, heq⟩ := h
    simp only [Option.some.injEq, Prod.mk.injEq] at heq
    obtain ⟨rfl, rfl, rfl⟩ := heq
    obtain ⟨h1, h2, h3⟩ := ih cs hs ls hrest
    simp [h1, h2, h3]

section IndicatorLemmas

variable {K : Type} [LinearOrderedField K]

/-- The range an RSI value lies in. -/
theorem rsi_value_bounds (avgGain avgLoss : K) (hg : 0 ≤ avgGain) (hl : 0 ≤ avgLoss) :
    0 ≤ 100 - 100 / (1 + (if avgLoss = 0 then (100 : K) else avgGain / avgLoss)) ∧
      100 - 100 / (1 + (if avgLoss = 0 then (100 : K) else avgGain / avgLoss)) ≤ 100 := by
  have hrs : (0 : K) ≤ (if avgLoss = 0 then (100 : K) else avgGain / avgLoss) := by
    split
    · norm_num
    · exact div_nonneg hg hl
  generalize (if avgLoss = 0 then (100 : K) else avgGain / avgLoss) = rs at hrs
  have h1 : (0 : K) < 1 + rs := by linarith
  have h2 : 100 / (1 + rs) ≤ 100 := by
    rw [div_le_iff₀ h1]
    nlinarith
  have h3 : (0 : K) ≤ 100 / (1 + rs) := div_nonneg (by norm_num) h1.le
  constructor <;> linarith

/-- The gain/loss loop terminates normally with vectors of the length of
`closes` whose entries are all non-negative. -/
theorem gainLoss_loop (closes : List K) :
    ∃ delta gain loss,
      forLoop (gainLossStep closes) (closes.length - 1) 1
        (List.replicate closes.length 0, List.replicate closes.length 0,
          List.replicate closes.length 0) = some (delta, gain, loss) ∧
      gain.length = closes.length ∧ loss.length = closes.length ∧
      (∀ x ∈ gain, 0 ≤ x) ∧ (∀ x ∈ loss, 0 ≤ x) := by
  obtain ⟨⟨delta, gain, loss⟩, h, hinv⟩ := forLoop_inv (gainLossStep closes)
    (fun _ s => s.1.length = closes.length ∧ s.2.1.length = closes.length ∧
      s.2.2.length = closes.length ∧ (∀ x ∈ s.2.1, (0 : K) ≤ x) ∧ (∀ x ∈ s.2.2, (0 : K) ≤ x))
    (closes.length - 1) 1
    (List.replicate closes.length 0, List.replicate closes.length 0,
      List.replicate closes.length 0)
    ⟨by simp, by simp, by simp,
      fun x hx => (List.eq_of_mem_replicate hx).ge, fun x hx => (List.eq_of_mem_replicate hx).ge⟩
    (by
      rintro i ⟨d, g, l⟩ h1 h2 ⟨hd, hg, hl, hg0, hl0⟩
      simp only at hd hg hl hg0 hl0
      obtain ⟨ci, hci, _⟩ := getElem?_of_lt closes i (by omega)
      obtain ⟨cp, hcp, _⟩ := getElem?_of_lt closes (i - 1) (by omega)
      obtain ⟨d2, hd2, hd2len, hd2i, _⟩ := updateAt_spec (fun _ => ci - cp) d i (by omega)
      obtain ⟨di, hdi, _⟩ := getElem?_of_lt d2 i (by omega)
      by_cases hpos : di > 0
      · obtain ⟨g2, hg2, hg2len, _, _⟩ := updateAt_spec (fun _ => di) g i (by omega)
        refine ⟨(d2, g2, l), ?_, hd2len.trans hd, hg2len.trans hg, hl, ?_, hl0⟩
        · simp only [gainLossStep, writeAt, hci, hcp, hd2, hdi, hpos, hg2, if_true,
            Option.bind_eq_bind, Option.some_bind]
        · exact updateAt_forall _ _ g g2 i hg2 hg0 (fun _ _ => hpos.le)
      · obtain ⟨l2, hl2, hl2len, _, _⟩ := updateAt_spec (fun _ => -di) l i (by omega)
        refine ⟨(d2, g, l2), ?_, hd2len.trans hd, hg, hl2len.trans hl, hg0, ?_⟩
        · simp only [gainLossStep, writeAt, hci, hcp, hd2, hdi, hpos, hl2, if_false,
            Option.bind_eq_bind, Option.some_bind]
        · exact updateAt_forall _ _ l l2 i hl2 hl0 (fun _ _ => by linarith [not_lt.mp hpos]))
  exact ⟨delta, gain, loss, h, hinv.2.1, hinv.2.2.1, hinv.2.2.2.1, hinv.2.2.2.2⟩

/-- The RSI block terminates normally and keeps the length of the indicator
vector; when every rsi it was given lies in [0, 100], so does every rsi after
it (the values it stores always do). -/
theorem rsiBlock_bounded (closes : List K) (indicators : List (IndicatorData K))
    (hlen : indicators.length = closes.length) :
    ∃ out, rsiBlock closes indicators = some out ∧ out.length = closes.length ∧
      ((∀ d ∈ indicators, 0 ≤ d.rsi ∧ d.rsi ≤ 100) → ∀ d ∈ out, 0 ≤ d.rsi ∧ d.rsi ≤ 100) := by
  by_cases hn : 14 ≤ closes.length
  · obtain ⟨delta, gain, loss, hgl, hglen, hllen, hg0, hl0⟩ := gainLoss_loop closes
    obtain ⟨g13, hg13, hg13m⟩ := getElem?_of_lt gain 13 (by omega)
    obtain ⟨l13, hl13, hl13m⟩ := getElem?_of_lt loss 13 (by omega)
    have hseed : forLoop (rsiSeedStep gain loss) (14 - 13) 13 ((0 : K), (0 : K)) =
        some (0 + g13, 0 + l13) := by
      simp only [forLoop, rsiSeedStep, hg13, hl13, Option.bind_eq_bind, Option.some_bind]
    obtain ⟨⟨ag, al, out⟩, hloop, hinv⟩ := forLoop_inv (rsiStep gain loss)
      (fun _ s => 0 ≤ s.1 ∧ 0 ≤ s.2.1 ∧ s.2.2.length = closes.length ∧
        ((∀ d ∈ indicators, 0 ≤ d.rsi ∧ d.rsi ≤ 100) → ∀ d ∈ s.2.2, 0 ≤ d.rsi ∧ d.rsi ≤ 100))
      (closes.length - 14) 14 ((0 + g13) / 14, (0 + l13) / 14, indicators)
      ⟨div_nonneg (by linarith [hg0 g13 hg13m]) (by norm_num),
        div_nonneg (by linarith [hl0 l13 hl13m]) (by norm_num), hlen, fun h => h⟩
      (by
        rintro i ⟨a, b, inds⟩ h1 h2 ⟨ha, hb, hil, hir⟩
        simp only at ha hb hil hir
        obtain ⟨g, hg, hgm⟩ := getElem?_of_lt gain i (by omega)
        obtain ⟨l, hl, hlm⟩ := getElem?_of_lt loss i (by omega)
        have ha2 : (0 : K) ≤ (a * 13 + g) / 14 :=
          div_nonneg (by nlinarith [hg0 g hgm]) (by norm_num)
        have hb2 : (0 : K) ≤ (b * 13 + l) / 14 :=
          div_nonneg (by nlinarith [hl0 l hlm]) (by norm_num)
        obtain ⟨inds2, hu, hulen, _, _⟩ := updateAt_spec
          (fun d : IndicatorData K => { d with rsi := 100 - 100 / (1 +
            (if (b * 13 + l) / 14 = 0 then (100 : K)
              else (a * 13 + g) / 14 / ((b * 13 + l) / 14))) }) inds i (by omega)
        refine ⟨((a * 13 + g) / 14, (b * 13 + l) / 14, inds2), ?_, ha2, hb2,
          hulen.trans hil, ?_⟩
        · simp only [rsiStep, hg, hl, hu, Option.bind_eq_bind, Option.some_bind]
        · intro hprev
          exact updateAt_forall _ _ inds inds2 i hu (hir hprev)
            (fun _ _ => rsi_value_bounds _ _ ha2 hb2))
    refine ⟨out, ?_, hinv.2.2.1, hinv.2.2.2⟩
    simp only [rsiBlock, hn, hgl, hseed, hloop, if_true, Option.bind_eq_bind, Option.some_bind]
  · exact ⟨indicators, by simp [rsiBlock, hn], hlen, fun h => h⟩

theorem calculateEMA_some (prices : List K) (period : K) (index : Nat) (prevEMA : K)
    (h : index < prices.length) : ∃ e, calculateEMA prices period index prevEMA = some e := by
  unfold calculateEMA
  by_cases h0 : index = 0
  · obtain ⟨x, hx, _⟩ := getElem?_of_lt prices 0 (by omega)
    exact ⟨x, by simp only [h0, if_true, hx]⟩
  · obtain ⟨x, hx, _⟩ := getElem?_of_lt prices index h
    exact ⟨x * (2 / (period + 1)) + prevEMA * (1 - 2 / (period + 1)),
      by simp only [h0, if_false, hx]⟩

/-- The value `(i > 0) ? v[i - 1] : closes[0]` is read in bounds. -/
theorem prev_some {α : Type} (v closes : List α) (i : Nat) (hv : i ≤ v.length) (hc : i < closes.length) :
    ∃ p, (if i > 0 then v[i - 1]? else closes[0]?) = some p := by
  by_cases h0 : i > 0
  · obtain ⟨x, hx, _⟩ := getElem?_of_lt v (i - 1) (by omega)
    exact ⟨x, by simp only [h0, if_true, hx]⟩
  · obtain ⟨x, hx, _⟩ := getElem?_of_lt closes 0 (by omega)
    exact ⟨x, by simp only [h0, if_false, hx]⟩

/-- The MACD block terminates normally, keeps the length of the indicator
vector and leaves every projection `g` that does not read `macd`,
`macd_signal` or `macd_hist` as it was. -/
theorem macdBlock_frame {β : Type} (g : IndicatorData K → β)
    (g1 : ∀ d x, g { d with macd := x } = g d)
    (g2 : ∀ d x, g { d with macd_signal := x } = g d)
    (g3 : ∀ d x, g { d with macd_hist := x } = g d)
    (closes : List K) (indicators : List (IndicatorData K))
    (hlen : indicators.length = closes.length) :
    ∃ out, macdBlock closes indicators = some out ∧ out.length = closes.length ∧
      out.map g = indicators.map g := by
  obtain ⟨⟨e12, e26, inds1⟩, hloop1, hinv1⟩ := forLoop_inv (macdStep closes)
    (fun _ s => s.1.length = closes.length ∧ s.2.1.length = closes.length ∧
      s.2.2.length = closes.length ∧ s.2.2.map g = indicators.map g)
    closes.length 0
    (List.replicate closes.length 0, List.replicate closes.length 0, indicators)
    ⟨by simp, by simp, hlen, rfl⟩
    (by
      rintro i ⟨a, b, inds⟩ _ h2 ⟨ha, hb, hil, hig⟩
      simp only at ha hb hil hig
      obtain ⟨p12, hp12⟩ := prev_some a closes i (by omega) (by omega)
      obtain ⟨x12, hx12⟩ := calculateEMA_some closes 12 i p12 (by omega)
      obtain ⟨a2, ha2, ha2len, _, _⟩ := updateAt_spec (fun _ => x12) a i (by omega)
      obtain ⟨p26, hp26⟩ := prev_some b closes i (by omega) (by omega)
      obtain ⟨x26, hx26⟩ := calculateEMA_some closes 26 i p26 (by omega)
      obtain ⟨b2, hb2, hb2len, _, _⟩ := updateAt_spec (fun _ => x26) b i (by omega)
      obtain ⟨va, hva, _⟩ := getElem?_of_lt a2 i (by omega)
      obtain ⟨vb, hvb, _⟩ := getElem?_of_lt b2 i (by omega)
      obtain ⟨inds2, hu, hulen, _, _⟩ := updateAt_spec
        (fun d : IndicatorData K => { d with macd := va - vb }) inds i (by omega)
      refine ⟨(a2, b2, inds2), ?_, ha2len.trans ha, hb2len.trans hb, hulen.trans hil, ?_⟩
      · simp only [macdStep, writeAt, hp12, hx12, ha2, hp26, hx26, hb2, hva, hvb, hu,
          Option.bind_eq_bind, Option.some_bind]
      · rw [updateAt_map _ g (fun d => g1 d _) inds i inds2 hu, hig])
  simp only at hinv1
  by_cases h9 : 9 ≤ closes.length
  · obtain ⟨mv, hloop2, hinv2⟩ := forLoop_inv (macdCopyStep inds1)
      (fun _ s => s.length = closes.length) closes.length 0 (List.replicate closes.length 0)
      (by simp)
      (by
        intro i mv _ h2 hm
        obtain ⟨d, hd, _⟩ := getElem?_of_lt inds1 i (by omega)
        obtain ⟨mv2, hmv2, hmv2len, _, _⟩ := updateAt_spec (fun _ => d.macd) mv i (by omega)
        exact ⟨mv2, by simp only [macdCopyStep, writeAt, hd, hmv2, Option.bind_eq_bind,
          Option.some_bind], hmv2len.trans hm⟩)
    obtain ⟨⟨sig, out⟩, hloop3, hinv3⟩ := forLoop_inv (macdSignalStep mv)
      (fun _ s => s.1.length = closes.length ∧ s.2.length = closes.length ∧
        s.2.map g = indicators.map g)
      closes.length 0 (List.replicate closes.length 0, inds1)
      ⟨by simp, hinv1.2.2.1, hinv1.2.2.2⟩
      (by
        rintro i ⟨sg, inds⟩ _ h2 ⟨hsg, hil, hig⟩
        simp only at hsg hil hig
        obtain ⟨p, hp⟩ := prev_some sg mv i (by omega) (by omega)
        obtain ⟨x, hx⟩ := calculateEMA_some (mv.take (i + 1)) 9 i p
          (by rw [List.length_take]; omega)
        obtain ⟨sg2, hsg2, hsg2len, _, _⟩ := updateAt_spec (fun _ => x) sg i (by omega)
        obtain ⟨v, hv, _⟩ := getElem?_of_lt sg2 i (by omega)
        obtain ⟨inds2, hu, hulen, _, _⟩ := updateAt_spec
          (fun d : IndicatorData K => { d with macd_signal := v }) inds i (by omega)
        obtain ⟨inds3, hu3, hu3len, _, _⟩ := updateAt_spec
          (fun d : IndicatorData K => { d with macd_hist := d.macd - d.macd_signal })
          inds2 i (by omega)
        refine ⟨(sg2, inds3), ?_, hsg2len.trans hsg, (hu3len.trans hulen).trans hil, ?_⟩
        · simp only [macdSignalStep, writeAt, hp, hx, hsg2, hv, hu, hu3,
            Option.bind_eq_bind, Option.some_bind]
        · rw [updateAt_map _ g (fun d => g3 d _) inds2 i inds3 hu3,
            updateAt_map _ g (fun d => g2 d _) inds i inds2 hu, hig])
    simp only at hinv3
    refine ⟨out, ?_, hinv3.2.1, hinv3.2.2⟩
    simp only [macdBlock, hloop1, h9, if_true, hloop2, hloop3, Option.bind_eq_bind,
      Option.some_bind]
  · refine ⟨inds1, ?_, hinv1.2.2.1, hinv1.2.2.2⟩
    simp only [macdBlock, hloop1, h9, if_false, Option.bind_eq_bind, Option.some_bind]

/-- The EMA(20) block terminates normally, keeps the length of the indicator
vector and leaves every projection `g` that does not read `ema` as it was. -/
theorem emaBlock_frame {β : Type} (g : IndicatorData K → β)
    (g1 : ∀ d x, g { d with ema := x } = g d)
    (closes : List K) (indicators : List (IndicatorData K))
    (hlen : indicators.length = closes.length) :
    ∃ out, emaBlock closes indicators = some out ∧ out.length = closes.length ∧
      out.map g = indicators.map g := by
  obtain ⟨out, hloop, hinv⟩ := forLoop_inv (emaStep closes)
    (fun _ s => s.length = closes.length ∧ s.map g = indicators.map g)
    closes.length 0 indicators ⟨hlen, rfl⟩
    (by
      rintro i inds _ h2 ⟨hil, hig⟩
      obtain ⟨p, hp⟩ : ∃ p, (if i > 0 then (inds[i - 1]?).map (fun d => d.ema)
          else closes[0]?) = some p := by
        by_cases h0 : i > 0
        · obtain ⟨x, hx, _⟩ := getElem?_of_lt inds (i - 1) (by omega)
          exact ⟨x.ema, by simp only [h0, if_true, hx, Option.map_some']⟩
        · obtain ⟨x, hx, _⟩ := getElem?_of_lt closes 0 (by omega)
          exact ⟨x, by simp only [h0, if_false, hx]⟩
      obtain ⟨x, hx⟩ := calculateEMA_some closes 20 i p (by omega)
      obtain ⟨inds2, hu, hulen, _, _⟩ := updateAt_spec
        (fun d : IndicatorData K => { d with ema := x }) inds i (by omega)
      refine ⟨inds2, ?_, hulen.trans hil, ?_⟩
      · simp only [emaStep, hp, hx, hu, Option.bind_eq_bind, Option.some_bind]
      · rw [updateAt_map _ g (fun d => g1 d _) inds i inds2 hu, hig])
  exact ⟨out, hloop, hinv.1, hinv.2⟩

/-- A loop that adds `g closes[j]` to an accumulator for `j` from `start` to
`start + count - 1` yields the accumulator plus the sum over that slice. -/
theorem sum_loop (closes : List K) (g : K → K) (body : Nat → K → Option K)
    (hbody : ∀ j acc c, closes[j]? = some c → body j acc = some (acc + g c)) :
    ∀ (count start : Nat) (acc : K), start + count ≤ closes.length →
      forLoop body count start acc =
        some (acc + (((closes.drop start).take count).map g).sum) := by
  intro count
  induction count with
  | zero => intro start acc _; simp [forLoop]
  | succ count ih =>
    intro start acc h
    have hlt : start < closes.length := by omega
    have hc : closes[start]? = some closes[start] := List.getElem?_eq_getElem hlt
    rw [forLoop, hbody start acc _ hc]
    simp only
    have e : (closes.drop start).take (count + 1) =
        closes[start] :: (closes.drop (start + 1)).take count := by
      rw [List.drop_eq_getElem_cons hlt, List.take_succ_cons]
    rw [ih (start + 1) (acc + g closes[start]) (by omega), e, List.map_cons, List.sum_cons,
      add_assoc]

/-- One pass of the Bollinger loop at an index `i` with a full window: the
bands of `indicators[i]` are set from the window mean and variance, nothing
else changes. -/
theorem bollingerStep_spec {β : Type} (g : IndicatorData K → β)
    (g1 : ∀ d x, g { d with bb_middle := x } = g d)
    (g2 : ∀ d x, g { d with bb_upper := x } = g d)
    (g3 : ∀ d x, g { d with bb_lower := x } = g d)
    (sqrt : K → K) (closes : List K) (i : Nat) (indicators : List (IndicatorData K))
    (h19 : 19 ≤ i) (hi : i < closes.length) (hlen : indicators.length = closes.length) :
    ∃ out d, bollingerStep sqrt closes i indicators = some out ∧
      out.length = closes.length ∧ out.map g = indicators.map g ∧
      (∀ j, j ≠ i → out[j]? = indicators[j]?) ∧ out[i]? = some d ∧
      d.bb_middle = windowMean closes i ∧
      d.bb_upper = windowMean closes i + 2 * sqrt (windowVariance closes i) ∧
      d.bb_lower = windowMean closes i - 2 * sqrt (windowVariance closes i) := by
  have hsum := sum_loop closes (fun c => c) (sumStep closes)
    (fun j acc c hc => by simp only [sumStep, hc, Option.bind_eq_bind, Option.some_bind])
    20 (i - 19) 0 (by omega)
  rw [zero_add, List.map_id'] at hsum
  obtain ⟨d0, hd0, _⟩ := getElem?_of_lt indicators i (by omega)
  obtain ⟨inds1, hu1, hu1len, hu1i, hu1o⟩ := updateAt_spec
    (fun d : IndicatorData K => { d with bb_middle := ((closes.drop (i - 19)).take 20).sum / 20 })
    indicators i (by omega)
  rw [hd0, Option.map_some'] at hu1i
  have hsq := sum_loop closes
    (fun c => (c - windowMean closes i) * (c - windowMean closes i))
    (sumSqStep closes inds1 i)
    (fun j acc c hc => by
      simp only [sumSqStep, hc, hu1i, Option.bind_eq_bind, Option.some_bind, windowMean,
        bbWindow])
    20 (i - 19) 0 (by omega)
  rw [zero_add] at hsq
  obtain ⟨inds2, hu2, hu2len, hu2i, hu2o⟩ := updateAt_spec
    (fun d : IndicatorData K =>
      { d with bb_upper := d.bb_middle + 2 * sqrt (windowVariance closes i) })
    inds1 i (by omega)
  rw [hu1i, Option.map_some'] at hu2i
  obtain ⟨inds3, hu3, hu3len, hu3i, hu3o⟩ := updateAt_spec
    (fun d : IndicatorData K =>
      { d with bb_lower := d.bb_middle - 2 * sqrt (windowVariance closes i) })
    inds2 i (by omega)
  rw [hu2i, Option.map_some'] at hu3i
  simp only [windowVariance, bbWindow] at hu2 hu3
  refine ⟨inds3, _, ?_, ((hu3len.trans hu2len).trans hu1len).trans hlen, ?_, ?_, hu3i,
    rfl, rfl, rfl⟩
  · simp only [bollingerStep, hsum, hu1, hsq, hu2, hu3, Option.bind_eq_bind, Option.some_bind]
  · rw [updateAt_map _ g (fun d => g3 d _) inds2 i inds3 hu3,
      updateAt_map _ g (fun d => g2 d _) inds1 i inds2 hu2,
      updateAt_map _ g (fun d => g1 d _) indicators i inds1 hu1]
  · intro j hj
    rw [hu3o j hj, hu2o j hj, hu1o j hj]

/-- The Bollinger block terminates normally, keeps the length and every
projection `g` that does not read a band, and sets the bands of every index
from 19 on from the mean and variance of its window. -/
theorem bollingerBlock_spec {β : Type} (g : IndicatorData K → β)
    (g1 : ∀ d x, g { d with bb_middle := x } = g d)
    (g2 : ∀ d x, g { d with bb_upper := x } = g d)
    (g3 : ∀ d x, g { d with bb_lower := x } = g d)
    (sqrt : K → K) (closes : List K) (indicators : List (IndicatorData K))
    (hlen : indicators.length = closes.length) :
    ∃ out, bollingerBlock sqrt closes indicators = some out ∧
      out.length = closes.length ∧ out.map g = indicators.map g ∧
      ∀ i, 19 ≤ i → i < closes.length → ∃ d, out[i]? = some d ∧
        d.bb_middle = windowMean closes i ∧
        d.bb_upper = windowMean closes i + 2 * sqrt (windowVariance closes i) ∧
        d.bb_lower = windowMean closes i - 2 * sqrt (windowVariance closes i) := by
  by_cases hn : 20 ≤ closes.length
  · obtain ⟨out, hloop, hinv⟩ := forLoop_inv (bollingerStep sqrt closes)
      (fun k s => s.length = closes.length ∧ s.map g = indicators.map g ∧
        ∀ i, 19 ≤ i → i < k → ∃ d, s[i]? = some d ∧
          d.bb_middle = windowMean closes i ∧
          d.bb_upper = windowMean closes i + 2 * sqrt (windowVariance closes i) ∧
          d.bb_lower = windowMean closes i - 2 * sqrt (windowVariance closes i))
      (closes.length - 19) 19 indicators
      ⟨hlen, rfl, fun i h1 h2 => by omega⟩
      (by
        rintro k inds h1 h2 ⟨hil, hig, hdone⟩
        obtain ⟨out, d, hstep, holen, hog, hoo, hoi, hm, hu, hl⟩ :=
          bollingerStep_spec g g1 g2 g3 sqrt closes k inds h1 (by omega) hil
        refine ⟨out, hstep, holen, hog.trans hig, ?_⟩
        intro i hi1 hi2
        by_cases hik : i = k
        · subst hik; exact ⟨d, hoi, hm, hu, hl⟩
        · rw [hoo i hik]; exact hdone i hi1 (by omega))
    refine ⟨out, ?_, hinv.1, hinv.2.1, fun i h1 h2 => hinv.2.2 i h1 (by omega)⟩
    simp only [bollingerBlock, hn, if_true, hloop]
  · exact ⟨indicators, by simp only [bollingerBlock, hn, if_false], hlen, rfl,
      fun i h1 h2 => by omega⟩

/-- One pass of the true-range loop: `tr[i]` becomes a non-negative value (the
largest of `hl`, `hpc`, `lpc`, of which the last two are absolute values) and no
other entry changes. -/
theorem trueRangeStep_spec (closes highs lows tr : List K) (i : Nat) (h1 : 1 ≤ i)
    (hc : i < closes.length) (hh : i < highs.length) (hl : i < lows.length)
    (ht : i < tr.length) :
    ∃ out v, trueRangeStep closes highs lows i tr = some out ∧ out.length = tr.length ∧
      out[i]? = some v ∧ 0 ≤ v ∧ ∀ j, j ≠ i → out[j]? = tr[j]? := by
  obtain ⟨h, hh2, _⟩ := getElem?_of_lt highs i hh
  obtain ⟨l, hl2, _⟩ := getElem?_of_lt lows i hl
  obtain ⟨cp, hcp, _⟩ := getElem?_of_lt closes (i - 1) (by omega)
  obtain ⟨t0, ht0, _⟩ := getElem?_of_lt tr i ht
  obtain ⟨tr1, hu1, hu1len, hu1i, hu1o⟩ := updateAt_spec (fun _ => h - l) tr i ht
  rw [ht0, Option.map_some'] at hu1i
  obtain ⟨tr2, t2, hA, hAlen, hAi, hA0, hAo⟩ : ∃ tr2 t2,
      (if |h - cp| > h - l then updateAt tr1 i (fun _ => |h - cp|) else some tr1) = some tr2 ∧
      tr2.length = tr.length ∧ tr2[i]? = some t2 ∧ 0 ≤ t2 ∧ ∀ j, j ≠ i → tr2[j]? = tr[j]? := by
    by_cases hgt : |h - cp| > h - l
    · obtain ⟨tr2, hu2, hu2len, hu2i, hu2o⟩ := updateAt_spec (fun _ => |h - cp|) tr1 i (by omega)
      rw [hu1i, Option.map_some'] at hu2i
      exact ⟨tr2, _, by simp only [hgt, if_true, hu2], hu2len.trans hu1len, hu2i, abs_nonneg _,
        fun j hj => (hu2o j hj).trans (hu1o j hj)⟩
    · exact ⟨tr1, _, by simp only [hgt, if_false], hu1len, hu1i,
        le_trans (abs_nonneg (h - cp)) (not_lt.mp hgt), hu1o⟩
  obtain ⟨tr3, t3, hB, hBlen, hBi, hB0, hBo⟩ : ∃ tr3 t3,
      (if |l - cp| > t2 then updateAt tr2 i (fun _ => |l - cp|) else some tr2) = some tr3 ∧
      tr3.length = tr.length ∧ tr3[i]? = some t3 ∧ 0 ≤ t3 ∧ ∀ j, j ≠ i → tr3[j]? = tr[j]? := by
    by_cases hgt : |l - cp| > t2
    · obtain ⟨tr3, hu3, hu3len, hu3i, hu3o⟩ := updateAt_spec (fun _ => |l - cp|) tr2 i (by omega)
      rw [hAi, Option.map_some'] at hu3i
      exact ⟨tr3, _, by simp only [hgt, if_true, hu3], hu3len.trans hAlen, hu3i, abs_nonneg _,
        fun j hj => (hu3o j hj).trans (hAo j hj)⟩
    · exact ⟨tr2, _, by simp only [hgt, if_false], hAlen, hAi, hA0, hAo⟩
  refine ⟨tr3, t3, ?_, hBlen, hBi, hB0, hBo⟩
  simp only [trueRangeStep, writeAt, hh2, hl2, hcp, hu1, hu1i, hA, hAi, hB,
    Option.bind_eq_bind, Option.some_bind]

/-- The ATR block on a series whose length is not 14 terminates normally, keeps
the length and every projection `g` that does not read `atr`, and stores a
non-negative `atr` at every index from 14 on. -/
theorem atrBlock_spec {β : Type} (g : IndicatorData K → β)
    (g1 : ∀ d x, g { d with atr := x } = g d)
    (closes highs lows : List K) (indicators : List (IndicatorData K))
    (hh : highs.length = closes.length) (hl : lows.length = closes.length)
    (hlen : indicators.length = closes.length) (hn : closes.length ≠ 14) :
    ∃ out, atrBlock closes highs lows indicators = some out ∧
      out.length = closes.length ∧ out.map g = indicators.map g ∧
      ∀ i, 14 ≤ i → i < closes.length → ∃ d, out[i]? = some d ∧ 0 ≤ d.atr := by
  by_cases h14 : 14 ≤ closes.length
  · obtain ⟨tr, htr, htrlen, htr0⟩ := forLoop_inv (trueRangeStep closes highs lows)
      (fun _ s => s.length = closes.length ∧ ∀ j x, s[j]? = some x → (0 : K) ≤ x)
      (closes.length - 1) 1 (List.replicate closes.length 0)
      ⟨by simp, fun j x hx =>
        (List.eq_of_mem_replicate (List.mem_iff_getElem?.mpr ⟨j, hx⟩)).ge⟩
      (by
        rintro i t hi1 hi2 ⟨htl, ht0⟩
        obtain ⟨out, v, hstep, holen, hoi, hv, hoo⟩ :=
          trueRangeStep_spec closes highs lows t i hi1 (by omega) (by omega) (by omega)
            (by omega)
        refine ⟨out, hstep, holen.trans htl, ?_⟩
        intro j x hx
        by_cases hji : j = i
        · subst hji
          rw [hoi] at hx
          exact (Option.some.inj hx) ▸ hv
        · rw [hoo j hji] at hx
          exact ht0 j x hx)
    obtain ⟨sumTR, hsum, hsum0⟩ := forLoop_inv (sumTRStep tr) (fun _ s => (0 : K) ≤ s)
      14 1 0 le_rfl
      (by
        intro i acc hi1 hi2 hacc
        obtain ⟨t, ht, _⟩ := getElem?_of_lt tr i (by omega)
        exact ⟨acc + t, by simp only [sumTRStep, ht, Option.bind_eq_bind, Option.some_bind],
          add_nonneg hacc (htr0 i t ht)⟩)
    obtain ⟨d14, hd14, _⟩ := getElem?_of_lt indicators 14 (by omega)
    obtain ⟨inds1, hu1, hu1len, hu1i, hu1o⟩ := updateAt_spec
      (fun d : IndicatorData K => { d with atr := sumTR / 14 }) indicators 14 (by omega)
    rw [hd14, Option.map_some'] at hu1i
    obtain ⟨out, hloop, hinv⟩ := forLoop_inv (atrStep tr)
      (fun k s => s.length = closes.length ∧ s.map g = indicators.map g ∧
        ∀ i, 14 ≤ i → i < k → ∃ d, s[i]? = some d ∧ (0 : K) ≤ d.atr)
      (closes.length - 15) 15 inds1
      ⟨hu1len.trans hlen, updateAt_map _ g (fun d => g1 d _) indicators 14 inds1 hu1,
        fun i hi1 hi2 => by
          have : i = 14 := by omega
          subst this
          exact ⟨_, hu1i, div_nonneg hsum0 (by norm_num)⟩⟩
      (by
        rintro k inds hk1 hk2 ⟨hil, hig, hdone⟩
        obtain ⟨p, hp, hp0⟩ := hdone (k - 1) (by omega) (by omega)
        obtain ⟨t, ht, _⟩ := getElem?_of_lt tr k (by omega)
        obtain ⟨dk, hdk, _⟩ := getElem?_of_lt inds k (by omega)
        obtain ⟨inds2, hu, hulen, hui, huo⟩ := updateAt_spec
          (fun d : IndicatorData K => { d with atr := (p.atr * 13 + t) / 14 }) inds k
          (by omega)
        rw [hdk, Option.map_some'] at hui
        refine ⟨inds2, ?_, hulen.trans hil, ?_, ?_⟩
        · simp only [atrStep, hp, ht, hu, Option.bind_eq_bind, Option.some_bind]
        · rw [updateAt_map _ g (fun d => g1 d _) inds k inds2 hu, hig]
        · intro i hi1 hi2
          by_cases hik : i = k
          · subst hik
            exact ⟨_, hui, div_nonneg (by nlinarith [htr0 i t ht]) (by norm_num)⟩
          · rw [huo i hik]; exact hdone i hi1 (by omega))
    refine ⟨out, ?_, hinv.1, hinv.2.1, fun i hi1 hi2 => hinv.2.2 i hi1 (by omega)⟩
    simp only [atrBlock, h14, if_true, htr, hsum, hu1, hloop, Option.bind_eq_bind,
      Option.some_bind]
  · exact ⟨indicators, by simp only [atrBlock, h14, if_false], hlen, rfl,
      fun i hi1 hi2 => by omega⟩

/-- The value of `calculateIndicators` on a non-empty series is the result of
its five blocks run in order on the resized indicator vector. -/
theorem calculateIndicators_eq (sqrt : K → K) (stod : String → Option K)
    (candles : List Candle) (prev : List (IndicatorData K)) (closes highs lows : List K)
    (i1 i2 i3 i4 out : List (IndicatorData K)) (hne : candles ≠ [])
    (hparse : parseCandles stod candles = some (closes, highs, lows))
    (h1 : rsiBlock closes (resize prev closes.length (IndicatorData.default K)) = some i1)
    (h2 : macdBlock closes i1 = some i2) (h3 : emaBlock closes i2 = some i3)
    (h4 : bollingerBlock sqrt closes i3 = some i4)
    (h5 : atrBlock closes highs lows i4 = some out) :
    calculateIndicators sqrt stod candles prev = some out := by
  have he : candles.isEmpty = false := by
    cases candles with
    | nil => exact absurd rfl hne
    | cons _ _ => rfl
  simp only [calculateIndicators, he, hparse, h1, h2, h3, h4, h5, Option.bind_eq_bind,
    Option.some_bind, Bool.false_eq_true, if_false]

/-- Two indicator vectors with the same image under `g` have, at every index,
entries with the same image. -/
theorem getElem?_of_map_eq {α β : Type} (g : α → β)
    (out inds : List α) (h : out.map g = inds.map g) (i : Nat)
    (d : α) (hd : inds[i]? = some d) :
    ∃ d2, out[i]? = some d2 ∧ g d2 = g d := by
  have h2 : (out.map g)[i]? = (inds.map g)[i]? := by rw [h]
  rw [List.getElem?_map, List.getElem?_map, hd, Option.map_some'] at h2
  cases ho : out[i]? with
  | none => rw [ho] at h2; simp at h2
  | some d2 =>
    rw [ho, Option.map_some'] at h2
    exact ⟨d2, rfl, Option.some.inj h2⟩

/-- A run of `calculateIndicators` on a non-empty series whose length is not 14
and whose candles parse: it terminates normally with one snapshot per candle,
keeps every rsi in [0, 100] when the stored ones were, sets the bands of every
index from 19 on from the window mean and variance, and stores a non-negative
atr at every index from 14 on. -/
theorem calculateIndicators_run (sqrt : K → K) (stod : String → Option K)
    (candles : List Candle) (prev : List (IndicatorData K)) (closes highs lows : List K)
    (hparse : parseCandles stod candles = some (closes, highs, lows))
    (hne : candles ≠ []) (hn : candles.length ≠ 14) :
    ∃ out, calculateIndicators sqrt stod candles prev = some out ∧
      out.length = candles.length ∧
      ((∀ d ∈ prev, 0 ≤ d.rsi ∧ d.rsi ≤ 100) → ∀ d ∈ out, 0 ≤ d.rsi ∧ d.rsi ≤ 100) ∧
      (∀ i, 19 ≤ i → i < candles.length → ∃ d, out[i]? = some d ∧
        d.bb_middle = windowMean closes i ∧
        d.bb_upper = windowMean closes i + 2 * sqrt (windowVariance closes i) ∧
        d.bb_lower = windowMean closes i - 2 * sqrt (windowVariance closes i)) ∧
      (∀ i, 14 ≤ i → i < candles.length → ∃ d, out[i]? = some d ∧ 0 ≤ d.atr) := by
  obtain ⟨hcl, hhl, hll⟩ := parseCandles_length stod candles closes highs lows hparse
  obtain ⟨i1, h1, h1len, h1r⟩ := rsiBlock_bounded closes
    (resize prev closes.length (IndicatorData.default K)) (resize_length _ _ _)
  obtain ⟨i2, h2, h2len, h2g⟩ := macdBlock_frame (fun d => d.rsi)
    (fun _ _ => rfl) (fun _ _ => rfl) (fun _ _ => rfl) closes i1 h1len
  obtain ⟨i3, h3, h3len, h3g⟩ := emaBlock_frame (fun d => d.rsi) (fun _ _ => rfl) closes i2 h2len
  obtain ⟨i4, h4, h4len, h4g, h4bb⟩ := bollingerBlock_spec (fun d => d.rsi)
    (fun _ _ => rfl) (fun _ _ => rfl) (fun _ _ => rfl) sqrt closes i3 h3len
  obtain ⟨out, h5, h5len, h5g, h5atr⟩ := atrBlock_spec
    (fun d => (d.rsi, d.bb_middle, d.bb_upper, d.bb_lower)) (fun _ _ => rfl)
    closes highs lows i4 (hhl.trans hcl.symm) (hll.trans hcl.symm) h4len (by omega)
  refine ⟨out, calculateIndicators_eq sqrt stod candles prev closes highs lows i1 i2 i3 i4 out
    hne hparse h1 h2 h3 h4 h5, h5len.trans hcl, ?_, ?_, ?_⟩
  · intro hprev d hd
    have hres : ∀ d ∈ resize prev closes.length (IndicatorData.default K),
        0 ≤ d.rsi ∧ d.rsi ≤ 100 := by
      intro d hd
      rcases resize_mem _ _ _ d hd with h | rfl
      · exact hprev d h
      · exact ⟨le_rfl, by simp [IndicatorData.default]⟩
    obtain ⟨i, hi⟩ := List.mem_iff_getElem?.mp hd
    have hlt : i < out.length := by
      by_contra hc
      rw [List.getElem?_eq_none (not_lt.mp hc)] at hi
      exact Option.noConfusion hi
    obtain ⟨d1, hd1, hd1m⟩ := getElem?_of_lt i1 i (by omega)
    obtain ⟨d2, hd2, e2⟩ := getElem?_of_map_eq (fun d => d.rsi) i2 i1 h2g i d1 hd1
    obtain ⟨d3, hd3, e3⟩ := getElem?_of_map_eq (fun d => d.rsi) i3 i2 h3g i d2 hd2
    obtain ⟨d4, hd4, e4⟩ := getElem?_of_map_eq (fun d => d.rsi) i4 i3 h4g i d3 hd3
    obtain ⟨d5, hd5, e5⟩ := getElem?_of_map_eq
      (fun d => (d.rsi, d.bb_middle, d.bb_upper, d.bb_lower)) out i4 h5g i d4 hd4
    rw [hi] at hd5
    have e : d.rsi = d1.rsi := by
      have := congrArg Prod.fst e5
      simp only at this e2 e3 e4
      rw [Option.some.inj hd5, this, e4, e3, e2]
    rw [e]
    exact h1r hres d1 hd1m
  · intro i hi1 hi2
    obtain ⟨d4, hd4, hm, hu, hl⟩ := h4bb i hi1 (by omega)
    obtain ⟨d5, hd5, e5⟩ := getElem?_of_map_eq
      (fun d => (d.rsi, d.bb_middle, d.bb_upper, d.bb_lower)) out i4 h5g i d4 hd4
    simp only [Prod.mk.injEq] at e5
    obtain ⟨_, em, eu, el⟩ := e5
    exact ⟨d5, hd5, em.trans hm, eu.trans hu, el.trans hl⟩
  · intro i hi1 hi2
    exact h5atr i hi1 (by omega)

end IndicatorLemmas

/-- C8: for every candle series (read over any ordered field, the reals among
them) and every index, the rsi that calculateIndicators stores lies in [0, 100],
also when the average loss is zero. The RSI block itself always terminates
normally with every rsi in range; the whole function does so on every series
whose length is not 14. -/
theorem calculateIndicators_rsi_in_range {K : Type} [LinearOrderedField K]
    (sqrt : K → K) (stod : String → Option K) (candles : List Candle)
    (prev : List (IndicatorData K)) (closes highs lows : List K)
    (hparse : parseCandles stod candles = some (closes, highs, lows))
    (hprev : ∀ d ∈ prev, 0 ≤ d.rsi ∧ d.rsi ≤ 100) :
    (∃ mid, rsiBlock closes (resize prev closes.length (IndicatorData.default K)) = some mid ∧
      ∀ d ∈ mid, 0 ≤ d.rsi ∧ d.rsi ≤ 100) ∧
    (candles.length ≠ 14 →
      ∃ out, calculateIndicators sqrt stod candles prev = some out ∧
        ∀ d ∈ out, 0 ≤ d.rsi ∧ d.rsi ≤ 100) := by
  constructor
  · obtain ⟨mid, h1, _, h1r⟩ := rsiBlock_bounded closes
      (resize prev closes.length (IndicatorData.default K)) (resize_length _ _ _)
    refine ⟨mid, h1, h1r ?_⟩
    intro d hd
    rcases resize_mem _ _ _ d hd with h | rfl
    · exact hprev d h
    · exact ⟨le_rfl, by simp [IndicatorData.default]⟩
  · intro hn
    by_cases hne : candles = []
    · subst hne
      exact ⟨prev, by simp [calculateIndicators], hprev⟩
    · obtain ⟨out, h, _, hr, _⟩ :=
        calculateIndicators_run sqrt stod candles prev closes highs lows hparse hne hn
      exact ⟨out, h, hr hprev⟩

/-- Witness for C8: fifteen equal candles and an empty store, so that the
average loss is zero. -/
theorem calculateIndicators_rsi_in_range_witness :
    (∃ mid, rsiBlock (List.replicate 15 (11 : ℚ))
        (resize [] (List.replicate 15 (11 : ℚ)).length (IndicatorData.default ℚ)) = some mid ∧
      ∀ d ∈ mid, 0 ≤ d.rsi ∧ d.rsi ≤ 100) ∧
    ((flatCandles 15).length ≠ 14 →
      ∃ out, calculateIndicators (fun x => x) (intStod ℚ) (flatCandles 15) [] = some out ∧
        ∀ d ∈ out, 0 ≤ d.rsi ∧ d.rsi ≤ 100) :=
  calculateIndicators_rsi_in_range (fun x => x) (intStod ℚ) (flatCandles 15) []
    (List.replicate 15 (11 : ℚ)) (List.replicate 15 (12 : ℚ)) (List.replicate 15 (9 : ℚ))
    (by decide) (by intro d hd; simp at hd)

/-- C9: for every candle series with at least 20 candles (closes read as real
numbers) and every index i from 19 on, calculateIndicators stores
bb_upper >= bb_middle >= bb_lower, where bb_middle is the mean of
closes[i-19..i] and bb_upper - bb_middle = bb_middle - bb_lower = 2 times the
population standard deviation of that window. -/
theorem calculateIndicators_bollinger_ordered (stod : String → Option ℝ)
    (candles : List Candle) (prev : List (IndicatorData ℝ)) (closes highs lows : List ℝ)
    (hparse : parseCandles stod candles = some (closes, highs, lows))
    (h20 : 20 ≤ candles.length) :
    ∃ out, calculateIndicators Real.sqrt stod candles prev = some out ∧
      ∀ i, 19 ≤ i → i < candles.length → ∃ d, out[i]? = some d ∧
        d.bb_lower ≤ d.bb_middle ∧ d.bb_middle ≤ d.bb_upper ∧
        d.bb_middle = windowMean closes i ∧
        d.bb_upper - d.bb_middle = 2 * Real.sqrt (windowVariance closes i) ∧
        d.bb_middle - d.bb_lower = 2 * Real.sqrt (windowVariance closes i) := by
  have hne : candles ≠ [] := by
    intro h; rw [h] at h20; simp at h20
  obtain ⟨out, h, _, _, hbb, _⟩ :=
    calculateIndicators_run Real.sqrt stod candles prev closes highs lows hparse hne (by omega)
  refine ⟨out, h, ?_⟩
  intro i hi1 hi2
  obtain ⟨d, hd, hm, hu, hl⟩ := hbb i hi1 hi2
  have hs := Real.sqrt_nonneg (windowVariance closes i)
  refine ⟨d, hd, ?_, ?_, hm, ?_, ?_⟩
  · rw [hl, hm]; linarith
  · rw [hu, hm]; linarith
  · rw [hu, hm]; ring
  · rw [hl, hm]; ring

/-- C10: for every candle series with at least 15 candles and every index i
from 14 on, the atr that calculateIndicators stores at i is non-negative, for
arbitrary highs, lows and closes (high >= low is not assumed). -/
theorem calculateIndicators_atr_nonneg {K : Type} [LinearOrderedField K]
    (sqrt : K → K) (stod : String → Option K) (candles : List Candle)
    (prev : List (IndicatorData K)) (closes highs lows : List K)
    (hparse : parseCandles stod candles = some (closes, highs, lows))
    (h15 : 15 ≤ candles.length) :
    ∃ out, calculateIndicators sqrt stod candles prev = some out ∧
      ∀ i, 14 ≤ i → i < candles.length → ∃ d, out[i]? = some d ∧ 0 ≤ d.atr := by
  have hne : candles ≠ [] := by
    intro h; rw [h] at h15; simp at h15
  obtain ⟨out, h, _, _, _, hatr⟩ :=
    calculateIndicators_run sqrt stod candles prev closes highs lows hparse hne (by omega)
  exact ⟨out, h, hatr⟩

/-- Witness for C9: twenty equal candles read as real numbers. -/
theorem calculateIndicators_bollinger_ordered_witness :
    ∃ out, calculateIndicators Real.sqrt (intStod ℝ) (flatCandles 20) [] = some out ∧
      ∀ i, 19 ≤ i → i < (flatCandles 20).length → ∃ d, out[i]? = some d ∧
        d.bb_lower ≤ d.bb_middle ∧ d.bb_middle ≤ d.bb_upper ∧
        d.bb_middle = windowMean (List.replicate 20 (((11 : ℤ) : ℝ))) i ∧
        d.bb_upper - d.bb_middle =
          2 * Real.sqrt (windowVariance (List.replicate 20 (((11 : ℤ) : ℝ))) i) ∧
        d.bb_middle - d.bb_lower =
          2 * Real.sqrt (windowVariance (List.replicate 20 (((11 : ℤ) : ℝ))) i) :=
  calculateIndicators_bollinger_ordered (intStod ℝ) (flatCandles 20) []
    (List.replicate 20 (((11 : ℤ) : ℝ))) (List.replicate 20 (((12 : ℤ) : ℝ)))
    (List.replicate 20 (((9 : ℤ) : ℝ))) (by rfl) (by decide)

/-- Witness for C10: fifteen candles whose high lies below the low. -/
theorem calculateIndicators_atr_nonneg_witness :
    ∃ out, calculateIndicators (fun x => x) (intStod ℚ) (invertedCandles 15) [] = some out ∧
      ∀ i, 14 ≤ i → i < (invertedCandles 15).length → ∃ d, out[i]? = some d ∧ 0 ≤ d.atr :=
  calculateIndicators_atr_nonneg (fun x => x) (intStod ℚ) (invertedCandles 15) []
    (List.replicate 15 (11 : ℚ)) (List.replicate 15 (9 : ℚ)) (List.replicate 15 (12 : ℚ))
    (by decide) (by decide)

/-! ### Signals and order placement -/

/-- C11: for every ticker price and every three latest snapshots, the buy signal
of enhancedTradeLogic is true if and only if price < bb_lower, rsi < 30 and
macd_hist > 0 hold on all three timeframes, and whenever all three satisfy that
buy predicate the sell signal is false. -/
theorem buySignal_iff_all_timeframes {K : Type} [LinearOrderedField K]
    (tickerPrice : K) (last1h last15m last5m : IndicatorData K) :
    (buySignal tickerPrice last1h last15m last5m = true ↔
      (tickerPrice < last1h.bb_lower ∧ last1h.rsi < 30 ∧ last1h.macd_hist > 0) ∧
      (tickerPrice < last15m.bb_lower ∧ last15m.rsi < 30 ∧ last15m.macd_hist > 0) ∧
      (tickerPrice < last5m.bb_lower ∧ last5m.rsi < 30 ∧ last5m.macd_hist > 0)) ∧
    (buySignal tickerPrice last1h last15m last5m = true →
      sellSignal tickerPrice last1h last15m last5m = false) := by
  have hiff : buySignal tickerPrice last1h last15m last5m = true ↔
      (tickerPrice < last1h.bb_lower ∧ last1h.rsi < 30 ∧ last1h.macd_hist > 0) ∧
      (tickerPrice < last15m.bb_lower ∧ last15m.rsi < 30 ∧ last15m.macd_hist > 0) ∧
      (tickerPrice < last5m.bb_lower ∧ last5m.rsi < 30 ∧ last5m.macd_hist > 0) := by
    simp only [buySignal, buySignalOn, Bool.and_eq_true, decide_eq_true_eq]
    tauto
  refine ⟨hiff, ?_⟩
  intro hb
  obtain ⟨⟨_, hr, _⟩, _, _⟩ := hiff.mp hb
  have hn : ¬ (last1h.rsi > 70) := by
    intro h70
    have : (30 : K) < 70 := by norm_num
    exact absurd (lt_trans h70 hr) (not_lt.mpr this.le)
  simp [sellSignal, sellSignalOn, hn]

/-- A call of `placeMarketOrder` that returns `false` returns the state it was
given. -/
theorem placeMarketOrder_false_state {K : Type} [LinearOrderedField K]
    (st : BotState K) (side : String) (amount tickerPrice : K) (responseEmpty : Bool)
    (h : (placeMarketOrder st side amount tickerPrice responseEmpty).2 = false) :
    (placeMarketOrder st side amount tickerPrice responseEmpty).1 = st := by
  unfold placeMarketOrder at h ⊢
  split_ifs at h ⊢ <;> rfl

/-- C12: whenever placeMarketOrder returns false (ticker price unavailable,
insufficient simulated balance, unknown side, empty API response), the state is
exactly as before the call: simulated balances, entry price, held quantity and
cumulative profit/loss are unchanged; and a poll cycle whose order placement
returned false leaves the state unchanged too. -/
theorem placeMarketOrder_failure_keeps_state {K : Type} [LinearOrderedField K]
    (st : BotState K) (side : String) (amount tickerPrice : K) (responseEmpty : Bool)
    (env : CycleEnv K) :
    ((placeMarketOrder st side amount tickerPrice responseEmpty).2 = false →
      (placeMarketOrder st side amount tickerPrice responseEmpty).1 = st) ∧
    ((st.isSimulation = true ∧ (tickerPrice = 0 ∨
        (side = "buy" ∧ st.simFiatBalance < amount) ∨
        (side = "sell" ∧ st.simCryptoBalance < amount) ∨
        (side ≠ "buy" ∧ side ≠ "sell")) ∨
      st.isSimulation = false ∧ responseEmpty = true) →
      placeMarketOrder st side amount tickerPrice responseEmpty = (st, false)) ∧
    (∀ s a, (pollCycle st env).order = some (s, a, false) → (pollCycle st env).state = st) := by
  refine ⟨placeMarketOrder_false_state st side amount tickerPrice responseEmpty, ?_, ?_⟩
  · rintro (⟨hsim, h⟩ | ⟨hsim, hre⟩)
    · unfold placeMarketOrder
      rw [if_pos hsim]
      by_cases h0 : tickerPrice = 0
      · rw [if_pos h0]
      · rw [if_neg h0]
        rcases h with h | ⟨hb, hlt⟩ | ⟨hs, hlt⟩ | ⟨hnb, hns⟩
        · exact absurd h h0
        · rw [if_pos hb, if_neg (not_le.mpr hlt)]
        · have hnb : side ≠ "buy" := by rw [hs]; decide
          rw [if_neg hnb, if_pos hs, if_neg (not_le.mpr hlt)]
        · rw [if_neg hnb, if_neg hns]
    · unfold placeMarketOrder
      simp [hsim, hre]
  · intro s a h
    by_cases h0 : env.tickerPrice = 0
    · simp [pollCycle, h0]
    · cases e1 : env.last1h with
      | none => simp [pollCycle, h0, e1]
      | some l1 =>
        cases e2 : env.last15m with
        | none => simp [pollCycle, h0, e1, e2]
        | some l2 =>
          cases e3 : env.last5m with
          | none => simp [pollCycle, h0, e1, e2, e3]
          | some l3 =>
            simp only [pollCycle, h0, if_false, e1, e2, e3] at h ⊢
            by_cases hbuy : getCryptoBalance st env < 1 / 100000000 ∧
                getFiatBalance st env > 50 ∧ buySignal env.tickerPrice l1 l2 l3 = true
            · rw [if_pos hbuy] at h ⊢
              by_cases hok : (placeMarketOrder st "buy" (st.maxPositionSize *
                  getFiatBalance st env) env.orderTickerPrice env.orderResponseEmpty).2 = true
              · rw [if_pos hok] at h
                split_ifs at h <;> simp at h
              · rw [if_neg hok]
                exact placeMarketOrder_false_state _ _ _ _ _ (by simpa using hok)
            · rw [if_neg hbuy] at h ⊢
              by_cases hsell : getCryptoBalance st env > 1 / 100000 ∧ st.entryPrice > 0 ∧
                  sellSignal env.tickerPrice l1 l2 l3 = true
              · rw [if_pos hsell] at h ⊢
                by_cases hok : (placeMarketOrder st "sell" (getCryptoBalance st env)
                    env.orderTickerPrice env.orderResponseEmpty).2 = true
                · rw [if_pos hok] at h
                  split_ifs at h <;> simp at h
                · rw [if_neg hok]
                  exact placeMarketOrder_false_state _ _ _ _ _ (by simpa using hok)
              · rw [if_neg hsell]

/-- Witness for C12: a simulated sell of 3 units by a bot holding 2, and a poll
cycle over it. -/
theorem placeMarketOrder_failure_keeps_state_witness :
    placeMarketOrder simHolding "sell" 3 100 false = (simHolding, false) :=
  (placeMarketOrder_failure_keeps_state simHolding "sell" 3 100 false sellCycle).2.1
    (Or.inl ⟨rfl, Or.inr (Or.inr (Or.inl ⟨rfl, by decide⟩))⟩)

/-- C13 (counterexample): a real-mode bot whose entry price is 0 (no buy recorded
since start-up) while the exchange reports 1 unit of crypto, well above the dust
threshold, in a cycle where the sell signal holds on all three timeframes: no
order is placed and the state is unchanged. -/
theorem pollCycle_no_sell_without_entry :
    getCryptoBalance realNoEntry sellCycle > 1 / 100000 ∧
      sellSignal sellCycle.tickerPrice sellSnapshot sellSnapshot sellSnapshot = true ∧
      (pollCycle realNoEntry sellCycle).order = none ∧
      (pollCycle realNoEntry sellCycle).state = realNoEntry := by
  refine ⟨by norm_num [getCryptoBalance, realNoEntry, sellCycle], by decide, ?_, ?_⟩ <;>
    norm_num [pollCycle, getCryptoBalance, getFiatBalance, realNoEntry, sellCycle]

/-- C13 (amended): in every poll cycle in which the ticker price was obtained
(non-zero), all three indicator vectors are non-empty, the crypto balance exceeds
the dust threshold 0.00001, the recorded entry price is positive and the sell
signal holds, the coordinator places a sell order for the full crypto balance. -/
theorem pollCycle_sells_full_balance {K : Type} [LinearOrderedField K]
    (st : BotState K) (env : CycleEnv K) (last1h last15m last5m : IndicatorData K)
    (hprice : env.tickerPrice ≠ 0)
    (h1 : env.last1h = some last1h) (h2 : env.last15m = some last15m)
    (h3 : env.last5m = some last5m)
    (hdust : getCryptoBalance st env > 1 / 100000)
    (hentry : st.entryPrice > 0)
    (hsell : sellSignal env.tickerPrice last1h last15m last5m = true) :
    (pollCycle st env).order = some ("sell", getCryptoBalance st env,
      (placeMarketOrder st "sell" (getCryptoBalance st env) env.orderTickerPrice
        env.orderResponseEmpty).2) := by
  have hnb : ¬ (getCryptoBalance st env < 1 / 100000000 ∧ getFiatBalance st env > 50 ∧
      buySignal env.tickerPrice last1h last15m last5m = true) := by
    rintro ⟨hlt, _⟩
    have : (1 : K) / 100000000 < 1 / 100000 := by norm_num
    exact absurd (lt_trans hlt this) (not_lt.mpr hdust.le)
  have hs : getCryptoBalance st env > 1 / 100000 ∧ st.entryPrice > 0 ∧
      sellSignal env.tickerPrice last1h last15m last5m = true := ⟨hdust, hentry, hsell⟩
  unfold pollCycle
  simp only [hprice, if_false, h1, h2, h3, hnb, hs, and_self, if_true]
  cases hr : (placeMarketOrder st "sell" (getCryptoBalance st env) env.orderTickerPrice
      env.orderResponseEmpty).2 with
  | false => simp
  | true =>
    cases hsim : st.isSimulation <;> simp

/-- Witness for C13 (amended): a simulated bot holding 2 units bought at 90 in a
cycle at price 100 with the sell condition on all three timeframes. -/
theorem pollCycle_sells_full_balance_witness :
    (pollCycle simHolding sellCycle).order = some ("sell", getCryptoBalance simHolding sellCycle,
      (placeMarketOrder simHolding "sell" (getCryptoBalance simHolding sellCycle)
        sellCycle.orderTickerPrice sellCycle.orderResponseEmpty).2) :=
  pollCycle_sells_full_balance simHolding sellCycle sellSnapshot sellSnapshot sellSnapshot
    (by decide) rfl rfl rfl (by norm_num [getCryptoBalance, simHolding, sellCycle])
    (by decide) (by decide)

/-- C14: in simulation mode, for every state with entry price e and every
successful sell of quantity q at ticker price p (p non-zero, q within the
simulated crypto balance), placeMarketOrder returns true, increases the
cumulative profit/loss by exactly (p - e) * q and resets the position (entry
price 0, held quantity 0); a buy, successful or not, leaves the cumulative
profit/loss unchanged. -/
theorem placeMarketOrder_sell_profit {K : Type} [LinearOrderedField K]
    (st : BotState K) (q p amount tickerPrice : K) (responseEmpty : Bool)
    (hsim : st.isSimulation = true) (hp : p ≠ 0) (hq : q ≤ st.simCryptoBalance) :
    (placeMarketOrder st "sell" q p responseEmpty).2 = true ∧
    (placeMarketOrder st "sell" q p responseEmpty).1.totalProfitLoss =
      st.totalProfitLoss + (p - st.entryPrice) * q ∧
    (placeMarketOrder st "sell" q p responseEmpty).1.entryPrice = 0 ∧
    (placeMarketOrder st "sell" q p responseEmpty).1.boughtCryptoAmount = 0 ∧
    (placeMarketOrder st "buy" amount tickerPrice responseEmpty).1.totalProfitLoss =
      st.totalProfitLoss := by
  have hne : ("sell" : String) ≠ "buy" := by decide
  refine ⟨?_, ?_, ?_, ?_, ?_⟩
  · simp [placeMarketOrder, hsim, hp, hne, hq]
  · simp [placeMarketOrder, hsim, hp, hne, hq]
  · simp [placeMarketOrder, hsim, hp, hne, hq]
  · simp [placeMarketOrder, hsim, hp, hne, hq]
  · unfold placeMarketOrder
    rw [if_pos hsim]
    by_cases h0 : tickerPrice = 0
    · rw [if_pos h0]
    · rw [if_neg h0, if_pos rfl]
      split_ifs <;> rfl

/-- Witness for C14: the simulated bot holding 2 units bought at 90 sells them at
100. -/
theorem placeMarketOrder_sell_profit_witness :
    (placeMarketOrder simHolding "sell" 2 100 false).2 = true ∧
    (placeMarketOrder simHolding "sell" 2 100 false).1.totalProfitLoss =
      simHolding.totalProfitLoss + (100 - simHolding.entryPrice) * 2 ∧
    (placeMarketOrder simHolding "sell" 2 100 false).1.entryPrice = 0 ∧
    (placeMarketOrder simHolding "sell" 2 100 false).1.boughtCryptoAmount = 0 ∧
    (placeMarketOrder simHolding "buy" 50 100 false).1.totalProfitLoss =
      simHolding.totalProfitLoss :=
  placeMarketOrder_sell_profit simHolding 2 100 50 100 false rfl (by decide) (by decide)

/-! ### `HeaderCallback` -/

theorem isPrefixOf_append_self (key rest : List Char) :
    key.isPrefixOf (key ++ rest) = true := by
  induction key with
  | nil => simp [List.isPrefixOf]
  | cons k ks ih => simp [List.isPrefixOf, ih]

/-- A key that starts the searched text is found where the search starts. -/
theorem findFrom_at_start (key rest : List Char) (off : Nat) (hk : key ≠ []) :
    findFrom key (key ++ rest) off = some off := by
  cases key with
  | nil => exact absurd rfl hk
  | cons k ks =>
    have h := isPrefixOf_append_self (k :: ks) rest
    simp only [List.cons_append] at h ⊢
    simp only [findFrom, h, if_true]

/-- The first colon after a colon-free run is found right behind the run. -/
theorem findFrom_colon (pre rest : List Char) (off : Nat) (h : ∀ c ∈ pre, c ≠ ':') :
    findFrom ":".data (pre ++ ':' :: rest) off = some (off + pre.length) := by
  induction pre generalizing off with
  | nil =>
    have : ":".data = [':'] := rfl
    simp [findFrom, this, List.isPrefixOf]
  | cons c cs ih =>
    have hc : c ≠ ':' := h c (List.mem_cons_self _ _)
    have : ":".data = [':'] := rfl
    have hne : ((':' : Char) == c) = false := by
      simpa using fun e => hc e.symm
    rw [List.cons_append, findFrom]
    rw [this] at ih ⊢
    simp only [List.isPrefixOf, hne, Bool.false_and, Bool.false_eq_true, if_false]
    rw [ih (off + 1) (fun d hd => h d (List.mem_cons_of_mem _ hd))]
    simp only [List.length_cons, Option.some.injEq]
    omega

/-- On a header line made of a colon-free key, a colon and a value text that
`stoll` reads as `n`, `extractValue` returns `n`. -/
theorem extractValue_of_key (key value : String) (n : Int)
    (hk : key.data ≠ []) (hcolon : ∀ c ∈ key.data, c ≠ ':')
    (hv : stoll value = some n) :
    extractValue (key ++ ":" ++ value) key = n := by
  have hdata : (key ++ ":" ++ value).data = key.data ++ ':' :: value.data := by
    simp [String.data_append]
  have h1 : find (key ++ ":" ++ value) key 0 = some 0 := by
    unfold find
    rw [if_neg (by omega), List.drop_zero, hdata]
    exact findFrom_at_start key.data _ 0 hk
  have h2 : find (key ++ ":" ++ value) ":" 0 = some key.data.length := by
    unfold find
    rw [if_neg (by omega), List.drop_zero, hdata, findFrom_colon key.data value.data 0 hcolon,
      Nat.zero_add]
  have h3 : substr (key ++ ":" ++ value) (key.data.length + 1) = value := by
    unfold substr
    rw [hdata]
    have : (key.data ++ ':' :: value.data).drop (key.data.length + 1) = value.data := by
      rw [show key.data ++ ':' :: value.data = (key.data ++ [':']) ++ value.data by simp]
      exact List.drop_left' (by simp)
    rw [this]
  simp only [extractValue, h1, h2, h3, hv]

/-- A header line that starts with the searched text is recognised. -/
theorem find_at_start (lit value : String) (hk : lit.data ≠ []) :
    (find (lit ++ value) lit 0).isSome = true := by
  unfold find
  rw [if_neg (by omega), List.drop_zero, String.data_append, findFrom_at_start lit.data _ 0 hk]
  rfl

/-- The search finds nothing exactly when the key occurs nowhere in the text. -/
theorem findFrom_eq_none_iff (key : List Char) :
    ∀ (s : List Char) (off : Nat), findFrom key s off = none ↔ ¬ key <:+: s := by
  intro s
  induction s with
  | nil =>
    intro off
    rw [findFrom, List.infix_nil]
    cases key with
    | nil => simp
    | cons k ks => simp
  | cons c cs ih =>
    intro off
    rw [findFrom, List.infix_cons_iff]
    by_cases hp : key.isPrefixOf (c :: cs) = true
    · rw [if_pos hp]
      have := List.isPrefixOf_iff_prefix.mp hp
      simp [this]
    · rw [if_neg hp, ih (off + 1)]
      have : ¬ key <+: c :: cs := fun h => hp (List.isPrefixOf_iff_prefix.mpr h)
      simp [this]

/-- A header line that holds the searched text nowhere is not recognised. -/
theorem find_eq_none_of_not_infix (header lit : String) (h : ¬ lit.data <:+: header.data) :
    find header lit 0 = none := by
  unfold find
  rw [if_neg (by omega), List.drop_zero]
  exact (findFrom_eq_none_iff lit.data header.data 0).mpr h

/-- C15 (counterexample): a header line whose name is the rate-limit header in
another letter case, with the decimal value 100, leaves all four stored values
as they were instead of setting the remaining budget to 100. -/
theorem HeaderCallback_ignores_other_case :
    "Bitvavo-Ratelimit-Remaining".data.map Char.toLower = "bitvavo-ratelimit-remaining".data ∧
      stoll " 100\r\n" = some 100 ∧
      HeaderCallback "Bitvavo-Ratelimit-Remaining: 100\r\n" noRateLimit = noRateLimit ∧
      (HeaderCallback "Bitvavo-Ratelimit-Remaining: 100\r\n" noRateLimit).localRemaining ≠ 100 := by
  decide

/-- C15 (amended): HeaderCallback recognises the rate-limit headers by a
case-sensitive search for the lower-case texts `bitvavo-ratelimit-remaining:`
and `bitvavo-ratelimit-resetat:`. For every header line that starts with
`bitvavo-ratelimit-remaining:` (respectively `bitvavo-ratelimit-resetat:`)
followed by a text that reads as the decimal integer n, the call sets the stored
remaining budget (respectively reset time), both the local and the global copy,
to n. For every header line that holds the text `bitvavo-ratelimit-remaining:`
(respectively `bitvavo-ratelimit-resetat:`) nowhere, the call leaves the stored
remaining budget (respectively reset time), both copies, as it was. -/
theorem HeaderCallback_lower_case (value header : String) (n : Int) (st : RateLimit)
    (hv : stoll value = some n) :
    (((HeaderCallback ("bitvavo-ratelimit-remaining:" ++ value) st).localRemaining = n ∧
      (HeaderCallback ("bitvavo-ratelimit-remaining:" ++ value) st).g_rateLimitRemaining = n) ∧
    ((HeaderCallback ("bitvavo-ratelimit-resetat:" ++ value) st).localResetAt = n ∧
      (HeaderCallback ("bitvavo-ratelimit-resetat:" ++ value) st).g_rateLimitResetAt = n)) ∧
    (¬ "bitvavo-ratelimit-remaining:".data <:+: header.data →
      (HeaderCallback header st).localRemaining = st.localRemaining ∧
      (HeaderCallback header st).g_rateLimitRemaining = st.g_rateLimitRemaining) ∧
    (¬ "bitvavo-ratelimit-resetat:".data <:+: header.data →
      (HeaderCallback header st).localResetAt = st.localResetAt ∧
      (HeaderCallback header st).g_rateLimitResetAt = st.g_rateLimitResetAt) := by
  have e1 : ("bitvavo-ratelimit-remaining:" : String) = "bitvavo-ratelimit-remaining" ++ ":" := by
    decide
  have e2 : ("bitvavo-ratelimit-resetat:" : String) = "bitvavo-ratelimit-resetat" ++ ":" := by
    decide
  have f1 := find_at_start "bitvavo-ratelimit-remaining:" value (by decide)
  have f2 := find_at_start "bitvavo-ratelimit-resetat:" value (by decide)
  have x1 : extractValue ("bitvavo-ratelimit-remaining:" ++ value)
      "bitvavo-ratelimit-remaining" = n := by
    rw [e1]
    exact extractValue_of_key "bitvavo-ratelimit-remaining" value n (by decide) (by decide) hv
  have x2 : extractValue ("bitvavo-ratelimit-resetat:" ++ value)
      "bitvavo-ratelimit-resetat" = n := by
    rw [e2]
    exact extractValue_of_key "bitvavo-ratelimit-resetat" value n (by decide) (by decide) hv
  refine ⟨⟨?_, ?_⟩, ?_, ?_⟩
  · unfold HeaderCallback
    simp only [f1, if_true, x1]
    split_ifs <;> exact ⟨rfl, rfl⟩
  · simp [HeaderCallback, f2, x2]
  · intro h
    have hf := find_eq_none_of_not_infix header "bitvavo-ratelimit-remaining:" h
    unfold HeaderCallback
    simp only [hf, Option.isSome_none, Bool.false_eq_true, if_false]
    split_ifs <;> exact ⟨rfl, rfl⟩
  · intro h
    have hf := find_eq_none_of_not_infix header "bitvavo-ratelimit-resetat:" h
    unfold HeaderCallback
    simp only [hf, Option.isSome_none, Bool.false_eq_true, if_false]
    split_ifs <;> exact ⟨rfl, rfl⟩

/-- Witness for C15 (amended): the lower-case header lines with the value 100 set
the stored values of a store holding 42 and 1700 to 100, and a header line that
holds neither lower-case text leaves that store as it was. -/
theorem HeaderCallback_lower_case_witness :
    (((HeaderCallback ("bitvavo-ratelimit-remaining:" ++ " 100\r\n")
        (RateLimit.mk 42 1700 42 1700)).localRemaining = 100 ∧
      (HeaderCallback ("bitvavo-ratelimit-remaining:" ++ " 100\r\n")
        (RateLimit.mk 42 1700 42 1700)).g_rateLimitRemaining = 100) ∧
    ((HeaderCallback ("bitvavo-ratelimit-resetat:" ++ " 100\r\n")
        (RateLimit.mk 42 1700 42 1700)).localResetAt = 100 ∧
      (HeaderCallback ("bitvavo-ratelimit-resetat:" ++ " 100\r\n")
        (RateLimit.mk 42 1700 42 1700)).g_rateLimitResetAt = 100)) ∧
    ((HeaderCallback "content-type: application/json\r\n"
        (RateLimit.mk 42 1700 42 1700)).localRemaining = 42 ∧
      (HeaderCallback "content-type: application/json\r\n"
        (RateLimit.mk 42 1700 42 1700)).g_rateLimitRemaining = 42) ∧
    ((HeaderCallback "content-type: application/json\r\n"
        (RateLimit.mk 42 1700 42 1700)).localResetAt = 1700 ∧
      (HeaderCallback "content-type: application/json\r\n"
        (RateLimit.mk 42 1700 42 1700)).g_rateLimitResetAt = 1700) :=
  have h := HeaderCallback_lower_case " 100\r\n" "content-type: application/json\r\n" 100
    (RateLimit.mk 42 1700 42 1700) (by decide)
  ⟨h.1, h.2.1 (by decide), h.2.2 (by decide)⟩

/-! ### Pointwise form of the indicator loops -/

/-- A loop of `a + b` passes is a loop of `a` passes followed by one of `b`. -/
theorem forLoop_append {σ : Type} (body : Nat → σ → Option σ) (a b : Nat) :
    ∀ (start : Nat) (s : σ),
      forLoop body (a + b) start s =
        (forLoop body a start s).bind (forLoop body b (start + a)) := by
  induction a with
  | zero => intro start s; simp [forLoop]
  | succ a ih =>
    intro start s
    rw [show a + 1 + b = (a + b) + 1 by omega, forLoop, forLoop]
    cases h : body start s with
    | none => rfl
    | some s2 =>
      simp only
      rw [ih (start + 1) s2, show start + 1 + a = start + (a + 1) by omega]

/-- An in-bounds update, seen from every index. -/
theorem updateAt_pointwise {α : Type} (f : α → α) (v : List α) (i : Nat) (h : i < v.length) :
    ∃ out, updateAt v i f = some out ∧ out.length = v.length ∧
      ∀ j, out[j]? = (v[j]?).map (fun d => if j = i then f d else d) := by
  obtain ⟨out, h1, h2, h3, h4⟩ := updateAt_spec f v i h
  refine ⟨out, h1, h2, ?_⟩
  intro j
  by_cases hj : j = i
  · subst hj
    rw [h3]
    cases v[j]? <;> simp
  · rw [h4 j hj]
    cases v[j]? <;> simp [hj]

/-- A loop whose pass `i` rewrites entry `i` of a vector held in its state by
`W i`, and nothing else of that vector, rewrites the entries of its range by `W`
and leaves the others. `I` is an invariant of the state the passes may rely on. -/
theorem forLoop_pointwise {σ D : Type} (body : Nat → σ → Option σ) (ind : σ → List D)
    (I : Nat → σ → Prop) (W : Nat → D → D) (count start : Nat) (s0 : σ)
    (h0 : I start s0)
    (hstep : ∀ i s, start ≤ i → i < start + count → I i s →
      (ind s).length = (ind s0).length →
      ∃ s2, body i s = some s2 ∧ I (i + 1) s2 ∧ (ind s2).length = (ind s).length ∧
        ∀ j, (ind s2)[j]? = ((ind s)[j]?).map (fun d => if j = i then W i d else d)) :
    ∃ s2, forLoop body count start s0 = some s2 ∧ I (start + count) s2 ∧
      (ind s2).length = (ind s0).length ∧
      ∀ j, (ind s2)[j]? =
        ((ind s0)[j]?).map (fun d => if start ≤ j ∧ j < start + count then W j d else d) := by
  obtain ⟨s2, h, hI, hlen, hp⟩ := forLoop_inv body
    (fun k s => I k s ∧ (ind s).length = (ind s0).length ∧
      ∀ j, (ind s)[j]? =
        ((ind s0)[j]?).map (fun d => if start ≤ j ∧ j < k then W j d else d))
    count start s0
    ⟨h0, rfl, fun j => by
      have : ¬ (start ≤ j ∧ j < start) := by omega
      simp only [this, if_false]
      cases (ind s0)[j]? <;> rfl⟩
    (by
      rintro i s hi1 hi2 ⟨hI, hl, hp⟩
      obtain ⟨s2, hb, hI2, hl2, hp2⟩ := hstep i s hi1 hi2 hI hl
      refine ⟨s2, hb, hI2, hl2.trans hl, ?_⟩
      intro j
      rw [hp2 j, hp j]
      cases (ind s0)[j]? with
      | none => rfl
      | some d =>
        simp only [Option.map_some']
        by_cases hj : j = i
        · subst hj
          have h1 : ¬ (start ≤ j ∧ j < j) := by omega
          have h2 : start ≤ j ∧ j < j + 1 := by omega
          rw [if_pos rfl, if_neg h1, if_pos h2]
        · rw [if_neg hj]
          by_cases hr : start ≤ j ∧ j < i
          · have h2 : start ≤ j ∧ j < i + 1 := by omega
            rw [if_pos hr, if_pos h2]
          · have h2 : ¬ (start ≤ j ∧ j < i + 1) := by omega
            rw [if_neg hr, if_neg h2])
  exact ⟨s2, h, hI, hlen, hp⟩

theorem getD_of_getElem? {α : Type} (l : List α) (i : Nat) (x d : α) (h : l[i]? = some x) :
    l.getD i d = x := by
  simp [List.getD, h]
theorem map_congr_getElem? {α β : Type} (l : List α) (j : Nat) (f g : α → β)
    (h : ∀ d, l[j]? = some d → j < l.length → f d = g d) :
    (l[j]?).map f = (l[j]?).map g := by
  cases hd : l[j]? with
  | none => rfl
  | some d =>
    have hlt : j < l.length := by
      by_contra hc
      rw [List.getElem?_eq_none (not_lt.mp hc)] at hd
      exact Option.noConfusion hd
    simp only [Option.map_some', h d hd hlt]

section PointwiseLemmas

variable {K : Type} [LinearOrderedField K]

/-- The smoothing loop of the RSI block in pointwise form: the rsi stored at an
index from 14 on is `rsiOf` of the smoothed averages, whatever the vector held. -/
theorem rsiLoop_pointwise (gain loss : List K) (seed : K × K)
    (inds : List (IndicatorData K)) (hg : gain.length = inds.length)
    (hl : loss.length = inds.length) (h14 : 14 ≤ inds.length) :
    ∃ s, forLoop (rsiStep gain loss) (inds.length - 14) 14 (seed.1, seed.2, inds) = some s ∧
      s.2.2.length = inds.length ∧
      ∀ j, s.2.2[j]? = (inds[j]?).map (fun d : IndicatorData K =>
        if 14 ≤ j then { d with rsi := rsiOf (wilderAvg gain loss seed (j - 13)) } else d) := by
  obtain ⟨s, h, _, hlen, hp⟩ := forLoop_pointwise (rsiStep gain loss) (fun s => s.2.2)
    (fun k s => (s.1, s.2.1) = wilderAvg gain loss seed (k - 14))
    (fun i d => { d with rsi := rsiOf (wilderAvg gain loss seed (i - 13)) })
    (inds.length - 14) 14 (seed.1, seed.2, inds) rfl
    (by
      rintro i ⟨a, b, v⟩ hi1 hi2 hI hvl
      simp only at hI hvl
      obtain ⟨g, hgi, _⟩ := getElem?_of_lt gain i (by omega)
      obtain ⟨l, hli, _⟩ := getElem?_of_lt loss i (by omega)
      have hw : wilderAvg gain loss seed (i - 13) = ((a * 13 + g) / 14, (b * 13 + l) / 14) := by
        have e1 : i - 13 = (i - 14) + 1 := by omega
        have e2 : 14 + (i - 14) = i := by omega
        rw [e1, wilderAvg, ← hI, e2, getD_of_getElem? gain i g 0 hgi,
          getD_of_getElem? loss i l 0 hli]
      obtain ⟨v2, hu, hulen, hup⟩ := updateAt_pointwise
        (fun d : IndicatorData K => { d with rsi := 100 - 100 / (1 +
          (if (b * 13 + l) / 14 = 0 then (100 : K)
            else (a * 13 + g) / 14 / ((b * 13 + l) / 14))) }) v i (by omega)
      refine ⟨((a * 13 + g) / 14, (b * 13 + l) / 14, v2), ?_, ?_, hulen, ?_⟩
      · simp only [rsiStep, hgi, hli, hu, Option.bind_eq_bind, Option.some_bind]
      · have e : i + 1 - 14 = i - 13 := by omega
        simp only [e, hw]
      · intro j
        rw [hup j]
        simp only [hw, rsiOf])
  simp only at hp hlen
  refine ⟨s, h, hlen, ?_⟩
  intro j
  rw [hp j]
  apply map_congr_getElem?
  intro d _ hlt
  by_cases hj : 14 ≤ j
  · have : 14 ≤ j ∧ j < 14 + (inds.length - 14) := by omega
    rw [if_pos this, if_pos hj]
  · have : ¬ (14 ≤ j ∧ j < 14 + (inds.length - 14)) := by omega
    rw [if_neg this, if_neg hj]

/-- The RSI block in pointwise form: there are values `R j`, determined by the
closes alone, such that on every indicator vector the block sets the rsi of
index `j` to `R j` when there are at least 14 closes and `j >= 14`, and changes
nothing else. -/
theorem rsiBlock_pointwise (closes : List K) :
    ∃ R : Nat → K, ∀ inds : List (IndicatorData K), inds.length = closes.length →
      ∃ out, rsiBlock closes inds = some out ∧ out.length = closes.length ∧
        ∀ j, out[j]? = (inds[j]?).map (fun d : IndicatorData K =>
          if 14 ≤ closes.length ∧ 14 ≤ j then { d with rsi := R j } else d) := by
  by_cases hn : 14 ≤ closes.length
  · obtain ⟨delta, gain, loss, hgl, hglen, hllen, _, _⟩ := gainLoss_loop closes
    obtain ⟨g13, hg13, _⟩ := getElem?_of_lt gain 13 (by omega)
    obtain ⟨l13, hl13, _⟩ := getElem?_of_lt loss 13 (by omega)
    have hseed : forLoop (rsiSeedStep gain loss) (14 - 13) 13 ((0 : K), (0 : K)) =
        some (0 + g13, 0 + l13) := by
      simp only [forLoop, rsiSeedStep, hg13, hl13, Option.bind_eq_bind, Option.some_bind]
    refine ⟨fun j => rsiOf (wilderAvg gain loss ((0 + g13) / 14, (0 + l13) / 14) (j - 13)), ?_⟩
    intro inds hlen
    obtain ⟨s, hloop, hslen, hp⟩ := rsiLoop_pointwise gain loss
      ((0 + g13) / 14, (0 + l13) / 14) inds (hglen.trans hlen.symm) (hllen.trans hlen.symm)
      (by omega)
    rw [hlen] at hloop
    refine ⟨s.2.2, ?_, hslen.trans hlen, ?_⟩
    · simp only [rsiBlock, hn, hgl, hseed, hloop, if_true, Option.bind_eq_bind,
        Option.some_bind]
    · intro j
      rw [hp j]
      apply map_congr_getElem?
      intro d _ _
      by_cases hj : 14 ≤ j
      · rw [if_pos hj, if_pos ⟨hn, hj⟩]
      · rw [if_neg hj, if_neg (fun h => hj h.2)]
  · refine ⟨fun _ => 0, ?_⟩
    intro inds hlen
    refine ⟨inds, by simp [rsiBlock, hn], hlen, ?_⟩
    intro j
    have : ∀ d : IndicatorData K,
        (if 14 ≤ closes.length ∧ 14 ≤ j then { d with rsi := (0 : K) } else d) = d := by
      intro d; rw [if_neg (fun h => hn h.1)]
    simp only [this, Option.map_id']

end PointwiseLemmas
section PointwiseLemmas2

variable {K : Type} [LinearOrderedField K]

/-- The function `calculateEMA` follows the EMA recurrence: called at index `i`
on prices that agree at `i` with the series `full`, with the EMA of `full` at
`i - 1` as `prevEMA`, it returns the EMA of `full` at `i`. -/
theorem calculateEMA_emaAt (period : K) (prices full : List K) (i : Nat) (prev p : K)
    (hp : prices[i]? = some p) (hfull : full[i]? = some p)
    (hprev : 0 < i → prev = emaAt period full (i - 1)) :
    calculateEMA prices period i prev = some (emaAt period full i) := by
  unfold calculateEMA
  cases i with
  | zero =>
    simp only [if_true, hp]
    rw [emaAt, getD_of_getElem? full 0 p 0 hfull]
  | succ i =>
    have hne : ¬ (i + 1 = 0) := by omega
    simp only [hne, if_false, hp]
    rw [emaAt, getD_of_getElem? full (i + 1) p 0 hfull, hprev (by omega)]
    rfl

/-- The value read as `(i > 0) ? v[i - 1] : closes[0]` when `v` holds the EMA
values of the indices below `i`. -/
theorem prev_emaAt (period : K) (v closes full : List K) (i : Nat) (hc : i < closes.length)
    (hv : ∀ j, j < i → v[j]? = some (emaAt period full j)) :
    ∃ p, (if i > 0 then v[i - 1]? else closes[0]?) = some p ∧
      (0 < i → p = emaAt period full (i - 1)) := by
  by_cases h0 : i > 0
  · exact ⟨_, by rw [if_pos h0, hv (i - 1) (by omega)], fun _ => rfl⟩
  · obtain ⟨x, hx, _⟩ := getElem?_of_lt closes 0 (by omega)
    exact ⟨x, by rw [if_neg h0, hx], fun h => absurd h h0⟩

/-- A write of `x` at index `i` into a vector that holds `f j` at every index
below `i` gives a vector that holds `f j` at every index below `i + 1`. -/
theorem writeAt_extends {α : Type} (f : Nat → α) (v : List α) (i : Nat) (x : α)
    (hi : i < v.length)
    (hx : x = f i) (hv : ∀ j, j < i → v[j]? = some (f j)) :
    ∃ v2, updateAt v i (fun _ => x) = some v2 ∧ v2.length = v.length ∧
      v2[i]? = some x ∧ ∀ j, j < i + 1 → v2[j]? = some (f j) := by
  obtain ⟨v2, h1, h2, h3, h4⟩ := updateAt_spec (fun _ => x) v i hi
  obtain ⟨y, hy, _⟩ := getElem?_of_lt v i hi
  rw [hy, Option.map_some'] at h3
  refine ⟨v2, h1, h2, h3, ?_⟩
  intro j hj
  by_cases hji : j = i
  · subst hji; rw [h3, hx]
  · rw [h4 j hji]; exact hv j (by omega)

/-- The first loop of the MACD block in pointwise form. -/
theorem macdLoop_pointwise (closes : List K) (inds : List (IndicatorData K))
    (hlen : inds.length = closes.length) :
    ∃ s, forLoop (macdStep closes) closes.length 0
        (List.replicate closes.length 0, List.replicate closes.length 0, inds) = some s ∧
      s.2.2.length = closes.length ∧
      ∀ j, s.2.2[j]? = (inds[j]?).map (fun d : IndicatorData K => { d with macd := macdAt closes j }) := by
  obtain ⟨s, h, _, hslen, hp⟩ := forLoop_pointwise (macdStep closes) (fun s => s.2.2)
    (fun k s => s.1.length = closes.length ∧ s.2.1.length = closes.length ∧
      (∀ j, j < k → s.1[j]? = some (emaAt 12 closes j)) ∧
      (∀ j, j < k → s.2.1[j]? = some (emaAt 26 closes j)))
    (fun i d => { d with macd := macdAt closes i })
    closes.length 0
    (List.replicate closes.length 0, List.replicate closes.length 0, inds)
    ⟨by simp, by simp, fun j hj => by omega, fun j hj => by omega⟩
    (by
      rintro i ⟨a, b, v⟩ _ hi2 ⟨ha, hb, hae, hbe⟩ hvl
      simp only at ha hb hae hbe hvl
      obtain ⟨c, hc, _⟩ := getElem?_of_lt closes i (by omega)
      obtain ⟨p12, hp12, hp12e⟩ := prev_emaAt 12 a closes closes i (by omega) hae
      have hx12 := calculateEMA_emaAt 12 closes closes i p12 c hc hc hp12e
      obtain ⟨a2, ha2, ha2len, ha2i, ha2e⟩ := writeAt_extends (emaAt 12 closes) a i
        (emaAt 12 closes i) (by omega) rfl hae
      obtain ⟨p26, hp26, hp26e⟩ := prev_emaAt 26 b closes closes i (by omega) hbe
      have hx26 := calculateEMA_emaAt 26 closes closes i p26 c hc hc hp26e
      obtain ⟨b2, hb2, hb2len, hb2i, hb2e⟩ := writeAt_extends (emaAt 26 closes) b i
        (emaAt 26 closes i) (by omega) rfl hbe
      obtain ⟨v2, hu, hulen, hup⟩ := updateAt_pointwise
        (fun d : IndicatorData K => { d with macd := emaAt 12 closes i - emaAt 26 closes i })
        v i (by omega)
      refine ⟨(a2, b2, v2), ?_, ⟨ha2len.trans ha, hb2len.trans hb, ha2e, hb2e⟩, hulen, ?_⟩
      · simp only [macdStep, writeAt, hp12, hx12, ha2, hp26, hx26, hb2, ha2i, hb2i, hu,
          Option.bind_eq_bind, Option.some_bind]
      · intro j
        rw [hup j]
        rfl)
  simp only at hp hslen
  refine ⟨s, h, hslen.trans hlen, ?_⟩
  intro j
  rw [hp j]
  apply map_congr_getElem?
  intro d _ hlt
  have : 0 ≤ j ∧ j < 0 + closes.length := by omega
  rw [if_pos this]

/-- The copy loop of the MACD block yields the MACD series. -/
theorem macdCopy_loop (closes : List K) (inds : List (IndicatorData K))
    (hlen : inds.length = closes.length)
    (hm : ∀ j d, inds[j]? = some d → d.macd = macdAt closes j) :
    forLoop (macdCopyStep inds) closes.length 0 (List.replicate closes.length 0) =
      some (macdSeries closes) := by
  obtain ⟨mv, h, hmlen, hmv⟩ := forLoop_inv (macdCopyStep inds)
    (fun k s => s.length = closes.length ∧ ∀ j, j < k → s[j]? = some (macdAt closes j))
    closes.length 0 (List.replicate closes.length 0)
    ⟨by simp, fun j hj => by omega⟩
    (by
      rintro i mv _ hi2 ⟨hml, hme⟩
      obtain ⟨d, hd, _⟩ := getElem?_of_lt inds i (by omega)
      obtain ⟨mv2, hmv2, hmv2len, _, hmv2e⟩ := writeAt_extends (macdAt closes) mv i d.macd
        (by omega) (hm i d hd) hme
      exact ⟨mv2, by simp only [macdCopyStep, writeAt, hd, hmv2, Option.bind_eq_bind,
        Option.some_bind], hmv2len.trans hml, hmv2e⟩)
  rw [h]
  congr 1
  apply List.ext_getElem?
  intro j
  by_cases hj : j < closes.length
  · rw [hmv j (by omega), macdSeries, List.getElem?_map, List.getElem?_range hj]
    rfl
  · rw [List.getElem?_eq_none (by omega), List.getElem?_eq_none (by simp [macdSeries]; omega)]

/-- The signal loop of the MACD block in pointwise form. -/
theorem macdSignalLoop_pointwise (closes : List K) (inds : List (IndicatorData K))
    (hlen : inds.length = closes.length) :
    ∃ s, forLoop (macdSignalStep (macdSeries closes)) closes.length 0
        (List.replicate closes.length 0, inds) = some s ∧
      s.2.length = closes.length ∧
      ∀ j, s.2[j]? = (inds[j]?).map (fun d : IndicatorData K =>
        { d with macd_signal := signalAt closes j, macd_hist := d.macd - signalAt closes j }) := by
  have hmvlen : (macdSeries closes).length = closes.length := by simp [macdSeries]
  obtain ⟨s, h, _, hslen, hp⟩ := forLoop_pointwise (macdSignalStep (macdSeries closes))
    (fun s => s.2)
    (fun k s => s.1.length = closes.length ∧
      ∀ j, j < k → s.1[j]? = some (signalAt closes j))
    (fun i d =>
      { d with macd_signal := signalAt closes i, macd_hist := d.macd - signalAt closes i })
    closes.length 0 (List.replicate closes.length 0, inds)
    ⟨by simp, fun j hj => by omega⟩
    (by
      rintro i ⟨sg, v⟩ _ hi2 ⟨hsl, hse⟩ hvl
      simp only at hsl hse hvl
      obtain ⟨m, hmi, _⟩ := getElem?_of_lt (macdSeries closes) i (by omega)
      obtain ⟨p, hp, hpe⟩ := prev_emaAt 9 sg (macdSeries closes) (macdSeries closes) i
        (by omega) hse
      have hx := calculateEMA_emaAt 9 ((macdSeries closes).take (i + 1)) (macdSeries closes)
        i p m (by rw [List.getElem?_take_of_succ, hmi]) hmi hpe
      obtain ⟨sg2, hsg2, hsg2len, hsg2i, hsg2e⟩ := writeAt_extends (signalAt closes) sg i
        (emaAt 9 (macdSeries closes) i) (by omega) rfl hse
      obtain ⟨v2, hu, hulen, hup⟩ := updateAt_pointwise
        (fun d : IndicatorData K => { d with macd_signal := emaAt 9 (macdSeries closes) i })
        v i (by omega)
      obtain ⟨v3, hu3, hu3len, hup3⟩ := updateAt_pointwise
        (fun d : IndicatorData K => { d with macd_hist := d.macd - d.macd_signal })
        v2 i (by omega)
      refine ⟨(sg2, v3), ?_, ⟨hsg2len.trans hsl, hsg2e⟩, hu3len.trans hulen, ?_⟩
      · simp only [macdSignalStep, writeAt, hp, hx, hsg2, hsg2i, hu, hu3,
          Option.bind_eq_bind, Option.some_bind]
      · intro j
        rw [hup3 j, hup j]
        cases v[j]? with
        | none => rfl
        | some d =>
          simp only [Option.map_some']
          by_cases hj : j = i
          · simp only [hj, if_true]; rfl
          · simp only [hj, if_false])
  simp only at hp hslen
  refine ⟨s, h, hslen.trans hlen, ?_⟩
  intro j
  rw [hp j]
  apply map_congr_getElem?
  intro d _ hlt
  have : 0 ≤ j ∧ j < 0 + closes.length := by omega
  rw [if_pos this]

/-- The MACD block in pointwise form: macd is set at every index; signal and
histogram are set when there are at least 9 closes. -/
theorem macdBlock_pointwise (closes : List K) (inds : List (IndicatorData K))
    (hlen : inds.length = closes.length) :
    ∃ out, macdBlock closes inds = some out ∧ out.length = closes.length ∧
      ∀ j, out[j]? = (inds[j]?).map (fun d : IndicatorData K =>
        if 9 ≤ closes.length then
          { d with
            macd := macdAt closes j
            macd_signal := signalAt closes j
            macd_hist := macdAt closes j - signalAt closes j }
        else { d with macd := macdAt closes j }) := by
  obtain ⟨⟨e12, e26, inds1⟩, hloop1, h1len, h1p⟩ := macdLoop_pointwise closes inds hlen
  simp only at h1len h1p
  by_cases h9 : 9 ≤ closes.length
  · have hm : ∀ j d, inds1[j]? = some d → d.macd = macdAt closes j := by
      intro j d hd
      rw [h1p j] at hd
      cases hi : inds[j]? with
      | none => rw [hi] at hd; exact Option.noConfusion hd
      | some d0 =>
        rw [hi, Option.map_some'] at hd
        rw [← Option.some.inj hd]
    have hloop2 := macdCopy_loop closes inds1 h1len hm
    obtain ⟨⟨sg, out⟩, hloop3, h3len, h3p⟩ := macdSignalLoop_pointwise closes inds1 h1len
    simp only at h3len h3p
    refine ⟨out, ?_, h3len, ?_⟩
    · simp only [macdBlock, hloop1, h9, if_true, hloop2, hloop3, Option.bind_eq_bind,
        Option.some_bind]
    · intro j
      rw [h3p j, h1p j]
      cases inds[j]? with
      | none => rfl
      | some d => simp only [Option.map_some', h9, if_true]
  · refine ⟨inds1, ?_, h1len, ?_⟩
    · simp only [macdBlock, hloop1, h9, if_false, Option.bind_eq_bind, Option.some_bind]
    · intro j
      rw [h1p j]
      simp only [h9, if_false]

end PointwiseLemmas2

section PointwiseLemmas3

variable {K : Type} [LinearOrderedField K]

/-- The EMA(20) block in pointwise form. -/
theorem emaBlock_pointwise (closes : List K) (inds : List (IndicatorData K))
    (hlen : inds.length = closes.length) :
    ∃ out, emaBlock closes inds = some out ∧ out.length = closes.length ∧
      ∀ j, out[j]? = (inds[j]?).map (fun d : IndicatorData K =>
        { d with ema := emaAt 20 closes j }) := by
  obtain ⟨out, h, _, holen, hp⟩ := forLoop_pointwise (emaStep closes) (fun s => s)
    (fun k s => ∀ j, j < k → (s[j]?).map (fun d => d.ema) = some (emaAt 20 closes j))
    (fun i d => { d with ema := emaAt 20 closes i })
    closes.length 0 inds (fun j hj => by omega)
    (by
      rintro i v _ hi2 hI hvl
      simp only at hvl
      obtain ⟨c, hc, _⟩ := getElem?_of_lt closes i (by omega)
      obtain ⟨p, hp, hpe⟩ : ∃ p, (if i > 0 then (v[i - 1]?).map (fun d => d.ema)
          else closes[0]?) = some p ∧ (0 < i → p = emaAt 20 closes (i - 1)) := by
        by_cases h0 : i > 0
        · exact ⟨_, by rw [if_pos h0, hI (i - 1) (by omega)], fun _ => rfl⟩
        · obtain ⟨x, hx, _⟩ := getElem?_of_lt closes 0 (by omega)
          exact ⟨x, by rw [if_neg h0, hx], fun h => absurd h h0⟩
      have hx := calculateEMA_emaAt 20 closes closes i p c hc hc hpe
      obtain ⟨v2, hu, hulen, hup⟩ := updateAt_pointwise
        (fun d : IndicatorData K => { d with ema := emaAt 20 closes i }) v i (by omega)
      refine ⟨v2, ?_, ?_, hulen, hup⟩
      · simp only [emaStep, hp, hx, hu, Option.bind_eq_bind, Option.some_bind]
      · intro j hj
        rw [hup j]
        obtain ⟨d, hd, _⟩ := getElem?_of_lt v j (by omega)
        by_cases hji : j = i
        · subst hji
          simp [hd]
        · have := hI j (by omega)
          rw [hd, Option.map_some'] at this
          simp [hd, hji, this])
  refine ⟨out, h, holen.trans hlen, ?_⟩
  intro j
  rw [hp j]
  apply map_congr_getElem?
  intro d _ hlt
  have : 0 ≤ j ∧ j < 0 + closes.length := by omega
  rw [if_pos this]

/-- One pass of the Bollinger loop in pointwise form. -/
theorem bollingerStep_pointwise (sqrt : K → K) (closes : List K) (i : Nat)
    (inds : List (IndicatorData K)) (h19 : 19 ≤ i) (hi : i < closes.length)
    (hlen : inds.length = closes.length) :
    ∃ out, bollingerStep sqrt closes i inds = some out ∧ out.length = inds.length ∧
      ∀ j, out[j]? = (inds[j]?).map (fun d : IndicatorData K =>
        if j = i then
          { d with
            bb_middle := windowMean closes i
            bb_upper := windowMean closes i + 2 * sqrt (windowVariance closes i)
            bb_lower := windowMean closes i - 2 * sqrt (windowVariance closes i) }
        else d) := by
  obtain ⟨out, d, hstep, holen, hog, hoo, hoi, hm, hu, hl⟩ := bollingerStep_spec
    (fun d : IndicatorData K => (d.rsi, d.macd, d.macd_signal, d.macd_hist, d.ema, d.atr))
    (fun _ _ => rfl) (fun _ _ => rfl) (fun _ _ => rfl) sqrt closes i inds h19 hi hlen
  refine ⟨out, hstep, holen.trans hlen.symm, ?_⟩
  intro j
  by_cases hj : j = i
  · subst hj
    obtain ⟨d0, hd0, _⟩ := getElem?_of_lt inds j (by omega)
    obtain ⟨d2, hd2, e⟩ := getElem?_of_map_eq _ out inds hog j d0 hd0
    rw [hoi] at hd2
    have hdd : d = d2 := Option.some.inj hd2
    subst hdd
    rw [hoi, hd0, Option.map_some', if_pos rfl]
    simp only [Prod.mk.injEq] at e
    obtain ⟨e1, e2, e3, e4, e5, e6⟩ := e
    cases d
    cases d0
    simp only at e1 e2 e3 e4 e5 e6 hm hu hl
    simp only [e1, e2, e3, e4, e5, e6, hm, hu, hl]
  · rw [hoo j hj]
    cases inds[j]? with
    | none => rfl
    | some d0 => simp only [Option.map_some', hj, if_false]

/-- The Bollinger block in pointwise form. -/
theorem bollingerBlock_pointwise (sqrt : K → K) (closes : List K)
    (inds : List (IndicatorData K)) (hlen : inds.length = closes.length) :
    ∃ out, bollingerBlock sqrt closes inds = some out ∧ out.length = closes.length ∧
      ∀ j, out[j]? = (inds[j]?).map (fun d : IndicatorData K =>
        if 20 ≤ closes.length ∧ 19 ≤ j then
          { d with
            bb_middle := windowMean closes j
            bb_upper := windowMean closes j + 2 * sqrt (windowVariance closes j)
            bb_lower := windowMean closes j - 2 * sqrt (windowVariance closes j) }
        else d) := by
  by_cases hn : 20 ≤ closes.length
  · obtain ⟨out, h, _, holen, hp⟩ := forLoop_pointwise (bollingerStep sqrt closes) (fun s => s)
      (fun _ _ => True)
      (fun i d =>
        { d with
          bb_middle := windowMean closes i
          bb_upper := windowMean closes i + 2 * sqrt (windowVariance closes i)
          bb_lower := windowMean closes i - 2 * sqrt (windowVariance closes i) })
      (closes.length - 19) 19 inds trivial
      (by
        rintro i v hi1 hi2 _ hvl
        simp only at hvl
        obtain ⟨v2, hs, hl2, hp2⟩ := bollingerStep_pointwise sqrt closes i v hi1 (by omega)
          (hvl.trans hlen)
        exact ⟨v2, hs, trivial, hl2, hp2⟩)
    refine ⟨out, ?_, holen.trans hlen, ?_⟩
    · simp only [bollingerBlock, hn, if_true, h]
    · intro j
      rw [hp j]
      apply map_congr_getElem?
      intro d _ hlt
      by_cases hj : 19 ≤ j
      · have : 19 ≤ j ∧ j < 19 + (closes.length - 19) := by omega
        rw [if_pos this, if_pos ⟨hn, hj⟩]
      · have : ¬ (19 ≤ j ∧ j < 19 + (closes.length - 19)) := by omega
        rw [if_neg this, if_neg (fun h => hj h.2)]
  · refine ⟨inds, by simp only [bollingerBlock, hn, if_false], hlen, ?_⟩
    intro j
    have : ∀ d : IndicatorData K,
        (if 20 ≤ closes.length ∧ 19 ≤ j then
          { d with
            bb_middle := windowMean closes j
            bb_upper := windowMean closes j + 2 * sqrt (windowVariance closes j)
            bb_lower := windowMean closes j - 2 * sqrt (windowVariance closes j) }
        else d) = d := by
      intro d; rw [if_neg (fun h => hn h.1)]
    simp only [this, Option.map_id']

end PointwiseLemmas3
section PointwiseLemmas4

variable {K : Type} [LinearOrderedField K]

/-- The true-range loop terminates normally with a vector of the length of the
series. -/
theorem trueRange_loop (closes highs lows : List K) (hh : highs.length = closes.length)
    (hl : lows.length = closes.length) :
    ∃ tr, forLoop (trueRangeStep closes highs lows) (closes.length - 1) 1
        (List.replicate closes.length 0) = some tr ∧ tr.length = closes.length := by
  exact forLoop_inv (trueRangeStep closes highs lows) (fun _ s => s.length = closes.length)
    (closes.length - 1) 1 (List.replicate closes.length 0) (by simp)
    (by
      intro i t hi1 hi2 htl
      obtain ⟨out, v, hstep, holen, _⟩ :=
        trueRangeStep_spec closes highs lows t i hi1 (by omega) (by omega) (by omega)
          (by omega)
      exact ⟨out, hstep, holen.trans htl⟩)

/-- The loop that sums `tr[1..count]` terminates normally while it stays in
bounds. -/
theorem sumTR_loop (tr : List K) (count : Nat) (h : count < tr.length) :
    ∃ sumTR, forLoop (sumTRStep tr) count 1 0 = some sumTR := by
  obtain ⟨s, hs, _⟩ := forLoop_inv (sumTRStep tr) (fun _ _ => True) count 1 0 trivial
    (by
      intro i acc hi1 hi2 _
      obtain ⟨t, ht, _⟩ := getElem?_of_lt tr i (by omega)
      exact ⟨acc + t, by simp only [sumTRStep, ht, Option.bind_eq_bind, Option.some_bind],
        trivial⟩)
  exact ⟨s, hs⟩

/-- On a series of exactly 14 candles the ATR block reads `tr[14]`, one past the
end of `tr`: the access is out of bounds. -/
theorem atrBlock_length_14 (closes highs lows : List K) (inds : List (IndicatorData K))
    (hh : highs.length = closes.length) (hl : lows.length = closes.length)
    (hn : closes.length = 14) :
    atrBlock closes highs lows inds = none := by
  obtain ⟨tr, htr, htrlen⟩ := trueRange_loop closes highs lows hh hl
  obtain ⟨acc, hacc⟩ := sumTR_loop tr 13 (by omega)
  have hfail : forLoop (sumTRStep tr) 14 1 0 = none := by
    rw [show (14 : Nat) = 13 + 1 from rfl, forLoop_append, hacc]
    have hnone : tr[14]? = none := List.getElem?_eq_none (by omega)
    simp only [Option.some_bind, forLoop, sumTRStep, hnone, Option.bind_eq_bind,
      Option.none_bind]
  have h14 : 14 ≤ closes.length := by omega
  simp only [atrBlock, h14, if_true, htr, hfail, Option.bind_eq_bind, Option.some_bind,
    Option.none_bind]

/-- The smoothing loop of the ATR block in pointwise form. -/
theorem atrLoop_pointwise (tr : List K) (seed : K) (inds : List (IndicatorData K))
    (htr : tr.length = inds.length) (h15 : 15 ≤ inds.length)
    (h14 : (inds[14]?).map (fun d => d.atr) = some seed) :
    ∃ out, forLoop (atrStep tr) (inds.length - 15) 15 inds = some out ∧
      out.length = inds.length ∧
      ∀ j, out[j]? = (inds[j]?).map (fun d : IndicatorData K =>
        if 15 ≤ j then { d with atr := atrAt tr seed (j - 14) } else d) := by
  obtain ⟨out, h, _, holen, hp⟩ := forLoop_pointwise (atrStep tr) (fun s => s)
    (fun k s => (s[k - 1]?).map (fun d => d.atr) = some (atrAt tr seed (k - 15)))
    (fun i d => { d with atr := atrAt tr seed (i - 14) })
    (inds.length - 15) 15 inds h14
    (by
      rintro i v hi1 hi2 hI hvl
      simp only at hvl
      obtain ⟨p, hp, _⟩ := getElem?_of_lt v (i - 1) (by omega)
      rw [hp, Option.map_some'] at hI
      obtain ⟨t, ht, _⟩ := getElem?_of_lt tr i (by omega)
      have hw : atrAt tr seed (i - 14) = (p.atr * 13 + t) / 14 := by
        have e1 : i - 14 = (i - 15) + 1 := by omega
        have e2 : 15 + (i - 15) = i := by omega
        rw [e1, atrAt, e2, getD_of_getElem? tr i t 0 ht, Option.some.inj hI]
      obtain ⟨v2, hu, hulen, hup⟩ := updateAt_pointwise
        (fun d : IndicatorData K => { d with atr := (p.atr * 13 + t) / 14 }) v i (by omega)
      refine ⟨v2, ?_, ?_, hulen, ?_⟩
      · simp only [atrStep, hp, ht, hu, Option.bind_eq_bind, Option.some_bind]
      · obtain ⟨d, hd, _⟩ := getElem?_of_lt v i (by omega)
        have e : i + 1 - 1 = i := by omega
        have e2 : i + 1 - 15 = i - 14 := by omega
        rw [e, e2, hup i, hd, hw]
        simp
      · intro j
        rw [hup j]
        simp only [hw])
  refine ⟨out, h, holen, ?_⟩
  intro j
  rw [hp j]
  apply map_congr_getElem?
  intro d _ hlt
  by_cases hj : 15 ≤ j
  · have : 15 ≤ j ∧ j < 15 + (inds.length - 15) := by omega
    rw [if_pos this, if_pos hj]
  · have : ¬ (15 ≤ j ∧ j < 15 + (inds.length - 15)) := by omega
    rw [if_neg this, if_neg hj]

/-- The ATR block on a series whose length is not 14, in pointwise form: there
are values `A j`, determined by the candles alone, such that on every indicator
vector the block sets the atr of index `j` to `A j` when there are at least 14
candles and `j >= 14`, and changes nothing else. -/
theorem atrBlock_pointwise (closes highs lows : List K)
    (hh : highs.length = closes.length) (hl : lows.length = closes.length)
    (hn : closes.length ≠ 14) :
    ∃ A : Nat → K, ∀ inds : List (IndicatorData K), inds.length = closes.length →
      ∃ out, atrBlock closes highs lows inds = some out ∧ out.length = closes.length ∧
        ∀ j, out[j]? = (inds[j]?).map (fun d : IndicatorData K =>
          if 14 ≤ closes.length ∧ 14 ≤ j then { d with atr := A j } else d) := by
  by_cases h14 : 14 ≤ closes.length
  · obtain ⟨tr, htr, htrlen⟩ := trueRange_loop closes highs lows hh hl
    obtain ⟨sumTR, hsum⟩ := sumTR_loop tr 14 (by omega)
    refine ⟨fun j => atrAt tr (sumTR / 14) (j - 14), ?_⟩
    intro inds hlen
    obtain ⟨d14, hd14, _⟩ := getElem?_of_lt inds 14 (by omega)
    obtain ⟨inds1, hu1, hu1len, hu1p⟩ := updateAt_pointwise
      (fun d : IndicatorData K => { d with atr := sumTR / 14 }) inds 14 (by omega)
    obtain ⟨out, hloop, holen, hp⟩ := atrLoop_pointwise tr (sumTR / 14) inds1
      (by omega) (by omega) (by rw [hu1p 14, hd14]; simp)
    rw [hu1len, hlen] at hloop
    refine ⟨out, ?_, by omega, ?_⟩
    · simp only [atrBlock, h14, if_true, htr, hsum, hu1, hloop, Option.bind_eq_bind,
        Option.some_bind]
    · intro j
      rw [hp j, hu1p j]
      cases inds[j]? with
      | none => rfl
      | some d =>
        simp only [Option.map_some']
        by_cases hj : j = 14
        · subst hj
          simp [h14, atrAt]
        · by_cases hj2 : 15 ≤ j
          · have : 14 ≤ closes.length ∧ 14 ≤ j := by omega
            simp only [hj, hj2, this, if_false, if_true, and_self]
          · have : ¬ (14 ≤ closes.length ∧ 14 ≤ j) := by omega
            simp only [hj, hj2, this, if_false]
  · refine ⟨fun _ => 0, ?_⟩
    intro inds hlen
    refine ⟨inds, by simp only [atrBlock, h14, if_false], hlen, ?_⟩
    intro j
    have : ∀ d : IndicatorData K,
        (if 14 ≤ closes.length ∧ 14 ≤ j then { d with atr := (0 : K) } else d) = d := by
      intro d; rw [if_neg (fun h => h14 h.1)]
    simp only [this, Option.map_id']

end PointwiseLemmas4

/-- The entries of a resized vector. -/
theorem resize_getElem? {α : Type} (v : List α) (n : Nat) (d : α) (j : Nat) :
    (resize v n d)[j]? = if j < n then some (v.getD j d) else none := by
  unfold resize
  by_cases hj : j < n
  · rw [if_pos hj]
    by_cases hv : j < v.length
    · rw [List.getElem?_append_left (by rw [List.length_take]; omega),
        List.getElem?_take_of_lt hj, List.getElem?_eq_getElem hv]
      simp [List.getD, List.getElem?_eq_getElem hv]
    · rw [List.getElem?_append_right (by rw [List.length_take]; omega),
        List.getElem?_replicate, if_pos (by rw [List.length_take]; omega)]
      simp [List.getD, List.getElem?_eq_none (not_lt.mp hv)]
  · rw [if_neg hj, List.getElem?_eq_none]
    simp only [List.length_append, List.length_take, List.length_replicate]
    omega

section RunLemmas

variable {K : Type} [LinearOrderedField K]

/-- A run of `calculateIndicators` in pointwise form: on a non-empty series whose
length is not 14 and whose candles parse there are values `R j` and `A j`,
determined by the candles alone, such that for every stored vector `prev` the
run terminates normally and turns entry `j` of the resized vector into
`snapshotUpdate sqrt closes R A j` of it. -/
theorem calculateIndicators_pointwise (sqrt : K → K) (stod : String → Option K)
    (candles : List Candle) (closes highs lows : List K)
    (hparse : parseCandles stod candles = some (closes, highs, lows))
    (hne : candles ≠ []) (hn : candles.length ≠ 14) :
    ∃ R A : Nat → K, ∀ prev : List (IndicatorData K),
      ∃ out, calculateIndicators sqrt stod candles prev = some out ∧
        out.length = candles.length ∧
        ∀ j, out[j]? = ((resize prev closes.length (IndicatorData.default K))[j]?).map
          (snapshotUpdate sqrt closes R A j) := by
  obtain ⟨hcl, hhl, hll⟩ := parseCandles_length stod candles closes highs lows hparse
  obtain ⟨R, hR⟩ := rsiBlock_pointwise closes
  obtain ⟨A, hA⟩ := atrBlock_pointwise closes highs lows (hhl.trans hcl.symm)
    (hll.trans hcl.symm) (by omega)
  refine ⟨R, A, ?_⟩
  intro prev
  obtain ⟨i1, h1, h1len, h1p⟩ := hR (resize prev closes.length (IndicatorData.default K))
    (resize_length _ _ _)
  obtain ⟨i2, h2, h2len, h2p⟩ := macdBlock_pointwise closes i1 h1len
  obtain ⟨i3, h3, h3len, h3p⟩ := emaBlock_pointwise closes i2 h2len
  obtain ⟨i4, h4, h4len, h4p⟩ := bollingerBlock_pointwise sqrt closes i3 h3len
  obtain ⟨out, h5, h5len, h5p⟩ := hA i4 h4len
  refine ⟨out, calculateIndicators_eq sqrt stod candles prev closes highs lows i1 i2 i3 i4 out
    hne hparse h1 h2 h3 h4 h5, h5len.trans hcl, ?_⟩
  intro j
  rw [h5p j, h4p j, h3p j, h2p j, h1p j]
  cases (resize prev closes.length (IndicatorData.default K))[j]? with
  | none => rfl
  | some d =>
    simp only [Option.map_some', snapshotUpdate]
    by_cases c14 : 14 ≤ closes.length ∧ 14 ≤ j <;> by_cases c9 : 9 ≤ closes.length <;>
      by_cases c20 : 20 ≤ closes.length ∧ 19 ≤ j <;>
      simp only [c14, c9, c20, and_self, if_true, if_false]

/-- On a series of exactly 14 candles `calculateIndicators` runs into the
out-of-bounds access of the ATR block, whatever the stored vector. -/
theorem calculateIndicators_length_14 (sqrt : K → K) (stod : String → Option K)
    (candles : List Candle) (prev : List (IndicatorData K)) (closes highs lows : List K)
    (hparse : parseCandles stod candles = some (closes, highs, lows))
    (hn : candles.length = 14) :
    calculateIndicators sqrt stod candles prev = none := by
  obtain ⟨hcl, hhl, hll⟩ := parseCandles_length stod candles closes highs lows hparse
  obtain ⟨i1, h1, h1len, _⟩ := rsiBlock_bounded closes
    (resize prev closes.length (IndicatorData.default K)) (resize_length _ _ _)
  obtain ⟨i2, h2, h2len, _⟩ := macdBlock_pointwise closes i1 h1len
  obtain ⟨i3, h3, h3len, _⟩ := emaBlock_pointwise closes i2 h2len
  obtain ⟨i4, h4, h4len, _⟩ := bollingerBlock_pointwise sqrt closes i3 h3len
  have h5 := atrBlock_length_14 closes highs lows i4 (hhl.trans hcl.symm) (hll.trans hcl.symm)
    (hcl.trans hn)
  have he : candles.isEmpty = false := by
    cases candles with
    | nil => simp at hn
    | cons _ _ => rfl
  simp only [calculateIndicators, he, hparse, h1, h2, h3, h4, h5, Option.bind_eq_bind,
    Option.some_bind, Bool.false_eq_true, if_false]

end RunLemmas

/-- C16 (the code at the failing input): on fifteen candles whose close rises by
1 at every step, every per-step gain at indices 1..14 is 1 and every loss is 0,
so their arithmetic means are 1 and 0; the seed the code computes is (1/14, 0),
the gain of index 13 alone divided by 14. -/
theorem rsiSeed_is_one_step_over_14 :
    parseCandles (intStod ℚ) risingCandles =
        some (risingCloses, List.replicate 15 20, List.replicate 15 0) ∧
      rsiSeed risingCloses = some (1 / 14, 0) ∧
      meanOfFirst14 (gainAt risingCloses) = 1 ∧
      meanOfFirst14 (lossAt risingCloses) = 0 := by
  refine ⟨?_, ?_, ?_, ?_⟩ <;> with_unfolding_all decide

/-- C17 (counterexample): on two candles with closes 10 and 12 the MACD at index
1 is 56/351 and the period-9 EMA of the MACD series at index 1 is 56/1755, but
the stored macd_signal and macd_hist are 0 at both indices: with fewer than 9
closes the signal loop is skipped. -/
theorem calculateIndicators_no_signal_below_nine :
    (calculateIndicators (fun x => x) (intStod ℚ) twoCandles []).map
        (fun out => out.map (fun d => (d.macd, d.macd_signal, d.macd_hist))) =
        some [(0, 0, 0), (56 / 351, 0, 0)] ∧
      signalAt ([10, 12] : List ℚ) 1 = 56 / 1755 ∧
      macdAt ([10, 12] : List ℚ) 1 - signalAt ([10, 12] : List ℚ) 1 ≠ 0 := by
  refine ⟨?_, ?_, ?_⟩
  · with_unfolding_all decide
  · norm_num [signalAt, macdSeries, macdAt, emaAt, List.range, List.range.loop]
  · with_unfolding_all decide

/-- C17 (amended): for every non-empty candle series and every index i,
calculateIndicators stores macd[i] = EMA12[i] - EMA26[i]; when the series has at
least 9 candles it stores macd_signal[i] equal to the period-9 EMA recurrence on
the MACD series seeded at MACD[0] and macd_hist[i] = macd[i] - macd_signal[i],
and with fewer than 9 candles it leaves macd_signal and macd_hist as they were
stored; here EMA[0] = C[0] and EMA[i] = C[i]*k + EMA[i-1]*(1-k), k = 2/(period+1).
The MACD block does so on every series, the whole function on every series whose
length is not 14. -/
theorem calculateIndicators_macd_values {K : Type} [LinearOrderedField K]
    (sqrt : K → K) (stod : String → Option K) (candles : List Candle)
    (prev : List (IndicatorData K)) (closes highs lows : List K)
    (hparse : parseCandles stod candles = some (closes, highs, lows))
    (hne : candles ≠ []) :
    (∀ inds : List (IndicatorData K), inds.length = closes.length →
      ∃ mid, macdBlock closes inds = some mid ∧
        ∀ i, i < closes.length → ∃ d, mid[i]? = some d ∧
          d.macd = macdAt closes i ∧
          (9 ≤ closes.length →
            d.macd_signal = signalAt closes i ∧ d.macd_hist = d.macd - d.macd_signal)) ∧
    (candles.length ≠ 14 →
      ∃ out, calculateIndicators sqrt stod candles prev = some out ∧
        ∀ i, i < candles.length → ∃ d, out[i]? = some d ∧
          d.macd = macdAt closes i ∧
          (9 ≤ candles.length →
            d.macd_signal = signalAt closes i ∧ d.macd_hist = d.macd - d.macd_signal) ∧
          (candles.length < 9 →
            d.macd_signal = (prev.getD i (IndicatorData.default K)).macd_signal ∧
            d.macd_hist = (prev.getD i (IndicatorData.default K)).macd_hist)) := by
  obtain ⟨hcl, _, _⟩ := parseCandles_length stod candles closes highs lows hparse
  constructor
  · intro inds hlen
    obtain ⟨mid, h, hmlen, hp⟩ := macdBlock_pointwise closes inds hlen
    refine ⟨mid, h, ?_⟩
    intro i hi
    obtain ⟨d0, hd0, _⟩ := getElem?_of_lt inds i (by omega)
    refine ⟨_, by rw [hp i, hd0, Option.map_some'], ?_, ?_⟩
    · split_ifs <;> rfl
    · intro h9
      rw [if_pos h9]
      exact ⟨rfl, rfl⟩
  · intro hn
    obtain ⟨R, A, hRA⟩ := calculateIndicators_pointwise sqrt stod candles closes highs lows
      hparse hne hn
    obtain ⟨out, h, holen, hp⟩ := hRA prev
    refine ⟨out, h, ?_⟩
    intro i hi
    have hres : (resize prev closes.length (IndicatorData.default K))[i]? =
        some (prev.getD i (IndicatorData.default K)) := by
      rw [resize_getElem?, if_pos (by omega)]
    refine ⟨_, by rw [hp i, hres, Option.map_some'], rfl, ?_, ?_⟩
    · intro h9
      have h9c : 9 ≤ closes.length := by omega
      simp only [snapshotUpdate, h9c, if_true, and_self]
    · intro h9
      have h9c : ¬ (9 ≤ closes.length) := by omega
      simp only [snapshotUpdate, h9c, if_false, and_self]

/-- Witness for C17 (amended): fifteen equal candles and an empty store. -/
theorem calculateIndicators_macd_values_witness :
    ∃ out, calculateIndicators (fun x => x) (intStod ℚ) (flatCandles 15) [] = some out ∧
      ∀ i, i < (flatCandles 15).length → ∃ d, out[i]? = some d ∧
        d.macd = macdAt (List.replicate 15 (11 : ℚ)) i ∧
        (9 ≤ (flatCandles 15).length →
          d.macd_signal = signalAt (List.replicate 15 (11 : ℚ)) i ∧
          d.macd_hist = d.macd - d.macd_signal) ∧
        ((flatCandles 15).length < 9 →
          d.macd_signal =
            (([] : List (IndicatorData ℚ)).getD i (IndicatorData.default ℚ)).macd_signal ∧
          d.macd_hist =
            (([] : List (IndicatorData ℚ)).getD i (IndicatorData.default ℚ)).macd_hist) :=
  (calculateIndicators_macd_values (fun x => x) (intStod ℚ) (flatCandles 15) []
    (List.replicate 15 (11 : ℚ)) (List.replicate 15 (12 : ℚ)) (List.replicate 15 (9 : ℚ))
    (by decide) (by decide)).2 (by decide)
/-- A run on a longer series overrides whatever a run on a shorter series put
into a fresh snapshot: the members the longer run leaves alone at index `j` are
left alone by the shorter run too. -/
theorem snapshotUpdate_absorb {K : Type} [LinearOrderedField K] (sqrt : K → K)
    (cS cP : List K) (RS AS RP AP : Nat → K) (j : Nat) (hle : cP.length ≤ cS.length) :
    snapshotUpdate sqrt cS RS AS j
        (snapshotUpdate sqrt cP RP AP j (IndicatorData.default K)) =
      snapshotUpdate sqrt cS RS AS j (IndicatorData.default K) := by
  simp only [snapshotUpdate, IndicatorData.default, IndicatorData.mk.injEq]
  refine ⟨?_, trivial, ?_, ?_, trivial, ?_, ?_, ?_, ?_⟩ <;>
    (split_ifs <;> first | rfl | (exfalso; omega))

/-- A run of `calculateIndicators` on the empty store, entry by entry. -/
theorem calculateIndicators_fresh {K : Type} [LinearOrderedField K]
    (sqrt : K → K) (stod : String → Option K) (candles : List Candle)
    (store : List (IndicatorData K))
    (h : calculateIndicators sqrt stod candles [] = some store) :
    store = [] ∨ ∃ (closes : List K) (R A : Nat → K), closes.length = candles.length ∧
      ∀ j, store.getD j (IndicatorData.default K) =
        if j < candles.length then
          snapshotUpdate sqrt closes R A j (IndicatorData.default K)
        else IndicatorData.default K := by
  by_cases hne : candles = []
  · subst hne
    left
    simp only [calculateIndicators, List.isEmpty_nil, if_true, Option.some.injEq] at h
    exact h.symm
  · right
    have he : candles.isEmpty = false := by
      cases candles with
      | nil => exact absurd rfl hne
      | cons _ _ => rfl
    cases hpp : parseCandles stod candles with
    | none =>
      simp [calculateIndicators, he, hpp] at h
    | some t =>
      obtain ⟨closes, highs, lows⟩ := t
      obtain ⟨hcl, _, _⟩ := parseCandles_length stod candles closes highs lows hpp
      have hn : candles.length ≠ 14 := by
        intro h14
        rw [calculateIndicators_length_14 sqrt stod candles [] closes highs lows hpp h14] at h
        exact Option.noConfusion h
      obtain ⟨R, A, hRA⟩ := calculateIndicators_pointwise sqrt stod candles closes highs lows
        hpp hne hn
      obtain ⟨out, ho, holen, hp⟩ := hRA []
      rw [h] at ho
      have hso : store = out := Option.some.inj ho
      subst hso
      refine ⟨closes, R, A, hcl, ?_⟩
      intro j
      have hj := hp j
      rw [resize_getElem?] at hj
      by_cases hlt : j < candles.length
      · rw [if_pos (by omega)] at hj
        rw [if_pos hlt]
        simp only [List.getD_nil, Option.map_some'] at hj
        exact getD_of_getElem? store j _ _ hj
      · rw [if_neg (by omega)] at hj
        rw [if_neg hlt]
        simp only [Option.map_none'] at hj
        rw [List.getD_eq_getElem?_getD, hj]
        rfl

/-- Recomputation away from the length 14: for every candle series S and every
prefix P of S on which an earlier run ended normally, running
`calculateIndicators` on S from the store of that run gives exactly what running
it on S with an empty store gives; whenever S does not have exactly 14 candles
this is a snapshot sequence of the same length as S, and re-running on an
unchanged series (P = S) changes no stored value. -/
theorem calculateIndicators_recomputes {K : Type} [LinearOrderedField K]
    (sqrt : K → K) (stod : String → Option K) (S P : List Candle)
    (store : List (IndicatorData K)) (closes highs lows : List K)
    (hparse : parseCandles stod S = some (closes, highs, lows))
    (hP : P <+: S)
    (hstore : calculateIndicators sqrt stod P [] = some store) :
    calculateIndicators sqrt stod S store = calculateIndicators sqrt stod S [] ∧
    (S.length ≠ 14 →
      ∃ out, calculateIndicators sqrt stod S store = some out ∧ out.length = S.length) ∧
    (P = S → calculateIndicators sqrt stod S store = some store) := by
  have hmain : calculateIndicators sqrt stod S store = calculateIndicators sqrt stod S [] ∧
      (S.length ≠ 14 →
        ∃ out, calculateIndicators sqrt stod S store = some out ∧ out.length = S.length) := by
    by_cases hne : S = []
    · subst hne
      have hPnil : P = [] := List.prefix_nil.mp hP
      subst hPnil
      simp only [calculateIndicators, List.isEmpty_nil, if_true, Option.some.injEq] at hstore
      subst hstore
      exact ⟨rfl, fun _ => ⟨[], by simp [calculateIndicators], rfl⟩⟩
    · by_cases h14 : S.length = 14
      · rw [calculateIndicators_length_14 sqrt stod S store closes highs lows hparse h14,
          calculateIndicators_length_14 sqrt stod S [] closes highs lows hparse h14]
        exact ⟨rfl, fun h => absurd h14 h⟩
      · obtain ⟨hcl, _, _⟩ := parseCandles_length stod S closes highs lows hparse
        obtain ⟨R, A, hRA⟩ := calculateIndicators_pointwise sqrt stod S closes highs lows
          hparse hne h14
        obtain ⟨out1, h1, h1len, h1p⟩ := hRA store
        obtain ⟨out2, h2, h2len, h2p⟩ := hRA []
        have heq : out1 = out2 := by
          apply List.ext_getElem?
          intro j
          rw [h1p j, h2p j, resize_getElem?, resize_getElem?]
          by_cases hj : j < closes.length
          · rw [if_pos hj, if_pos hj, Option.map_some', Option.map_some', List.getD_nil]
            congr 1
            rcases calculateIndicators_fresh sqrt stod P store hstore with hnil |
                ⟨cP, RP, AP, hcP, hget⟩
            · rw [hnil, List.getD_nil]
            · rw [hget j]
              by_cases hjP : j < P.length
              · rw [if_pos hjP]
                exact snapshotUpdate_absorb sqrt closes cP R A RP AP j
                  (by have := hP.length_le; omega)
              · rw [if_neg hjP]
          · rw [if_neg hj, if_neg hj]
        rw [h1, h2, heq]
        exact ⟨rfl, fun _ => ⟨out2, rfl, h2len⟩⟩
  refine ⟨hmain.1, hmain.2, ?_⟩
  intro hPS
  subst hPS
  rw [hmain.1, hstore]

/-- An instance of the recomputation lemma: a run on twenty equal candles after a
run on the first fifteen of them. -/
theorem calculateIndicators_recomputes_witness :
    ∃ store, calculateIndicators (fun x => x) (intStod ℚ) (flatCandles 15) [] = some store ∧
      calculateIndicators (fun x => x) (intStod ℚ) (flatCandles 20) store =
        calculateIndicators (fun x => x) (intStod ℚ) (flatCandles 20) [] ∧
      ((flatCandles 20).length ≠ 14 →
        ∃ out, calculateIndicators (fun x => x) (intStod ℚ) (flatCandles 20) store = some out ∧
          out.length = (flatCandles 20).length) ∧
      (flatCandles 15 = flatCandles 20 →
        calculateIndicators (fun x => x) (intStod ℚ) (flatCandles 20) store = some store) := by
  obtain ⟨store, hs, _⟩ := calculateIndicators_run (fun x => x) (intStod ℚ) (flatCandles 15) []
    (List.replicate 15 (11 : ℚ)) (List.replicate 15 (12 : ℚ)) (List.replicate 15 (9 : ℚ))
    (by decide) (by decide) (by decide)
  exact ⟨store, hs, calculateIndicators_recomputes (fun x => x) (intStod ℚ) (flatCandles 20)
    (flatCandles 15) store (List.replicate 20 (11 : ℚ)) (List.replicate 20 (12 : ℚ))
    (List.replicate 20 (9 : ℚ)) (by decide) ⟨flatCandles 5, by decide⟩ hs⟩

/-- C18 (the code at the failing input): thirteen equal candles are a prefix of
fourteen equal candles and the run on the thirteen ends normally with a store of
13 snapshots, but the run on the fourteen from that store has no normal result,
and neither has the run on the fourteen from an empty store: no snapshot
sequence of length 14 is produced, and no run on the fourteen yields a store
that a re-run on the unchanged series could leave as it is. -/
theorem calculateIndicators_rerun_fails_at_14 :
    flatCandles 13 <+: flatCandles 14 ∧
    ∃ store, calculateIndicators (fun x => x) (intStod ℚ) (flatCandles 13) [] = some store ∧
      store.length = 13 ∧
      calculateIndicators (fun x => x) (intStod ℚ) (flatCandles 14) store = none ∧
      calculateIndicators (fun x => x) (intStod ℚ) (flatCandles 14) [] = none ∧
      ¬ ∃ out, calculateIndicators (fun x => x) (intStod ℚ) (flatCandles 14) store = some out ∧
        out.length = (flatCandles 14).length := by
  obtain ⟨store, hs, hlen, _⟩ := calculateIndicators_run (fun x => x) (intStod ℚ)
    (flatCandles 13) []
    (List.replicate 13 (11 : ℚ)) (List.replicate 13 (12 : ℚ)) (List.replicate 13 (9 : ℚ))
    (by decide) (by decide) (by decide)
  have h14 : ∀ prev, calculateIndicators (fun x => x) (intStod ℚ) (flatCandles 14) prev = none :=
    fun prev => calculateIndicators_length_14 (fun x => x) (intStod ℚ) (flatCandles 14) prev
      (List.replicate 14 (11 : ℚ)) (List.replicate 14 (12 : ℚ)) (List.replicate 14 (9 : ℚ))
      (by decide) (by decide)
  refine ⟨⟨flatCandles 1, by decide⟩, store, hs, hlen.trans (by decide), h14 store, h14 [], ?_⟩
  rintro ⟨out, ho, _⟩
  rw [h14 store] at ho
  exact Option.noConfusion ho

/-- C19 (the code at the failing input): a series of exactly 14 candles passes
the guard `closes.size() >= 14` of the ATR block, index 14 is not less than the
length, and the block's read of `tr[14]` (and write of `indicators[14]`) is out
of bounds: the model of `calculateIndicators` has no normal result. -/
theorem calculateIndicators_out_of_bounds_at_14 {K : Type} [LinearOrderedField K]
    (sqrt : K → K) (stod : String → Option K) (candles : List Candle)
    (prev : List (IndicatorData K)) (closes highs lows : List K)
    (hparse : parseCandles stod candles = some (closes, highs, lows))
    (hn : candles.length = 14) :
    14 ≤ closes.length ∧ ¬ (14 < closes.length) ∧
      atrBlock closes highs lows (List.replicate closes.length (IndicatorData.default K))
        = none ∧
      calculateIndicators sqrt stod candles prev = none := by
  obtain ⟨hcl, hhl, hll⟩ := parseCandles_length stod candles closes highs lows hparse
  exact ⟨by omega, by omega,
    atrBlock_length_14 closes highs lows _ (hhl.trans hcl.symm) (hll.trans hcl.symm)
      (hcl.trans hn),
    calculateIndicators_length_14 sqrt stod candles prev closes highs lows hparse hn⟩

/-- Witness for C19: fourteen equal candles, each with 6 fields, and an empty
store. -/
theorem calculateIndicators_out_of_bounds_at_14_witness :
    14 ≤ (List.replicate 14 (11 : ℚ)).length ∧ ¬ (14 < (List.replicate 14 (11 : ℚ)).length) ∧
      atrBlock (List.replicate 14 (11 : ℚ)) (List.replicate 14 (12 : ℚ))
        (List.replicate 14 (9 : ℚ))
        (List.replicate (List.replicate 14 (11 : ℚ)).length (IndicatorData.default ℚ)) = none ∧
      calculateIndicators (fun x => x) (intStod ℚ) (flatCandles 14) [] = none :=
  calculateIndicators_out_of_bounds_at_14 (fun x => x) (intStod ℚ) (flatCandles 14) []
    (List.replicate 14 (11 : ℚ)) (List.replicate 14 (12 : ℚ)) (List.replicate 14 (9 : ℚ))
    (by decide) (by decide)

section SeedLemmas

variable {K : Type} [LinearOrderedField K]

/-- The gain/loss loop in closed form: after it, `gain[j]` and `loss[j]` are the
per-step gain and loss of index `j` for every `j` from 1 on. -/
theorem gainLoss_loop_values (closes : List K) :
    ∃ delta gain loss,
      forLoop (gainLossStep closes) (closes.length - 1) 1
        (List.replicate closes.length 0, List.replicate closes.length 0,
          List.replicate closes.length 0) = some (delta, gain, loss) ∧
      (∀ j, 1 ≤ j → j < closes.length → gain[j]? = some (gainAt closes j)) ∧
      (∀ j, 1 ≤ j → j < closes.length → loss[j]? = some (lossAt closes j)) := by
  obtain ⟨⟨delta, gain, loss⟩, h, hinv⟩ := forLoop_inv (gainLossStep closes)
    (fun k s => s.1.length = closes.length ∧ s.2.1.length = closes.length ∧
      s.2.2.length = closes.length ∧
      (∀ j, j < closes.length →
        s.2.1[j]? = some (if 1 ≤ j ∧ j < k then gainAt closes j else 0)) ∧
      (∀ j, j < closes.length →
        s.2.2[j]? = some (if 1 ≤ j ∧ j < k then lossAt closes j else 0)))
    (closes.length - 1) 1
    (List.replicate closes.length 0, List.replicate closes.length 0,
      List.replicate closes.length 0)
    ⟨by simp, by simp, by simp,
      fun j hj => by
        have : ¬ (1 ≤ j ∧ j < 1) := by omega
        rw [if_neg this, List.getElem?_replicate, if_pos hj],
      fun j hj => by
        have : ¬ (1 ≤ j ∧ j < 1) := by omega
        rw [if_neg this, List.getElem?_replicate, if_pos hj]⟩
    (by
      rintro i ⟨d, g, l⟩ h1 h2 ⟨hd, hg, hl, hgv, hlv⟩
      simp only at hd hg hl hgv hlv
      obtain ⟨ci, hci, _⟩ := getElem?_of_lt closes i (by omega)
      obtain ⟨cp, hcp, _⟩ := getElem?_of_lt closes (i - 1) (by omega)
      have hgi : gainAt closes i = max (ci - cp) 0 := by
        rw [gainAt, getD_of_getElem? closes i ci 0 hci, getD_of_getElem? closes (i - 1) cp 0 hcp]
      have hli : lossAt closes i = max (cp - ci) 0 := by
        rw [lossAt, getD_of_getElem? closes i ci 0 hci, getD_of_getElem? closes (i - 1) cp 0 hcp]
      obtain ⟨d2, hd2, hd2len, hd2i, _⟩ := updateAt_spec (fun _ => ci - cp) d i (by omega)
      obtain ⟨d0, hd0, _⟩ := getElem?_of_lt d i (by omega)
      rw [hd0, Option.map_some'] at hd2i
      have hothers : ∀ (f : Nat → K) (v : List K) (j : Nat), j < closes.length → j ≠ i →
          v[j]? = some (if 1 ≤ j ∧ j < i then f j else 0) →
          v[j]? = some (if 1 ≤ j ∧ j < i + 1 then f j else 0) := by
        intro f v j _ hji hv
        rw [hv]
        by_cases hc : 1 ≤ j ∧ j < i
        · rw [if_pos hc, if_pos (by omega)]
        · rw [if_neg hc, if_neg (by omega)]
      have hi1 : 1 ≤ i ∧ i < i + 1 := by omega
      by_cases hpos : ci - cp > 0
      · obtain ⟨g2, hg2, hg2len, hg2i, hg2o⟩ := updateAt_spec (fun _ => ci - cp) g i (by omega)
        obtain ⟨g0, hg0, _⟩ := getElem?_of_lt g i (by omega)
        rw [hg0, Option.map_some'] at hg2i
        refine ⟨(d2, g2, l), ?_, hd2len.trans hd, hg2len.trans hg, hl, ?_, ?_⟩
        · simp only [gainLossStep, writeAt, hci, hcp, hd2, hd2i, hpos, hg2, if_true,
            Option.bind_eq_bind, Option.some_bind]
        · intro j hj
          by_cases hji : j = i
          · subst hji
            rw [hg2i, if_pos hi1, hgi, max_eq_left hpos.le]
          · rw [hg2o j hji]
            exact hothers (gainAt closes) g j hj hji (hgv j hj)
        · intro j hj
          by_cases hji : j = i
          · subst hji
            have := hlv j hj
            rw [if_neg (by omega)] at this
            rw [this, if_pos hi1, hli, max_eq_right (by linarith)]
          · exact hothers (lossAt closes) l j hj hji (hlv j hj)
      · obtain ⟨l2, hl2, hl2len, hl2i, hl2o⟩ := updateAt_spec (fun _ => -(ci - cp)) l i
          (by omega)
        obtain ⟨l0, hl0, _⟩ := getElem?_of_lt l i (by omega)
        rw [hl0, Option.map_some'] at hl2i
        refine ⟨(d2, g, l2), ?_, hd2len.trans hd, hg, hl2len.trans hl, ?_, ?_⟩
        · simp only [gainLossStep, writeAt, hci, hcp, hd2, hd2i, hpos, hl2, if_false,
            Option.bind_eq_bind, Option.some_bind]
        · intro j hj
          by_cases hji : j = i
          · subst hji
            have := hgv j hj
            rw [if_neg (by omega)] at this
            rw [this, if_pos hi1, hgi, max_eq_right (not_lt.mp hpos)]
          · exact hothers (gainAt closes) g j hj hji (hgv j hj)
        · intro j hj
          by_cases hji : j = i
          · subst hji
            rw [hl2i, if_pos hi1, hli, max_eq_left (by linarith [not_lt.mp hpos]), neg_sub]
          · rw [hl2o j hji]
            exact hothers (lossAt closes) l j hj hji (hlv j hj))
  simp only at hinv
  refine ⟨delta, gain, loss, h, ?_, ?_⟩
  · intro j h1 h2
    rw [hinv.2.2.2.1 j h2, if_pos (by omega)]
  · intro j h1 h2
    rw [hinv.2.2.2.2 j h2, if_pos (by omega)]

/-- The seed of the RSI smoothing as the code computes it: the gain and the loss
of index 13 alone, each divided by 14. -/
theorem rsiSeed_eq (closes : List K) (h14 : 14 ≤ closes.length) :
    rsiSeed closes = some (gainAt closes 13 / 14, lossAt closes 13 / 14) := by
  obtain ⟨delta, gain, loss, hgl, hg, hl⟩ := gainLoss_loop_values closes
  have hg13 := hg 13 (by omega) (by omega)
  have hl13 := hl 13 (by omega) (by omega)
  simp only [rsiSeed, hgl, forLoop, rsiSeedStep, hg13, hl13, Option.bind_eq_bind,
    Option.some_bind, zero_add]

/-- The RSI block starts its smoothing loop from `rsiSeed`. -/
theorem rsiBlock_from_seed (closes : List K) (inds : List (IndicatorData K))
    (h14 : 14 ≤ closes.length) :
    ∃ gain loss seed, rsiSeed closes = some seed ∧
      rsiBlock closes inds =
        (forLoop (rsiStep gain loss) (closes.length - 14) 14 (seed.1, seed.2, inds)).map
          (fun s => s.2.2) := by
  obtain ⟨delta, gain, loss, hgl, hg, hl⟩ := gainLoss_loop_values closes
  have hg13 := hg 13 (by omega) (by omega)
  have hl13 := hl 13 (by omega) (by omega)
  refine ⟨gain, loss, ((0 + gainAt closes 13) / 14, (0 + lossAt closes 13) / 14), ?_, ?_⟩
  · simp only [rsiSeed, hgl, forLoop, rsiSeedStep, hg13, hl13, Option.bind_eq_bind,
      Option.some_bind]
  · simp only [rsiBlock, h14, if_true, hgl, forLoop, rsiSeedStep, hg13, hl13,
      Option.bind_eq_bind, Option.some_bind]
    cases forLoop (rsiStep gain loss) (closes.length - 14) 14
      ((0 + gainAt closes 13) / 14, (0 + lossAt closes 13) / 14, inds) <;> rfl

end SeedLemmas

end Cryptobot
